import Mathlib

/-!
# Gauss-Jordan system solver: a shallow embedding of `GaussJordan_SystemSolver.cpp`

The C++ program reduces an augmented `N x (N+1)` matrix to row canonical form and
reads the solution off the last column.  This file embeds the three core functions
(`rowCanonicalForm`, `gaussJordanElimination`, `solveSystem_PreReducedMatrix`) and
proves properties of them.

The functions are embedded twice.
* `Prog.rowCanonicalForm`, `Prog.gaussJordanElimination`, ... take the arithmetic of the
  entries as a parameter.  At `ieee` they are the program: `vector<vector<double>>` is
  `List (List F64)`, every `*`, `+` and `/` is the correctly rounded IEEE 754 binary64
  operation (round to nearest, ties to even; no fused multiply-add), a division by zero
  yields an infinity or a NaN and the run goes on, and `== 0`, `!= 0`, `!= 1` are the
  comparisons of doubles.  At `guarded` the same run stops at its first division by a
  zero divisor, at `checked` at its first operation whose result is not the exact one.
* `rowCanonicalForm`, `gaussJordanElimination`, ... outside `Prog` are the same source
  text over exact rationals with every division guarded; they are the functions of
  `Prog` at `exactQ` (theorems `corr_rd` to `corr_gaussJordanElimination`).  The
  properties that rest on comparisons and on element access only are stated on them, and
  they are the reference that a run of the program without rounding follows (theorems
  `sim_gaussJordanElimination`, `exact_run`).  What the program does to the values of
  the entries is stated on `Prog` at `ieee`.

Modelling conventions.
* Every `operator[]` is a fallible access (`rd`, `wr`): an index outside the vector stops
  the run (`Fault.outOfRange`, `Stop.outOfRange`).  A run returning `Except.ok` therefore
  performed no out-of-range access.
* A `for (k = 0; k < v.size(); k++)` loop whose body only stores into existing elements is
  a bounded iteration over the size read at loop entry (`forRange`); element stores never
  change a size.  Loops with a second exit condition or an early `return` are separate
  recursive functions that re-evaluate that condition before every iteration.
* Loop counters are naturals (the `int` counters of the source do not overflow for any
  vector that fits in memory); the one `size_t` subtraction that can wrap, `size() - 1`,
  is `sizePred`.
* The input file is read entry by entry into doubles: `parsed` is the matrix of the
  doubles nearest to the decimal entries.
-/

namespace GaussJordan

/-- A matrix with exact rational entries, stored as the source stores a matrix: a sequence
of rows, each a sequence of entries. -/
abbrev Mat := List (List ℚ)

/-- The ways a run over exact rationals stops: an access out of range, or a division by
zero, which has no rational result. -/
inductive Fault where
  /-- An `operator[]` with an index outside the vector. -/
  | outOfRange : Fault
  /-- The division `1 / tempNum` of step (3) at column `a` with `tempNum = 0`. -/
  | zeroPivot (a : Nat) : Fault
  /-- The division `-1 / y[i][a]` of step (4) at column `a`, row `i`, with `y[i][a] = 0`. -/
  | zeroScale (a i : Nat) : Fault
  /-- The division `1 / y[i][i]` of the final pass at row `i` with `y[i][i] = 0`. -/
  | zeroDiag (i : Nat) : Fault
  deriving DecidableEq

/-- Results of a run: a value, or the first fault met. -/
abbrev Run := Except Fault

/-- The read `y[i][j]`. -/
def rd (y : Mat) (i j : Nat) : Run ℚ :=
  match y[i]? with
  | none => .error .outOfRange
  | some r =>
    match r[j]? with
    | none => .error .outOfRange
    | some v => .ok v

/-- The store `y[i][j] = v`. -/
def wr (y : Mat) (i j : Nat) (v : ℚ) : Run Mat :=
  match y[i]? with
  | none => .error .outOfRange
  | some r => if j < r.length then .ok (y.set i (r.set j v)) else .error .outOfRange

/-- The size `y[i].size()` of row `i`. -/
def rowSize (y : Mat) (i : Nat) : Run Nat :=
  match y[i]? with
  | none => .error .outOfRange
  | some r => .ok r.length

/-- The `size_t` expression `n - 1`: it wraps to `2^64 - 1` at `n = 0`. -/
def sizePred (n : Nat) : Nat := if n = 0 then 2 ^ 64 - 1 else n - 1

/-- The call `v.resize(n)` of `std::vector`: truncate, or pad with value-initialised
elements `d`. -/
def vresize {α : Type} (v : List α) (n : Nat) (d : α) : List α :=
  v.take n ++ List.replicate (n - v.length) d

/-- A division `num / den` of exact rationals, stopping with `f` when `den = 0`; the
division of the program is `F64.div`, which returns an infinity or a NaN there. -/
def gdiv (num den : ℚ) (f : Fault) : Run ℚ :=
  if den = 0 then .error f else .ok (num / den)

/-- The loop `for (j = j0; j < j0 + k; j++) s = body j s`, stopping at the first fault. -/
def forRange {σ : Type} (body : Nat → σ → Run σ) : Nat → Nat → σ → Run σ
  | 0, _, s => .ok s
  | k + 1, j, s =>
    match body j s with
    | .error e => .error e
    | .ok s' => forRange body k (j + 1) s'

/-! ## `rowCanonicalForm` (source lines 264-311) -/

/-- The shape loop of `rowCanonicalForm` (lines 273-287) from row `i` with `k` rows left:
`false` when a `return false` is taken, `true` when the loop runs to its end. -/
def shapeLoop (x : Mat) : Nat → Nat → Run Bool
  | 0, _ => .ok true
  | k + 1, i =>
    match rowSize x i with
    | .error e => .error e
    | .ok n =>
      if i ≠ 0 ∧ x.length + 1 ≠ n then .ok false
      else if n ≠ x.length + 1 then .ok false
      else shapeLoop x k (i + 1)

/-- The inner entry loop of `rowCanonicalForm` (lines 295-305) on row `i` from column `j`
with `k` columns left. -/
def entryRowLoop (x : Mat) (i : Nat) : Nat → Nat → Run Bool
  | 0, _ => .ok true
  | k + 1, j =>
    match rd x i j with
    | .error e => .error e
    | .ok v =>
      if i = j then
        if v ≠ 1 then .ok false else entryRowLoop x i k (j + 1)
      else
        if v ≠ 0 then .ok false else entryRowLoop x i k (j + 1)

/-- The outer entry loop of `rowCanonicalForm` (lines 293-306) from row `i` with `k`
rows left. -/
def entryLoop (x : Mat) : Nat → Nat → Run Bool
  | 0, _ => .ok true
  | k + 1, i =>
    match rowSize x i with
    | .error e => .error e
    | .ok n =>
      match entryRowLoop x i (sizePred n) 0 with
      | .error e => .error e
      | .ok false => .ok false
      | .ok true => entryLoop x k (i + 1)

/-- The function `rowCanonicalForm`: shape loop, then entry loop. -/
def rowCanonicalForm (x : Mat) : Run Bool :=
  match shapeLoop x x.length 0 with
  | .error e => .error e
  | .ok false => .ok false
  | .ok true => entryLoop x x.length 0

/-! ## `solveSystem_PreReducedMatrix` (source lines 145-159) -/

/-- The store `solutions[i] = v` into a flat vector. -/
def wrv (s : List ℚ) (i : Nat) (v : ℚ) : Run (List ℚ) :=
  if i < s.length then .ok (s.set i v) else .error .outOfRange

/-- The body of the loop of `solveSystem_PreReducedMatrix` (lines 154-155). -/
def solveBody (x : Mat) (i : Nat) (s : List ℚ) : Run (List ℚ) :=
  match rowSize x i with
  | .error e => .error e
  | .ok n =>
    match rd x i (sizePred n) with
    | .error e => .error e
    | .ok v => wrv (vresize s (i + 1) 0) i v

/-- The function `solveSystem_PreReducedMatrix`. -/
def solveSystem_PreReducedMatrix (x : Mat) : Run (List ℚ) :=
  forRange (solveBody x) x.length 0 []

/-! ## `gaussJordanElimination` (source lines 162-261) -/

/-- The call `y[i].resize(n)`. -/
def resizeRow (y : Mat) (i n : Nat) : Run Mat :=
  match y[i]? with
  | none => .error .outOfRange
  | some r => .ok (y.set i (vresize r n 0))

/-- The body of the inner copy loop (lines 176-177). -/
def copyRowBody (x : Mat) (i : Nat) (j : Nat) (y : Mat) : Run Mat :=
  match resizeRow y i (j + 1) with
  | .error e => .error e
  | .ok y1 =>
    match rd x i j with
    | .error e => .error e
    | .ok v => wr y1 i j v

/-- The body of the outer copy loop (lines 173-178). -/
def copyBody (x : Mat) (i : Nat) (y : Mat) : Run Mat :=
  match rowSize x i with
  | .error e => .error e
  | .ok n => forRange (copyRowBody x i) n 0 (vresize y (i + 1) [])

/-- The copy of `x` into the fresh matrix `y` (lines 171-179). -/
def copyMatrix (x : Mat) : Run Mat :=
  forRange (copyBody x) x.length 0 []

/-- The body of the row swap (lines 207-209): exchange `y[a][j]` and `y[i][j]`. -/
def swapBody (a i : Nat) (j : Nat) (y : Mat) : Run Mat :=
  match rd y a j with
  | .error e => .error e
  | .ok t =>
    match rd y i j with
    | .error e => .error e
    | .ok v =>
      match wr y a j v with
      | .error e => .error e
      | .ok y1 => wr y1 i j t

/-- The pivot search (lines 199-213) from row `i` with `k` rows left: the first row with
a non-zero entry in column `a` is swapped with row `a`, which sets `stopLoop` and ends
the search. -/
def pivotSearch (a : Nat) : Nat → Nat → Mat → Run Mat
  | 0, _, y => .ok y
  | k + 1, i, y =>
    match rd y i a with
    | .error e => .error e
    | .ok c =>
      if c ≠ 0 then
        match rowSize y i with
        | .error e => .error e
        | .ok n => forRange (swapBody a i) n 0 y
      else pivotSearch a k (i + 1) y

/-- Step (2) at column `a` (lines 195-214). -/
def pivotStep (a : Nat) (y : Mat) : Run Mat :=
  match rd y a a with
  | .error e => .error e
  | .ok p => if p = 0 then pivotSearch a (y.length - (a + 1)) (a + 1) y else .ok y

/-- The body of the normalization loop (line 221): `y[a][i] = y[a][i] * (1 / tempNum)`. -/
def normalizeBody (a : Nat) (t : ℚ) (i : Nat) (y : Mat) : Run Mat :=
  match gdiv 1 t (.zeroPivot a) with
  | .error e => .error e
  | .ok q =>
    match rd y a i with
    | .error e => .error e
    | .ok v => wr y a i (v * q)

/-- Step (3) at column `a` (lines 218-222). -/
def normalizeStep (a : Nat) (y : Mat) : Run Mat :=
  match rd y a a with
  | .error e => .error e
  | .ok t =>
    match rowSize y a with
    | .error e => .error e
    | .ok n => forRange (normalizeBody a t) n 0 y

/-- The body of the inner elimination loop (line 238):
`y[i][j] = (y[i][j] * tempNum) + y[a][j]`. -/
def eliminateRowBody (a i : Nat) (t : ℚ) (j : Nat) (y : Mat) : Run Mat :=
  match rd y i j with
  | .error e => .error e
  | .ok u =>
    match rd y a j with
    | .error e => .error e
    | .ok v => wr y i j (u * t + v)

/-- The body of the outer elimination loop (lines 229-241). -/
def eliminateBody (a : Nat) (i : Nat) (y : Mat) : Run Mat :=
  if i ≠ a then
    match rd y i a with
    | .error e => .error e
    | .ok c =>
      if c ≠ 0 then
        match gdiv (-1) c (.zeroScale a i) with
        | .error e => .error e
        | .ok t =>
          match rowSize y i with
          | .error e => .error e
          | .ok n => forRange (eliminateRowBody a i t) n 0 y
      else .ok y
  else .ok y

/-- Step (4) at column `a` (lines 227-243). -/
def eliminateStep (a : Nat) (y : Mat) : Run Mat :=
  forRange (eliminateBody a) y.length 0 y

/-- One iteration of the main loop at column `a` (lines 193-243). -/
def columnStep (a : Nat) (y : Mat) : Run Mat :=
  match pivotStep a y with
  | .error e => .error e
  | .ok y1 =>
    match normalizeStep a y1 with
    | .error e => .error e
    | .ok y2 => eliminateStep a y2

/-- The main loop (line 191) from column `a` with `k` columns left; the guard
`!rowCanonicalForm(y)` is evaluated before every iteration.  Returns the matrix and the
value of `a` at loop exit. -/
def mainLoop : Nat → Nat → Mat → Run (Mat × Nat)
  | 0, a, y => .ok (y, a)
  | k + 1, a, y =>
    match rowCanonicalForm y with
    | .error e => .error e
    | .ok true => .ok (y, a)
    | .ok false =>
      match columnStep a y with
      | .error e => .error e
      | .ok y1 => mainLoop k (a + 1) y1

/-- The body of the inner loop of the final pass (line 255): `y[i][j] *= tempNum`. -/
def finalBody (i : Nat) (t : ℚ) (j : Nat) (y : Mat) : Run Mat :=
  match rd y i j with
  | .error e => .error e
  | .ok v => wr y i j (v * t)

/-- One iteration of the final pass at row `i` (lines 252-256). -/
def finalStep (i : Nat) (y : Mat) : Run Mat :=
  match rd y i i with
  | .error e => .error e
  | .ok d =>
    match gdiv 1 d (.zeroDiag i) with
    | .error e => .error e
    | .ok t =>
      match rowSize y i with
      | .error e => .error e
      | .ok n => forRange (finalBody i t) n 0 y

/-- The final pass (line 250) from row `i` with `k` rows left; the guard
`!rowCanonicalForm(y)` is evaluated before every iteration.  Returns the matrix and the
value of `i` at loop exit. -/
def finalLoop : Nat → Nat → Mat → Run (Mat × Nat)
  | 0, i, y => .ok (y, i)
  | k + 1, i, y =>
    match rowCanonicalForm y with
    | .error e => .error e
    | .ok true => .ok (y, i)
    | .ok false =>
      match finalStep i y with
      | .error e => .error e
      | .ok y1 => finalLoop k (i + 1) y1

/-- The function `gaussJordanElimination`: copy, main loop, final pass. -/
def gaussJordanElimination (x : Mat) : Run Mat :=
  match copyMatrix x with
  | .error e => .error e
  | .ok y =>
    match mainLoop y.length 0 y with
    | .error e => .error e
    | .ok (y1, _) =>
      match finalLoop y1.length 0 y1 with
      | .error e => .error e
      | .ok (y2, _) => .ok y2

deriving instance DecidableEq for Except

/-! ## The caller `main` (source lines 55-107) -/

/-- The branch of `main` taken after the input matrix is parsed and displayed. -/
inductive MainOutcome where
  /-- The message of line 82: zero rows. -/
  | errorZeroRows : MainOutcome
  /-- The message of line 88: not an `N x (N+1)` matrix. -/
  | errorNotShape : MainOutcome
  /-- The branch of lines 93-101: `gaussJordanElimination` was called on the input, then
  `solveSystem_PreReducedMatrix` on its result; the solutions shown, or the fault met. -/
  | reduced (solutions : Run (List ℚ)) : MainOutcome
  deriving DecidableEq

/-- The decision structure of `main` (lines 80-103) on the parsed `inputMatrix`; prompts
and output are left out. -/
def main (inputMatrix : Mat) : Run MainOutcome :=
  if inputMatrix.length = 0 then .ok .errorZeroRows
  else
    match rowSize inputMatrix 0 with
    | .error e => .error e
    | .ok n =>
      if n ≠ inputMatrix.length + 1 then .ok .errorNotShape
      else
        .ok (.reduced
          (match gaussJordanElimination inputMatrix with
           | .error e => .error e
           | .ok r => solveSystem_PreReducedMatrix r))

/-! ## IEEE 754 binary64 -/

/-- A value of type `double` (IEEE 754 binary64). -/
inductive F64 where
  /-- A finite value `(-1)^neg * mag`; `mag` is a non-negative rational that binary64
  represents, and `fin true 0` is the negative zero. -/
  | fin (neg : Bool) (mag : ℚ) : F64
  /-- An infinity. -/
  | inf (neg : Bool) : F64
  /-- A NaN. -/
  | nan : F64
  deriving DecidableEq

namespace F64

/-- The power `2 ^ k` for an integer `k`. -/
def pow2 : Int → ℚ
  | Int.ofNat n => ((2 ^ n : Nat) : ℚ)
  | Int.negSucc n => 1 / ((2 ^ (n + 1) : Nat) : ℚ)

/-- Binary search for the largest `k < acc + 2 ^ bits` with `2 ^ k ≤ n`, from `acc`. -/
def log2Search (n : Nat) : Nat → Nat → Nat
  | 0, acc => acc
  | b + 1, acc => if 2 ^ (acc + 2 ^ b) ≤ n then log2Search n b (acc + 2 ^ b) else log2Search n b acc

/-- The natural `k` with `2 ^ k ≤ n < 2 ^ (k + 1)`, for `1 ≤ n < 2 ^ 8192`. -/
def natLog2 (n : Nat) : Nat := log2Search n 13 0

/-- The integer `k` with `2 ^ k ≤ q < 2 ^ (k + 1)`, for `q > 0`. -/
def floorLog2 (q : ℚ) : Int :=
  let k : Int := (natLog2 q.num.natAbs : Int) - (natLog2 q.den : Int)
  if pow2 k ≤ q then k else k - 1

/-- Rounding to the nearest integer, ties to even. -/
def roundHalfEven (x : ℚ) : Int :=
  let f : Int := Rat.floor x
  let r : ℚ := x - (f : ℚ)
  if r < 1 / 2 then f
  else if 1 / 2 < r then f + 1
  else if f % 2 = 0 then f else f + 1

/-- The nearest binary64 magnitude of `q ≥ 0` (ties to even) with the exponent unbounded
above: 53 significant bits, and steps of `2 ^ (-1074)` in the subnormal range. -/
def roundMag (q : ℚ) : ℚ :=
  if q = 0 then 0
  else
    let e : Int := max (floorLog2 q - 52) (-1074)
    ((roundHalfEven (q / pow2 e) : Int) : ℚ) * pow2 e

/-- The double nearest to `(-1)^neg * q` for `q ≥ 0`: overflow gives an infinity. -/
def round (neg : Bool) (q : ℚ) : F64 :=
  let r := roundMag q
  if pow2 1024 ≤ r then .inf neg else .fin neg r

/-- The double nearest to a rational, as a decimal literal of the input file is read. -/
def ofRat (q : ℚ) : F64 := round (decide (q < 0)) |q|

/-- The rational value of a finite double (zero for an infinity or a NaN). -/
def val : F64 → ℚ
  | .fin neg mag => if neg then -mag else mag
  | .inf _ => 0
  | .nan => 0

/-- Neither an infinity nor a NaN. -/
def isFinite : F64 → Bool
  | .fin _ _ => true
  | .inf _ => false
  | .nan => false

/-- The comparison `x == 0` (true for both zeros, false for a NaN). -/
def isZero : F64 → Bool
  | .fin _ mag => decide (mag = 0)
  | .inf _ => false
  | .nan => false

/-- The comparison `x == 1`. -/
def isOne : F64 → Bool
  | .fin neg mag => decide ((if neg then -mag else mag) = 1)
  | .inf _ => false
  | .nan => false

/-- The product `x * y` of two doubles. -/
def mul : F64 → F64 → F64
  | .nan, _ => .nan
  | .fin _ _, .nan => .nan
  | .inf _, .nan => .nan
  | .inf s, .inf t => .inf (xor s t)
  | .inf s, .fin t n => if n = 0 then .nan else .inf (xor s t)
  | .fin s m, .inf t => if m = 0 then .nan else .inf (xor s t)
  | .fin s m, .fin t n => round (xor s t) (m * n)

/-- The sum `x + y` of two doubles. -/
def add : F64 → F64 → F64
  | .nan, _ => .nan
  | .fin _ _, .nan => .nan
  | .inf _, .nan => .nan
  | .inf s, .inf t => if s = t then .inf s else .nan
  | .inf s, .fin _ _ => .inf s
  | .fin _ _, .inf t => .inf t
  | .fin s m, .fin t n =>
    let x : ℚ := val (.fin s m) + val (.fin t n)
    if x = 0 then
      if m = 0 ∧ n = 0 ∧ s = true ∧ t = true then .fin true 0 else .fin false 0
    else round (decide (x < 0)) |x|

/-- The quotient `x / y` of two doubles. -/
def div : F64 → F64 → F64
  | .nan, _ => .nan
  | .fin _ _, .nan => .nan
  | .inf _, .nan => .nan
  | .inf _, .inf _ => .nan
  | .inf s, .fin t _ => .inf (xor s t)
  | .fin s _, .inf t => .fin (xor s t) 0
  | .fin s m, .fin t n =>
    if n = 0 then (if m = 0 then .nan else .inf (xor s t))
    else round (xor s t) (m / n)

end F64

/-! ## The program in the arithmetic of its `double` entries

The functions of the source once more, over an arbitrary entry type with its arithmetic
as a parameter.  At `ieee` they are the program: every product, sum and quotient is the
correctly rounded binary64 operation (no fused multiply-add), a division by zero yields
an infinity or a NaN and the run goes on.  At `checked` the same run stops at the first
operation whose result is not the exact one. -/

/-- Why a run stops without a result. -/
inductive Stop where
  /-- An `operator[]` with an index outside the vector. -/
  | outOfRange : Stop
  /-- A division by a zero divisor, in an arithmetic that checks for it. -/
  | zeroDivisor : Stop
  /-- An operation whose binary64 result is not the exact result (rounding, overflow, or
  an operand that is not finite), in an arithmetic that checks for it. -/
  | inexact : Stop
  deriving DecidableEq

/-- Results of a run of the program: a value, or the reason it stopped. -/
abbrev Out := Except Stop

/-- A matrix with entries in `F`. -/
abbrev MatOf (F : Type) := List (List F)

/-- The arithmetic the program uses on its entries. -/
structure Arith (F : Type) where
  /-- The value of a value-initialised element and of the literal `0`. -/
  zero : F
  /-- The literal `1` converted to the entry type. -/
  one : F
  /-- The literal `-1` converted to the entry type. -/
  negOne : F
  /-- The operator `*`. -/
  mul : F → F → Out F
  /-- The operator `+`. -/
  add : F → F → Out F
  /-- The operator `/`. -/
  div : F → F → Out F
  /-- The comparison `x == 0`; `x != 0` is its negation. -/
  isZero : F → Bool
  /-- The comparison `x == 1`; `x != 1` is its negation. -/
  isOne : F → Bool

/-- The arithmetic of the program: IEEE 754 binary64, round to nearest, ties to even.
No operation stops a run. -/
def ieee : Arith F64 where
  zero := .fin false 0
  one := .fin false 1
  negOne := .fin true 1
  mul := fun x y => .ok (F64.mul x y)
  add := fun x y => .ok (F64.add x y)
  div := fun x y => .ok (F64.div x y)
  isZero := F64.isZero
  isOne := F64.isOne

/-- The arithmetic of the program with every division watched: the run stops with
`zeroDivisor` at the first division whose divisor compares equal to zero, and is the run
of `ieee` up to there. -/
def guarded : Arith F64 where
  zero := .fin false 0
  one := .fin false 1
  negOne := .fin true 1
  mul := fun x y => .ok (F64.mul x y)
  add := fun x y => .ok (F64.add x y)
  div := fun x y => if y.isZero = true then .error .zeroDivisor else .ok (F64.div x y)
  isZero := F64.isZero
  isOne := F64.isOne

/-- The binary64 result `c` of an operation whose exact result is `x`, when `c` is that
exact result. -/
def exactOr (c : F64) (x : ℚ) : Out F64 :=
  if c.isFinite = true ∧ c.val = x then .ok c else .error .inexact

/-- The arithmetic of the program with every operation checked: an operation on finite
operands whose binary64 result is the exact result returns it, a division by zero stops
with `zeroDivisor`, every other operation stops with `inexact`. -/
def checked : Arith F64 where
  zero := .fin false 0
  one := .fin false 1
  negOne := .fin true 1
  mul := fun x y =>
    if x.isFinite = true ∧ y.isFinite = true then exactOr (F64.mul x y) (x.val * y.val)
    else .error .inexact
  add := fun x y =>
    if x.isFinite = true ∧ y.isFinite = true then exactOr (F64.add x y) (x.val + y.val)
    else .error .inexact
  div := fun x y =>
    if x.isFinite = true ∧ y.isFinite = true then
      if y.isZero = true then .error .zeroDivisor
      else exactOr (F64.div x y) (x.val / y.val)
    else .error .inexact
  isZero := F64.isZero
  isOne := F64.isOne

/-- Exact rational arithmetic; a division by zero stops with `zeroDivisor`. -/
def exactQ : Arith ℚ where
  zero := 0
  one := 1
  negOne := -1
  mul := fun x y => .ok (x * y)
  add := fun x y => .ok (x + y)
  div := fun x y => if y = 0 then .error .zeroDivisor else .ok (x / y)
  isZero := fun x => decide (x = 0)
  isOne := fun x => decide (x = 1)

namespace Prog

variable {F : Type}

/-- The read `y[i][j]`. -/
def rd (y : MatOf F) (i j : Nat) : Out F :=
  match y[i]? with
  | none => .error .outOfRange
  | some r =>
    match r[j]? with
    | none => .error .outOfRange
    | some v => .ok v

/-- The store `y[i][j] = v`. -/
def wr (y : MatOf F) (i j : Nat) (v : F) : Out (MatOf F) :=
  match y[i]? with
  | none => .error .outOfRange
  | some r => if j < r.length then .ok (y.set i (r.set j v)) else .error .outOfRange

/-- The size `y[i].size()` of row `i`. -/
def rowSize (y : MatOf F) (i : Nat) : Out Nat :=
  match y[i]? with
  | none => .error .outOfRange
  | some r => .ok r.length

/-- The loop `for (j = j0; j < j0 + k; j++) s = body j s`, stopping with the body. -/
def forRange {σ : Type} (body : Nat → σ → Out σ) : Nat → Nat → σ → Out σ
  | 0, _, s => .ok s
  | k + 1, j, s =>
    match body j s with
    | .error e => .error e
    | .ok s1 => forRange body k (j + 1) s1

/-- The shape loop of `rowCanonicalForm` (lines 273-287) from row `i` with `k` rows left:
`false` when a `return false` is taken, `true` when the loop runs to its end. -/
def shapeLoop (x : MatOf F) : Nat → Nat → Out Bool
  | 0, _ => .ok true
  | k + 1, i =>
    match rowSize x i with
    | .error e => .error e
    | .ok n =>
      if i ≠ 0 ∧ x.length + 1 ≠ n then .ok false
      else if n ≠ x.length + 1 then .ok false
      else shapeLoop x k (i + 1)

/-- The inner entry loop of `rowCanonicalForm` (lines 295-305) on row `i` from column `j`
with `k` columns left. -/
def entryRowLoop (A : Arith F) (x : MatOf F) (i : Nat) : Nat → Nat → Out Bool
  | 0, _ => .ok true
  | k + 1, j =>
    match rd x i j with
    | .error e => .error e
    | .ok v =>
      if i = j then
        if A.isOne v = false then .ok false else entryRowLoop A x i k (j + 1)
      else
        if A.isZero v = false then .ok false else entryRowLoop A x i k (j + 1)

/-- The outer entry loop of `rowCanonicalForm` (lines 293-306) from row `i` with `k`
rows left. -/
def entryLoop (A : Arith F) (x : MatOf F) : Nat → Nat → Out Bool
  | 0, _ => .ok true
  | k + 1, i =>
    match rowSize x i with
    | .error e => .error e
    | .ok n =>
      match entryRowLoop A x i (sizePred n) 0 with
      | .error e => .error e
      | .ok false => .ok false
      | .ok true => entryLoop A x k (i + 1)

/-- The function `rowCanonicalForm` (lines 264-311): shape loop, then entry loop. -/
def rowCanonicalForm (A : Arith F) (x : MatOf F) : Out Bool :=
  match shapeLoop x x.length 0 with
  | .error e => .error e
  | .ok false => .ok false
  | .ok true => entryLoop A x x.length 0

/-- The store `solutions[i] = v` into a flat vector. -/
def wrv (s : List F) (i : Nat) (v : F) : Out (List F) :=
  if i < s.length then .ok (s.set i v) else .error .outOfRange

/-- The body of the loop of `solveSystem_PreReducedMatrix` (lines 154-155). -/
def solveBody (A : Arith F) (x : MatOf F) (i : Nat) (s : List F) : Out (List F) :=
  match rowSize x i with
  | .error e => .error e
  | .ok n =>
    match rd x i (sizePred n) with
    | .error e => .error e
    | .ok v => wrv (vresize s (i + 1) A.zero) i v

/-- The function `solveSystem_PreReducedMatrix` (lines 145-159). -/
def solveSystem_PreReducedMatrix (A : Arith F) (x : MatOf F) : Out (List F) :=
  forRange (solveBody A x) x.length 0 []

/-- The call `y[i].resize(n)`. -/
def resizeRow (A : Arith F) (y : MatOf F) (i n : Nat) : Out (MatOf F) :=
  match y[i]? with
  | none => .error .outOfRange
  | some r => .ok (y.set i (vresize r n A.zero))

/-- The body of the inner copy loop (lines 176-177). -/
def copyRowBody (A : Arith F) (x : MatOf F) (i : Nat) (j : Nat) (y : MatOf F) :
    Out (MatOf F) :=
  match resizeRow A y i (j + 1) with
  | .error e => .error e
  | .ok y1 =>
    match rd x i j with
    | .error e => .error e
    | .ok v => wr y1 i j v

/-- The body of the outer copy loop (lines 173-178). -/
def copyBody (A : Arith F) (x : MatOf F) (i : Nat) (y : MatOf F) : Out (MatOf F) :=
  match rowSize x i with
  | .error e => .error e
  | .ok n => forRange (copyRowBody A x i) n 0 (vresize y (i + 1) [])

/-- The copy of `x` into the fresh matrix `y` (lines 171-179). -/
def copyMatrix (A : Arith F) (x : MatOf F) : Out (MatOf F) :=
  forRange (copyBody A x) x.length 0 []

/-- The body of the row swap (lines 207-209): exchange `y[a][j]` and `y[i][j]`. -/
def swapBody (a i : Nat) (j : Nat) (y : MatOf F) : Out (MatOf F) :=
  match rd y a j with
  | .error e => .error e
  | .ok t =>
    match rd y i j with
    | .error e => .error e
    | .ok v =>
      match wr y a j v with
      | .error e => .error e
      | .ok y1 => wr y1 i j t

/-- The pivot search (lines 199-213) from row `i` with `k` rows left: the first row with
`y[i][a] != 0` is swapped with row `a`, which sets `stopLoop` and ends the search. -/
def pivotSearch (A : Arith F) (a : Nat) : Nat → Nat → MatOf F → Out (MatOf F)
  | 0, _, y => .ok y
  | k + 1, i, y =>
    match rd y i a with
    | .error e => .error e
    | .ok c =>
      if A.isZero c = false then
        match rowSize y i with
        | .error e => .error e
        | .ok n => forRange (swapBody a i) n 0 y
      else pivotSearch A a k (i + 1) y

/-- Step (2) at column `a` (lines 195-214). -/
def pivotStep (A : Arith F) (a : Nat) (y : MatOf F) : Out (MatOf F) :=
  match rd y a a with
  | .error e => .error e
  | .ok p =>
    if A.isZero p = true then pivotSearch A a (y.length - (a + 1)) (a + 1) y else .ok y

/-- The body of the normalization loop (line 221): `y[a][i] = y[a][i] * (1 / tempNum)`. -/
def normalizeBody (A : Arith F) (a : Nat) (t : F) (i : Nat) (y : MatOf F) :
    Out (MatOf F) :=
  match A.div A.one t with
  | .error e => .error e
  | .ok q =>
    match rd y a i with
    | .error e => .error e
    | .ok v =>
      match A.mul v q with
      | .error e => .error e
      | .ok w => wr y a i w

/-- Step (3) at column `a` (lines 218-222). -/
def normalizeStep (A : Arith F) (a : Nat) (y : MatOf F) : Out (MatOf F) :=
  match rd y a a with
  | .error e => .error e
  | .ok t =>
    match rowSize y a with
    | .error e => .error e
    | .ok n => forRange (normalizeBody A a t) n 0 y

/-- The body of the inner elimination loop (line 238):
`y[i][j] = (y[i][j] * tempNum) + y[a][j]`. -/
def eliminateRowBody (A : Arith F) (a i : Nat) (t : F) (j : Nat) (y : MatOf F) :
    Out (MatOf F) :=
  match rd y i j with
  | .error e => .error e
  | .ok u =>
    match rd y a j with
    | .error e => .error e
    | .ok v =>
      match A.mul u t with
      | .error e => .error e
      | .ok p =>
        match A.add p v with
        | .error e => .error e
        | .ok w => wr y i j w

/-- The body of the outer elimination loop (lines 229-241). -/
def eliminateBody (A : Arith F) (a : Nat) (i : Nat) (y : MatOf F) : Out (MatOf F) :=
  if i ≠ a then
    match rd y i a with
    | .error e => .error e
    | .ok c =>
      if A.isZero c = false then
        match A.div A.negOne c with
        | .error e => .error e
        | .ok t =>
          match rowSize y i with
          | .error e => .error e
          | .ok n => forRange (eliminateRowBody A a i t) n 0 y
      else .ok y
  else .ok y

/-- Step (4) at column `a` (lines 227-243). -/
def eliminateStep (A : Arith F) (a : Nat) (y : MatOf F) : Out (MatOf F) :=
  forRange (eliminateBody A a) y.length 0 y

/-- One iteration of the main loop at column `a` (lines 193-243). -/
def columnStep (A : Arith F) (a : Nat) (y : MatOf F) : Out (MatOf F) :=
  match pivotStep A a y with
  | .error e => .error e
  | .ok y1 =>
    match normalizeStep A a y1 with
    | .error e => .error e
    | .ok y2 => eliminateStep A a y2

/-- The main loop (line 191) from column `a` with `k` columns left; the guard
`!rowCanonicalForm(y)` is evaluated before every iteration.  Returns the matrix and the
value of `a` at loop exit. -/
def mainLoop (A : Arith F) : Nat → Nat → MatOf F → Out (MatOf F × Nat)
  | 0, a, y => .ok (y, a)
  | k + 1, a, y =>
    match rowCanonicalForm A y with
    | .error e => .error e
    | .ok true => .ok (y, a)
    | .ok false =>
      match columnStep A a y with
      | .error e => .error e
      | .ok y1 => mainLoop A k (a + 1) y1

/-- The body of the inner loop of the final pass (line 255): `y[i][j] *= tempNum`. -/
def finalBody (A : Arith F) (i : Nat) (t : F) (j : Nat) (y : MatOf F) : Out (MatOf F) :=
  match rd y i j with
  | .error e => .error e
  | .ok v =>
    match A.mul v t with
    | .error e => .error e
    | .ok w => wr y i j w

/-- One iteration of the final pass at row `i` (lines 252-256). -/
def finalStep (A : Arith F) (i : Nat) (y : MatOf F) : Out (MatOf F) :=
  match rd y i i with
  | .error e => .error e
  | .ok d =>
    match A.div A.one d with
    | .error e => .error e
    | .ok t =>
      match rowSize y i with
      | .error e => .error e
      | .ok n => forRange (finalBody A i t) n 0 y

/-- The final pass (line 250) from row `i` with `k` rows left; the guard
`!rowCanonicalForm(y)` is evaluated before every iteration.  Returns the matrix and the
value of `i` at loop exit. -/
def finalLoop (A : Arith F) : Nat → Nat → MatOf F → Out (MatOf F × Nat)
  | 0, i, y => .ok (y, i)
  | k + 1, i, y =>
    match rowCanonicalForm A y with
    | .error e => .error e
    | .ok true => .ok (y, i)
    | .ok false =>
      match finalStep A i y with
      | .error e => .error e
      | .ok y1 => finalLoop A k (i + 1) y1

/-- The function `gaussJordanElimination` (lines 162-261): copy, main loop, final pass. -/
def gaussJordanElimination (A : Arith F) (x : MatOf F) : Out (MatOf F) :=
  match copyMatrix A x with
  | .error e => .error e
  | .ok y =>
    match mainLoop A y.length 0 y with
    | .error e => .error e
    | .ok (y1, _) =>
      match finalLoop A y1.length 0 y1 with
      | .error e => .error e
      | .ok (y2, _) => .ok y2

/-- The variant of `gaussJordanElimination` with the final pass (lines 250-257) removed. -/
def gaussJordanNoFinalPass (A : Arith F) (x : MatOf F) : Out (MatOf F) :=
  match copyMatrix A x with
  | .error e => .error e
  | .ok y =>
    match mainLoop A y.length 0 y with
    | .error e => .error e
    | .ok (y1, _) => .ok y1

end Prog

/-- The matrix of doubles that the input file with these decimal entries is parsed to. -/
def parsed (m : List (List ℚ)) : MatOf F64 := m.map (fun r => r.map F64.ofRat)

/-- The rational values of a matrix of finite doubles. -/
def valM (y : MatOf F64) : MatOf ℚ := y.map (fun r => r.map F64.val)

/-- Every entry is a finite double. -/
def AllFinite (y : MatOf F64) : Prop := ∀ r ∈ y, ∀ v ∈ r, v.isFinite = true

instance (y : MatOf F64) : Decidable (AllFinite y) := by
  unfold AllFinite; infer_instance

/-! ## Simulation between arithmetics -/

/-- How the outcome `o2` of a run in one arithmetic follows the outcome `o` of the same
run in another: a result is matched by a related result, an access out of range by an access out of range,
and a division by zero by a division by zero when `M` holds. -/
def SimOut {α β : Type} (M : Prop) (R : α → β → Prop) (o : Out α) (o2 : Out β) : Prop :=
  match o with
  | .ok a => ∃ b, o2 = .ok b ∧ R a b
  | .error .inexact => True
  | .error .zeroDivisor => M → o2 = .error .zeroDivisor
  | .error .outOfRange => o2 = .error .outOfRange

/-- Related entries: the first is admissible and the second is its image. -/
def RelV {F G : Type} (φ : F → G) (P : F → Prop) (v : F) (w : G) : Prop := P v ∧ w = φ v

/-- Related rows. -/
def RelL {F G : Type} (φ : F → G) (P : F → Prop) (r : List F) (s : List G) : Prop :=
  (∀ v ∈ r, P v) ∧ s = r.map φ

/-- Related matrices. -/
def RelM {F G : Type} (φ : F → G) (P : F → Prop) (y : MatOf F) (z : MatOf G) : Prop :=
  (∀ r ∈ y, ∀ v ∈ r, P v) ∧ z = y.map (List.map φ)

/-- Related loop states: related matrices and the same counter. -/
def RelMN {F G : Type} (φ : F → G) (P : F → Prop) (s : MatOf F × Nat) (t : MatOf G × Nat) :
    Prop := RelM φ P s.1 t.1 ∧ t.2 = s.2

/-- The arithmetic `B` follows the arithmetic `A` along `φ` on the entries `P` admits. -/
structure ArithSim {F G : Type} (A : Arith F) (B : Arith G) (φ : F → G) (P : F → Prop)
    (M : Prop) : Prop where
  zero : RelV φ P A.zero B.zero
  one : RelV φ P A.one B.one
  negOne : RelV φ P A.negOne B.negOne
  mul : ∀ a b, P a → P b → SimOut M (RelV φ P) (A.mul a b) (B.mul (φ a) (φ b))
  add : ∀ a b, P a → P b → SimOut M (RelV φ P) (A.add a b) (B.add (φ a) (φ b))
  div : ∀ a b, P a → P b → SimOut M (RelV φ P) (A.div a b) (B.div (φ a) (φ b))
  isZero : ∀ a, P a → B.isZero (φ a) = A.isZero a
  isOne : ∀ a, P a → B.isOne (φ a) = A.isOne a

/-- The stop that a fault of the reference functions corresponds to. -/
def toStop : Fault → Stop
  | .outOfRange => .outOfRange
  | .zeroPivot _ => .zeroDivisor
  | .zeroScale _ _ => .zeroDivisor
  | .zeroDiag _ => .zeroDivisor

/-! ## Vocabulary for matrices of doubles -/

/-- The entry in row `i`, column `j` (`d` outside the matrix). -/
def Prog.entry {F : Type} (d : F) (y : MatOf F) (i j : Nat) : F := (y.getD i []).getD j d

/-- An `N x (N+1)` matrix: `N` rows, each of `N + 1` entries. -/
def Prog.IsShape {F : Type} (N : Nat) (y : MatOf F) : Prop :=
  y.length = N ∧ ∀ r ∈ y, r.length = N + 1

instance {F : Type} (N : Nat) (y : MatOf F) : Decidable (Prog.IsShape N y) := by
  unfold Prog.IsShape; infer_instance

/-- The entry in row `i`, column `j` of a matrix of doubles (`+0` outside the matrix). -/
def entryD (y : MatOf F64) (i j : Nat) : F64 := Prog.entry (F64.fin false 0) y i j

/-- The first `N` columns compare equal to the identity matrix: `x[i][i] == 1` and
`x[i][j] == 0` for `i ≠ j`. -/
def Prog.IsIdentityPart {F : Type} (A : Arith F) (N : Nat) (x : MatOf F) : Prop :=
  ∀ i < N, ∀ j < N,
    if i = j then A.isOne (Prog.entry A.zero x i j) = true
    else A.isZero (Prog.entry A.zero x i j) = true

instance {F : Type} (A : Arith F) (N : Nat) (x : MatOf F) :
    Decidable (Prog.IsIdentityPart A N x) := by
  unfold Prog.IsIdentityPart; infer_instance

/-- The entry that step (4) at column `a` of an `N x (N+1)` matrix leaves at row `r`,
column `c`, in double arithmetic. -/
def eliminatedD (N : Nat) (y : MatOf F64) (a r c : Nat) : F64 :=
  if r ≠ a ∧ c ≤ N ∧ (entryD y r a).isZero = false then
    F64.add (F64.mul (entryD y r c) (F64.div (.fin true 1) (entryD y r a))) (entryD y a c)
  else entryD y r c

/-- The entry that the multiplication of row `i` by the reciprocal of `y[i][i]` leaves at
row `r`, column `c`, in double arithmetic: steps (3) and the final pass. -/
def scaledD (N : Nat) (y : MatOf F64) (i r c : Nat) : F64 :=
  if r = i ∧ c ≤ N then F64.mul (entryD y i c) (F64.div (.fin false 1) (entryD y i i))
  else entryD y r c

/-- The index exchange of rows `a` and `i`. -/
def swapIdxD (a i r : Nat) : Nat := if r = a then i else if r = i then a else r

/-- The last element of a row (`d` for an empty row). -/
def Prog.lastOf {F : Type} (d : F) (r : List F) : F := r.getLast?.getD d

/-- No arithmetic operation of the reduction of `m` has a result that differs from the
exact one (by rounding, by overflow, or on an operand that is not finite): the checked run
does not stop with `inexact`. -/
def RunsExactly (m : MatOf F64) : Prop :=
  Prog.gaussJordanElimination checked m ≠ .error .inexact

instance (m : MatOf F64) : Decidable (RunsExactly m) := by
  unfold RunsExactly; infer_instance

/-! ## Specification vocabulary -/

/-- The entry in row `i`, column `j` (zero outside the matrix). -/
def entry (y : Mat) (i j : Nat) : ℚ := (y.getD i []).getD j 0

/-- An `N x (N+1)` matrix: `N` rows, each of `N + 1` entries. -/
def IsShape (N : Nat) (y : Mat) : Prop := y.length = N ∧ ∀ r ∈ y, r.length = N + 1

instance (N : Nat) (y : Mat) : Decidable (IsShape N y) := by
  unfold IsShape; infer_instance

/-- The `N x N` coefficient part of a matrix. -/
def coeff (N : Nat) (m : Mat) : Matrix (Fin N) (Fin N) ℚ :=
  Matrix.of fun i j => entry m i.val j.val

/-- The coefficient part is non-singular. -/
def NonSingular (N : Nat) (m : Mat) : Prop := (coeff N m).det ≠ 0

instance (N : Nat) (m : Mat) : Decidable (NonSingular N m) := by
  unfold NonSingular; infer_instance

/-- The vector `v` satisfies each of the `N` equations of `m`:
`sum over j < N of m[i][j] * v[j] = m[i][N]`. -/
def Satisfies (N : Nat) (m : Mat) (v : List ℚ) : Prop :=
  ∀ i < N, (∑ j in Finset.range N, entry m i j * v.getD j 0) = entry m i N

instance (N : Nat) (m : Mat) (v : List ℚ) : Decidable (Satisfies N m v) := by
  unfold Satisfies; infer_instance

/-- The first `N` columns are exactly the identity matrix. -/
def IsIdentityPart (N : Nat) (x : Mat) : Prop :=
  ∀ i < N, ∀ j < N, entry x i j = if i = j then 1 else 0

instance (N : Nat) (x : Mat) : Decidable (IsIdentityPart N x) := by
  unfold IsIdentityPart; infer_instance

/-- The row that step (4) at column `a` leaves at position `r`, column `c`. -/
def eliminated (y : Mat) (a r c : Nat) : ℚ :=
  if r ≠ a ∧ entry y r a ≠ 0 then entry y r c * (-1 / entry y r a) + entry y a c
  else entry y r c

/-- The index exchange of rows `a` and `i`. -/
def swapIdx (a i r : Nat) : Nat := if r = a then i else if r = i then a else r

/-- The dot product of row `i` with the weights `w` over all `N + 1` columns. -/
def rowDot (N : Nat) (y : Mat) (i : Nat) (w : Nat → ℚ) : ℚ :=
  ∑ j in Finset.range (N + 1), entry y i j * w j

/-- The rows of `y` and of `m` are orthogonal to the same weight vectors. -/
def SameNull (N : Nat) (y m : Mat) : Prop :=
  ∀ w : Nat → ℚ, (∀ i < N, rowDot N y i w = 0) ↔ (∀ i < N, rowDot N m i w = 0)

/-- The invariant of the main loop before column `a` is processed. -/
structure MainInv (N : Nat) (m : Mat) (a : Nat) (y : Mat) : Prop where
  shape : IsShape N y
  offdiag : ∀ i < N, ∀ j < a, i ≠ j → entry y i j = 0
  diag : ∀ j < a, entry y j j ≠ 0
  null : SameNull N y m

/-- The invariant of the final pass before row `i` is processed. -/
structure FinalInv (N : Nat) (m : Mat) (i : Nat) (y : Mat) : Prop where
  shape : IsShape N y
  offdiag : ∀ r < N, ∀ c < N, r ≠ c → entry y r c = 0
  diag : ∀ j < N, entry y j j ≠ 0
  unit : ∀ j < i, entry y j j = 1
  null : SameNull N y m

/-- The last element of a row (zero for an empty row). -/
def lastOf (r : List ℚ) : ℚ := r.getLast?.getD 0

/-- The weights that turn equation `i` into a dot product: the candidate solution
followed by `-1` for the right-hand side. -/
def augWeights (N : Nat) (v : List ℚ) (j : Nat) : ℚ := if j < N then v.getD j 0 else -1

/-! ## The scenarios of the specification -/

/-- Scenario 1: three equations in `x`, `y`, `z`. -/
def scenario1 : Mat := [[2, 1, -1, 8], [-3, -1, 2, -11], [-2, 1, 2, -3]]

/-- Scenario 2: the trivial `1 x 2` system. -/
def scenario2 : Mat := [[2, 4]]

/-- Scenario 3: a `2 x 3` system that is already reduced. -/
def scenario3 : Mat := [[1, 0, 5], [0, 1, 7]]

/-- The singular scenario: two dependent rows. -/
def scenarioSingular : Mat := [[1, 2, 3], [2, 4, 6]]

/-- A matrix whose second row is too short. -/
def raggedExample : Mat := [[1, 0, 5], [0, 1]]

/-- Scenario 3 with another right-hand side. -/
def scenario3Shifted : Mat := [[1, 0, -2], [0, 1, 9]]

/-- A non-reduced matrix with rows of different lengths, for the extraction. -/
def unreducedExample : Mat := [[4, 2, 5], [7], [3, 8]]

/-- A parsed input whose first row has the right length and whose second row is short. -/
def raggedInput : Mat := [[1, 2, 3], [4]]

/-- A `2 x 3` working matrix whose first column needs a row exchange. -/
def swapExample : Mat := [[0, 1, 3], [2, 5, 6]]

/-- A `2 x 3` matrix that is diagonal left of its last column. -/
def diagonalExample : Mat := [[2, 0, 4], [0, 1, 7]]

/-! ## Inputs in double arithmetic -/

/-- Scenario 1 as the program reads it. -/
def scenario1D : MatOf F64 := parsed scenario1

/-- Scenario 2 as the program reads it. -/
def scenario2D : MatOf F64 := parsed scenario2

/-- The singular scenario as the program reads it. -/
def scenarioSingularD : MatOf F64 := parsed scenarioSingular

/-- A system whose reduction needs no rounding: `x + y = 3`, `x + 2y = 5`. -/
def exactExample : MatOf F64 := parsed [[1, 1, 3], [1, 2, 5]]

/-- A non-singular system whose reduction rounds. -/
def roundingExample : MatOf F64 := parsed [[1, 3, 1], [5, -4, 2]]

/-- A non-singular system in which `49 * (-1 / 49) + 1` is not zero in doubles. -/
def driftExample : MatOf F64 := parsed [[1, 0, 0], [49, 1, 0]]

/-- A non-singular system (determinant `-2^-54`) whose second pivot cancels to zero in
doubles; the second row is read from `1,0.3333333333333333,1`. -/
def cancellationExample : MatOf F64 :=
  parsed [[3, 1, 1], [1, 3333333333333333 / 10000000000000000, 1]]

/-- A singular system whose second pivot does not cancel to zero in doubles. -/
def singularRoundedExample : MatOf F64 := parsed [[3, 5, 1], [15, 25, 2]]

/-- A `1 x 2` matrix whose diagonal entry has a reciprocal that rounds. -/
def reciprocalExample : MatOf F64 := parsed [[49, 5]]

/-! ## Element access on well-shaped matrices -/

theorem getElem?_of_shape {N : Nat} {y : Mat} (h : IsShape N y) {i : Nat} (hi : i < N) :
    ∃ r, y[i]? = some r ∧ r.length = N + 1 ∧ y.getD i [] = r := by
  have hl : i < y.length := by rw [h.1]; exact hi
  refine ⟨y[i], List.getElem?_eq_getElem hl, h.2 _ (List.getElem_mem hl), ?_⟩
  simp [List.getD_eq_getElem?_getD, List.getElem?_eq_getElem hl]

theorem rd_eq {N : Nat} {y : Mat} (h : IsShape N y) {i j : Nat} (hi : i < N) (hj : j ≤ N) :
    rd y i j = .ok (entry y i j) := by
  obtain ⟨r, hr, hlen, hd⟩ := getElem?_of_shape h hi
  have hjl : j < r.length := by omega
  simp [rd, hr, entry, hd, List.getD_eq_getElem?_getD, List.getElem?_eq_getElem hjl]

theorem rowSize_eq {N : Nat} {y : Mat} (h : IsShape N y) {i : Nat} (hi : i < N) :
    rowSize y i = .ok (N + 1) := by
  obtain ⟨r, hr, hlen, _⟩ := getElem?_of_shape h hi
  simp [rowSize, hr, hlen]

theorem entry_set (y : Mat) (i : Nat) (r : List ℚ) (hi : i < y.length) (a b : Nat) :
    entry (y.set i r) a b = if a = i then r.getD b 0 else entry y a b := by
  unfold entry
  by_cases h : a = i
  · subst h; simp [List.getD_eq_getElem?_getD, hi]
  · simp [List.getD_eq_getElem?_getD, h, List.getElem?_set_ne (Ne.symm h)]

theorem wr_eq {N : Nat} {y : Mat} (h : IsShape N y) {i j : Nat} (hi : i < N) (hj : j ≤ N)
    (v : ℚ) :
    ∃ y', wr y i j v = .ok y' ∧ IsShape N y' ∧
      ∀ a b, entry y' a b = if a = i ∧ b = j then v else entry y a b := by
  obtain ⟨r, hr, hlen, hd⟩ := getElem?_of_shape h hi
  have hjl : j < r.length := by omega
  have hil : i < y.length := by rw [h.1]; exact hi
  refine ⟨y.set i (r.set j v), by simp [wr, hr, hjl], ⟨by simp [h.1], ?_⟩, ?_⟩
  · intro r' hr'
    rcases List.mem_or_eq_of_mem_set hr' with h1 | h1
    · exact h.2 _ h1
    · simp [h1, hlen]
  · intro a b
    rw [entry_set y i _ hil]
    by_cases ha : a = i
    · subst ha
      by_cases hb : b = j
      · subst hb; simp [List.getD_eq_getElem?_getD, hjl]
      · simp [hb, entry, hr, List.getD_eq_getElem?_getD, List.getElem?_set_ne (Ne.symm hb)]
    · simp [ha]

theorem entry_row_oob {N : Nat} {y : Mat} (h : IsShape N y) {a : Nat} (ha : N ≤ a) (b : Nat) :
    entry y a b = 0 := by
  have : y.length ≤ a := by rw [h.1]; exact ha
  simp [entry, List.getD_eq_getElem?_getD, List.getElem?_eq_none this]

theorem entry_col_oob {N : Nat} {y : Mat} (h : IsShape N y) (a : Nat) {b : Nat} (hb : N < b) :
    entry y a b = 0 := by
  by_cases ha : a < N
  · obtain ⟨r, hr, hlen, hd⟩ := getElem?_of_shape h ha
    have : r.length ≤ b := by omega
    simp [entry, hr, List.getD_eq_getElem?_getD, List.getElem?_eq_none this]
  · exact entry_row_oob h (by omega) b

/-! ## Loop rules -/

/-- Total-correctness rule for `forRange`: an invariant established at entry and
re-established by every iteration (which must not fault) holds at exit. -/
theorem forRange_inv {σ : Type} (body : Nat → σ → Run σ) (P : Nat → σ → Prop) :
    ∀ (k j : Nat) (s : σ), P j s →
      (∀ t s', j ≤ t → t < j + k → P t s' → ∃ s'', body t s' = .ok s'' ∧ P (t + 1) s'') →
      ∃ s', forRange body k j s = .ok s' ∧ P (j + k) s' := by
  intro k
  induction k with
  | zero => intro j s h _; exact ⟨s, rfl, by simpa using h⟩
  | succ k ih =>
    intro j s h step
    obtain ⟨s1, hb, hP⟩ := step j s (le_refl _) (by omega) h
    obtain ⟨s2, hr, hP2⟩ := ih (j + 1) s1 hP (fun t s' h1 h2 h3 =>
      step t s' (by omega) (by omega) h3)
    refine ⟨s2, ?_, ?_⟩
    · simp [forRange, hb, hr]
    · have : j + (k + 1) = j + 1 + k := by omega
      rw [this]; exact hP2

/-- A loop over the columns of row `i` that stores `F j` at column `j` rewrites row `i`
to `F` and leaves every other row alone. -/
theorem rowLoop_spec {N : Nat} {y0 : Mat} (h0 : IsShape N y0) {i : Nat} (F : Nat → ℚ)
    (body : Nat → Mat → Run Mat)
    (hbody : ∀ j y', j ≤ N → IsShape N y' →
      (∀ a b, entry y' a b = if a = i ∧ b < j then F b else entry y0 a b) →
      ∃ y'', body j y' = .ok y'' ∧ IsShape N y'' ∧
        ∀ a b, entry y'' a b = if a = i ∧ b = j then F j else entry y' a b) :
    ∃ y1, forRange body (N + 1) 0 y0 = .ok y1 ∧ IsShape N y1 ∧
      ∀ a b, entry y1 a b = if a = i ∧ b ≤ N then F b else entry y0 a b := by
  obtain ⟨y1, hr, hs, he⟩ := forRange_inv body
    (fun j y' => IsShape N y' ∧
      ∀ a b, entry y' a b = if a = i ∧ b < j then F b else entry y0 a b)
    (N + 1) 0 y0 ⟨h0, by intro a b; simp⟩
    (by
      intro t s' _ ht ⟨hs, he⟩
      obtain ⟨y'', hb, hs'', he''⟩ := hbody t s' (by omega) hs he
      refine ⟨y'', hb, hs'', ?_⟩
      intro a b
      rw [he'' a b, he a b]
      by_cases h1 : a = i
      · by_cases h2 : b = t
        · subst h2; simp [h1]
        · have : b < t + 1 ↔ b < t := by omega
          simp [h1, h2, this]
      · simp [h1])
  refine ⟨y1, hr, hs, ?_⟩
  intro a b
  rw [he a b]
  simp only [Nat.zero_add, Nat.lt_succ_iff]

/-! ## The steps of one column -/

/-- Step (3) on a non-zero pivot multiplies row `a` by `1 / y[a][a]`. -/
theorem normalizeStep_spec {N : Nat} {y : Mat} (h : IsShape N y) {a : Nat} (ha : a < N)
    (hp : entry y a a ≠ 0) :
    ∃ y1, normalizeStep a y = .ok y1 ∧ IsShape N y1 ∧
      ∀ r c, entry y1 r c = if r = a then entry y a c * (1 / entry y a a) else entry y r c := by
  obtain ⟨y1, hr, hs, he⟩ := rowLoop_spec h (i := a)
    (fun c => entry y a c * (1 / entry y a a)) (normalizeBody a (entry y a a))
    (by
      intro j y' hj hs' he'
      obtain ⟨y'', hw, hs'', he''⟩ := wr_eq hs' ha hj (entry y' a j * (1 / entry y a a))
      refine ⟨y'', ?_, hs'', ?_⟩
      · simpa [normalizeBody, gdiv, hp, rd_eq hs' ha hj] using hw
      · intro r c
        rw [he'' r c]
        have : entry y' a j = entry y a j := by rw [he' a j]; simp
        simp [this])
  refine ⟨y1, ?_, hs, ?_⟩
  · simpa [normalizeStep, rd_eq h ha (le_of_lt ha), rowSize_eq h ha] using hr
  · intro r c
    rw [he r c]
    by_cases hc : c ≤ N
    · simp [hc]
    · simp [hc, entry_col_oob h _ (not_le.mp hc)]

/-- Step (3) on a zero pivot is the undetected division by zero. -/
theorem normalizeStep_zero {N : Nat} {y : Mat} (h : IsShape N y) {a : Nat} (ha : a < N)
    (hp : entry y a a = 0) :
    normalizeStep a y = .error (.zeroPivot a) := by
  simp [normalizeStep, rd_eq h ha (le_of_lt ha), rowSize_eq h ha, forRange, normalizeBody,
    gdiv, hp]

/-- The final-pass step on a non-zero diagonal entry multiplies row `i` by `1 / y[i][i]`. -/
theorem finalStep_spec {N : Nat} {y : Mat} (h : IsShape N y) {i : Nat} (hi : i < N)
    (hp : entry y i i ≠ 0) :
    ∃ y1, finalStep i y = .ok y1 ∧ IsShape N y1 ∧
      ∀ r c, entry y1 r c = if r = i then entry y i c * (1 / entry y i i) else entry y r c := by
  obtain ⟨y1, hr, hs, he⟩ := rowLoop_spec h (i := i)
    (fun c => entry y i c * (1 / entry y i i)) (finalBody i (1 / entry y i i))
    (by
      intro j y' hj hs' he'
      obtain ⟨y'', hw, hs'', he''⟩ := wr_eq hs' hi hj (entry y' i j * (1 / entry y i i))
      refine ⟨y'', ?_, hs'', ?_⟩
      · simpa [finalBody, rd_eq hs' hi hj] using hw
      · intro r c
        rw [he'' r c]
        have : entry y' i j = entry y i j := by rw [he' i j]; simp
        simp [this])
  refine ⟨y1, ?_, hs, ?_⟩
  · simpa [finalStep, gdiv, hp, rd_eq h hi (le_of_lt hi), rowSize_eq h hi] using hr
  · intro r c
    rw [he r c]
    by_cases hc : c ≤ N
    · simp [hc]
    · simp [hc, entry_col_oob h _ (not_le.mp hc)]

/-- The inner elimination loop replaces row `i` by `row_i * t + row_a`. -/
theorem eliminateRow_spec {N : Nat} {y : Mat} (h : IsShape N y) {a i : Nat} (ha : a < N)
    (hi : i < N) (hia : i ≠ a) (t : ℚ) :
    ∃ y1, forRange (eliminateRowBody a i t) (N + 1) 0 y = .ok y1 ∧ IsShape N y1 ∧
      ∀ r c, entry y1 r c = if r = i then entry y i c * t + entry y a c else entry y r c := by
  obtain ⟨y1, hr, hs, he⟩ := rowLoop_spec h (i := i)
    (fun c => entry y i c * t + entry y a c) (eliminateRowBody a i t)
    (by
      intro j y' hj hs' he'
      obtain ⟨y'', hw, hs'', he''⟩ := wr_eq hs' hi hj (entry y' i j * t + entry y' a j)
      refine ⟨y'', ?_, hs'', ?_⟩
      · simp [eliminateRowBody, rd_eq hs' hi hj, rd_eq hs' ha hj, hw]
      · intro r c
        rw [he'' r c]
        have h1 : entry y' i j = entry y i j := by rw [he' i j]; simp
        have h2 : entry y' a j = entry y a j := by rw [he' a j]; simp [Ne.symm hia]
        simp [h1, h2])
  refine ⟨y1, hr, hs, ?_⟩
  intro r c
  rw [he r c]
  by_cases hc : c ≤ N
  · simp [hc]
  · simp [hc, entry_col_oob h _ (not_le.mp hc)]

/-- Step (4) at column `a`: every row `i ≠ a` with `y[i][a] ≠ 0` becomes
`row_i * (-1 / y[i][a]) + row_a`; the other rows are unchanged. -/
theorem eliminateStep_spec {N : Nat} {y : Mat} (h : IsShape N y) {a : Nat} (ha : a < N) :
    ∃ y1, eliminateStep a y = .ok y1 ∧ IsShape N y1 ∧
      ∀ r c, entry y1 r c = eliminated y a r c := by
  obtain ⟨y1, hr, hs, he⟩ := forRange_inv (eliminateBody a)
    (fun i y' => IsShape N y' ∧
      ∀ r c, entry y' r c = if r < i then eliminated y a r c else entry y r c)
    N 0 y ⟨h, by intro r c; simp⟩
    (by
      intro i y' _ hi ⟨hs', he'⟩
      have hi : i < N := by omega
      by_cases hia : i = a
      · refine ⟨y', by simp [eliminateBody, hia], hs', ?_⟩
        intro r c
        rw [he' r c]
        by_cases h1 : r = i
        · subst h1; simp [eliminated, hia]
        · have : r < i + 1 ↔ r < i := by omega
          simp [this]
      · have hc : entry y' i a = entry y i a := by rw [he' i a]; simp
        have hrow : ∀ c, entry y' i c = entry y i c := by intro c; rw [he' i c]; simp
        have hrowa : ∀ c, entry y' a c = entry y a c := by
          intro c; rw [he' a c]; simp [eliminated]
        by_cases hz : entry y i a = 0
        · refine ⟨y', by simp [eliminateBody, hia, rd_eq hs' hi (le_of_lt ha), hc, hz], hs', ?_⟩
          intro r c
          rw [he' r c]
          by_cases h1 : r = i
          · subst h1; simp [eliminated, hz]
          · have : r < i + 1 ↔ r < i := by omega
            simp [this]
        · obtain ⟨y'', hrun, hs'', he''⟩ :=
            eliminateRow_spec hs' ha hi hia (-1 / entry y i a)
          refine ⟨y'', ?_, hs'', ?_⟩
          · simpa [eliminateBody, hia, rd_eq hs' hi (le_of_lt ha), hc, hz, gdiv,
              rowSize_eq hs' hi] using hrun
          · intro r c
            rw [he'' r c]
            by_cases h1 : r = i
            · subst h1
              simp [eliminated, hia, hz, hrow, hrowa]
            · have : r < i + 1 ↔ r < i := by omega
              simp [h1, this, he' r c])
  refine ⟨y1, by simpa [eliminateStep, h.1] using hr, hs, ?_⟩
  intro r c
  rw [he r c]
  by_cases h1 : r < N
  · simp [h1]
  · have h2 : N ≤ r := not_lt.mp h1
    simp [h1, eliminated, entry_row_oob h h2]

/-- The swap loop exchanges rows `a` and `i` in every column. -/
theorem swapRows_spec {N : Nat} {y : Mat} (h : IsShape N y) {a i : Nat} (ha : a < N)
    (hi : i < N) (hai : a ≠ i) :
    ∃ y1, forRange (swapBody a i) (N + 1) 0 y = .ok y1 ∧ IsShape N y1 ∧
      ∀ r c, entry y1 r c = entry y (swapIdx a i r) c := by
  obtain ⟨y1, hr, hs, he⟩ := forRange_inv (swapBody a i)
    (fun j y' => IsShape N y' ∧
      ∀ r c, entry y' r c = if c < j then entry y (swapIdx a i r) c else entry y r c)
    (N + 1) 0 y ⟨h, by intro r c; simp⟩
    (by
      intro j y' _ hj ⟨hs', he'⟩
      have hj : j ≤ N := by omega
      obtain ⟨y2, hw2, hs2, he2⟩ := wr_eq hs' ha hj (entry y' i j)
      obtain ⟨y3, hw3, hs3, he3⟩ := wr_eq hs2 hi hj (entry y' a j)
      refine ⟨y3, ?_, hs3, ?_⟩
      · simp [swapBody, rd_eq hs' ha hj, rd_eq hs' hi hj, hw2, hw3]
      · intro r c
        rw [he3 r c, he2 r c]
        have h1 : entry y' i j = entry y i j := by rw [he' i j]; simp
        have h2 : entry y' a j = entry y a j := by rw [he' a j]; simp
        by_cases hc : c = j
        · subst hc
          by_cases hri : r = i
          · subst hri; simp [swapIdx, h2, Ne.symm hai]
          · by_cases hra : r = a
            · subst hra; simp [swapIdx, h1, hri]
            · simp [swapIdx, hri, hra, he' r c]
        · have : c < j + 1 ↔ c < j := by omega
          simp [hc, this, he' r c])
  refine ⟨y1, hr, hs, ?_⟩
  intro r c
  rw [he r c]
  by_cases hc : c ≤ N
  · have : c < 0 + (N + 1) := by omega
    simp only [this, if_true]
  · have hc2 : N < c := not_le.mp hc
    have : ¬ c < 0 + (N + 1) := by omega
    simp only [this, if_false]
    rw [entry_col_oob h _ hc2, entry_col_oob h _ hc2]

/-- The pivot search from row `i`: either no row from `i` on has a non-zero entry in
column `a` and the matrix is unchanged, or rows `a` and `i0` are exchanged, where `i0` is
the first such row. -/
theorem pivotSearch_spec {N : Nat} {a : Nat} (ha : a < N) :
    ∀ (k i : Nat) (y : Mat), IsShape N y → a < i → i + k = N →
      ∃ y1, pivotSearch a k i y = .ok y1 ∧ IsShape N y1 ∧
        ((y1 = y ∧ ∀ r, i ≤ r → r < N → entry y r a = 0) ∨
         (∃ i0, i ≤ i0 ∧ i0 < N ∧ entry y i0 a ≠ 0 ∧
            (∀ r, i ≤ r → r < i0 → entry y r a = 0) ∧
            ∀ r c, entry y1 r c = entry y (swapIdx a i0 r) c)) := by
  intro k
  induction k with
  | zero =>
    intro i y h _ hik
    exact ⟨y, rfl, h, Or.inl ⟨rfl, by intro r h1 h2; omega⟩⟩
  | succ k ih =>
    intro i y h hai hik
    have hi : i < N := by omega
    by_cases hz : entry y i a = 0
    · obtain ⟨y1, hrun, hs, hcase⟩ := ih (i + 1) y h (by omega) (by omega)
      refine ⟨y1, by simpa [pivotSearch, rd_eq h hi (le_of_lt ha), hz] using hrun, hs, ?_⟩
      rcases hcase with ⟨he, hall⟩ | ⟨i0, h1, h2, h3, h4, h5⟩
      · refine Or.inl ⟨he, ?_⟩
        intro r h1 h2
        by_cases hri : r = i
        · subst hri; exact hz
        · exact hall r (by omega) h2
      · refine Or.inr ⟨i0, by omega, h2, h3, ?_, h5⟩
        intro r hr1 hr2
        by_cases hri : r = i
        · subst hri; exact hz
        · exact h4 r (by omega) hr2
    · obtain ⟨y1, hrun, hs, he⟩ := swapRows_spec h ha hi (Nat.ne_of_lt hai)
      refine ⟨y1, by simpa [pivotSearch, rd_eq h hi (le_of_lt ha), hz, rowSize_eq h hi]
        using hrun, hs, ?_⟩
      exact Or.inr ⟨i, le_refl _, hi, hz, by intro r h1 h2; omega, he⟩

/-- Step (2) at column `a`: no exchange when `y[a][a] ≠ 0` or when no row below has a
non-zero entry in column `a`; otherwise rows `a` and `i0` are exchanged, `i0` the first
row below `a` with `y[i0][a] ≠ 0`. -/
theorem pivotStep_spec {N : Nat} {y : Mat} (h : IsShape N y) {a : Nat} (ha : a < N) :
    ∃ y1, pivotStep a y = .ok y1 ∧ IsShape N y1 ∧
      ((entry y a a ≠ 0 ∧ y1 = y) ∨
       (entry y a a = 0 ∧ y1 = y ∧ ∀ r, a < r → r < N → entry y r a = 0) ∨
       (entry y a a = 0 ∧ ∃ i0, a < i0 ∧ i0 < N ∧ entry y i0 a ≠ 0 ∧
            (∀ r, a < r → r < i0 → entry y r a = 0) ∧
            ∀ r c, entry y1 r c = entry y (swapIdx a i0 r) c)) := by
  by_cases hz : entry y a a = 0
  · obtain ⟨y1, hrun, hs, hcase⟩ :=
      pivotSearch_spec ha (N - (a + 1)) (a + 1) y h (by omega) (by omega)
    refine ⟨y1, by simpa [pivotStep, rd_eq h ha (le_of_lt ha), hz, h.1] using hrun, hs, ?_⟩
    rcases hcase with ⟨he, hall⟩ | ⟨i0, h1, h2, h3, h4, h5⟩
    · exact Or.inr (Or.inl ⟨hz, he, fun r h1 h2 => hall r (by omega) h2⟩)
    · exact Or.inr (Or.inr ⟨hz, i0, by omega, h2, h3,
        fun r hr1 hr2 => h4 r (by omega) hr2, h5⟩)
  · exact ⟨y, by simp [pivotStep, rd_eq h ha (le_of_lt ha), hz], h, Or.inl ⟨hz, rfl⟩⟩

/-! ## The predicate `rowCanonicalForm` -/

theorem rowSize_of_lt (x : Mat) {i : Nat} (hi : i < x.length) :
    rowSize x i = .ok (x.getD i []).length := by
  simp [rowSize, List.getD_eq_getElem?_getD, List.getElem?_eq_getElem hi]

theorem isShape_iff (N : Nat) (x : Mat) :
    IsShape N x ↔ x.length = N ∧ ∀ r, r < x.length → (x.getD r []).length = x.length + 1 := by
  constructor
  · rintro ⟨h1, h2⟩
    refine ⟨h1, ?_⟩
    intro r hr
    have := h2 (x[r]) (List.getElem_mem hr)
    simp [List.getD_eq_getElem?_getD, List.getElem?_eq_getElem hr, this, h1]
  · rintro ⟨h1, h2⟩
    refine ⟨h1, ?_⟩
    intro r hr
    obtain ⟨n, hn, rfl⟩ := List.getElem_of_mem hr
    have := h2 n hn
    simp [List.getD_eq_getElem?_getD, List.getElem?_eq_getElem hn] at this
    rw [this, h1]

/-- The shape loop never faults; it runs to its end exactly when every remaining row has
`x.size() + 1` entries. -/
theorem shapeLoop_spec (x : Mat) :
    ∀ (k i : Nat), i + k = x.length →
      ∃ b, shapeLoop x k i = .ok b ∧
        (b = true ↔ ∀ r, i ≤ r → r < x.length → (x.getD r []).length = x.length + 1) := by
  intro k
  induction k with
  | zero =>
    intro i hik
    exact ⟨true, rfl, by simp; intro r h1 h2; omega⟩
  | succ k ih =>
    intro i hik
    have hi : i < x.length := by omega
    by_cases hlen : (x.getD i []).length = x.length + 1
    · obtain ⟨b, hb, hiff⟩ := ih (i + 1) (by omega)
      refine ⟨b, by simp only [shapeLoop, rowSize_of_lt x hi, hlen]; simp [hb], ?_⟩
      rw [hiff]
      constructor
      · intro hall r h1 h2
        by_cases hri : r = i
        · subst hri; exact hlen
        · exact hall r (by omega) h2
      · intro hall r h1 h2
        exact hall r (by omega) h2
    · refine ⟨false, ?_, ?_⟩
      · have h2 : ¬ x.length + 1 = (x.getD i []).length := fun h => hlen h.symm
        simp only [shapeLoop, rowSize_of_lt x hi]
        generalize (x.getD i []).length = n at hlen h2
        by_cases h0 : i = 0 <;> simp [h0, hlen, h2]
      · simp only [Bool.false_eq_true, false_iff]
        intro hall
        exact hlen (hall i (le_refl _) hi)

/-- The inner entry loop on a well-shaped matrix never faults; it runs to its end exactly
when the remaining entries of row `i` left of the last column agree with the identity. -/
theorem entryRowLoop_spec {N : Nat} {x : Mat} (h : IsShape N x) {i : Nat} (hi : i < N) :
    ∀ (k j : Nat), j + k = N →
      ∃ b, entryRowLoop x i k j = .ok b ∧
        (b = true ↔ ∀ c, j ≤ c → c < N → entry x i c = if i = c then 1 else 0) := by
  intro k
  induction k with
  | zero =>
    intro j hjk
    exact ⟨true, rfl, by simp; intro c h1 h2; omega⟩
  | succ k ih =>
    intro j hjk
    have hj : j < N := by omega
    by_cases hv : entry x i j = if i = j then 1 else 0
    · obtain ⟨b, hb, hiff⟩ := ih (j + 1) (by omega)
      refine ⟨b, ?_, ?_⟩
      · by_cases hij : i = j
        · subst hij
          simp only [if_true] at hv
          simp [entryRowLoop, rd_eq h hi (le_of_lt hj), hv, hb]
        · simp only [hij, if_false] at hv
          simp [entryRowLoop, rd_eq h hi (le_of_lt hj), hij, hv, hb]
      · rw [hiff]
        constructor
        · intro hall c h1 h2
          by_cases hcj : c = j
          · subst hcj; exact hv
          · exact hall c (by omega) h2
        · intro hall c h1 h2
          exact hall c (by omega) h2
    · refine ⟨false, ?_, ?_⟩
      · by_cases hij : i = j
        · subst hij
          simp only [if_true] at hv
          simp [entryRowLoop, rd_eq h hi (le_of_lt hj), hv]
        · simp only [hij, if_false] at hv
          simp [entryRowLoop, rd_eq h hi (le_of_lt hj), hij, hv]
      · simp only [Bool.false_eq_true, false_iff]
        intro hall
        exact hv (hall j (le_refl _) hj)

/-- The outer entry loop on a well-shaped matrix never faults; it runs to its end exactly
when the remaining rows agree with the identity left of the last column. -/
theorem entryLoop_spec {N : Nat} {x : Mat} (h : IsShape N x) :
    ∀ (k i : Nat), i + k = N →
      ∃ b, entryLoop x k i = .ok b ∧
        (b = true ↔ ∀ r, i ≤ r → r < N → ∀ c, c < N →
          entry x r c = if r = c then 1 else 0) := by
  intro k
  induction k with
  | zero =>
    intro i hik
    exact ⟨true, rfl, by simp; intro r h1 h2; omega⟩
  | succ k ih =>
    intro i hik
    have hi : i < N := by omega
    obtain ⟨b1, hb1, hiff1⟩ := entryRowLoop_spec h hi N 0 (by omega)
    have hsz : sizePred (N + 1) = N := by simp [sizePred]
    cases b1 with
    | true =>
      obtain ⟨b, hb, hiff⟩ := ih (i + 1) (by omega)
      refine ⟨b, by simp [entryLoop, rowSize_eq h hi, hsz, hb1, hb], ?_⟩
      rw [hiff]
      have hrow := hiff1.mp rfl
      constructor
      · intro hall r h1 h2 c hc
        by_cases hri : r = i
        · subst hri; exact hrow c (Nat.zero_le _) hc
        · exact hall r (by omega) h2 c hc
      · intro hall r h1 h2 c hc
        exact hall r (by omega) h2 c hc
    | false =>
      refine ⟨false, by simp [entryLoop, rowSize_eq h hi, hsz, hb1], ?_⟩
      simp only [Bool.false_eq_true, false_iff]
      intro hall
      have : false = true := hiff1.mpr (fun c _ hc => hall i (le_refl _) hi c hc)
      exact Bool.noConfusion this

/-- The predicate `rowCanonicalForm` never faults, and it returns `true` exactly for the
`N x (N+1)` matrices whose first `N` columns are the identity (`N` the number of rows). -/
theorem rowCanonicalForm_spec (x : Mat) :
    ∃ b, rowCanonicalForm x = .ok b ∧
      (b = true ↔ IsShape x.length x ∧ IsIdentityPart x.length x) := by
  obtain ⟨b1, hb1, hiff1⟩ := shapeLoop_spec x x.length 0 (by omega)
  cases b1 with
  | true =>
    have hshape : IsShape x.length x :=
      (isShape_iff _ x).mpr ⟨rfl, fun r hr => hiff1.mp rfl r (Nat.zero_le _) hr⟩
    obtain ⟨b, hb, hiff⟩ := entryLoop_spec hshape x.length 0 (by omega)
    refine ⟨b, by simp [rowCanonicalForm, hb1, hb], ?_⟩
    rw [hiff]
    constructor
    · intro hall
      exact ⟨hshape, fun i hi j hj => hall i (Nat.zero_le _) hi j hj⟩
    · rintro ⟨_, hall⟩ r _ hr c hc
      exact hall r hr c hc
  | false =>
    refine ⟨false, by simp [rowCanonicalForm, hb1], ?_⟩
    simp only [Bool.false_eq_true, false_iff]
    rintro ⟨hshape, _⟩
    have : false = true :=
      hiff1.mpr (fun r _ hr => ((isShape_iff _ x).mp hshape).2 r hr)
    exact Bool.noConfusion this

theorem rowCanonicalForm_true_iff (x : Mat) :
    rowCanonicalForm x = .ok true ↔ IsShape x.length x ∧ IsIdentityPart x.length x := by
  obtain ⟨b, hb, hiff⟩ := rowCanonicalForm_spec x
  rw [hb, ← hiff]
  constructor
  · intro h; injection h
  · intro h; rw [h]

theorem rowCanonicalForm_false_iff (x : Mat) :
    rowCanonicalForm x = .ok false ↔ ¬ (IsShape x.length x ∧ IsIdentityPart x.length x) := by
  obtain ⟨b, hb, hiff⟩ := rowCanonicalForm_spec x
  rw [hb, ← hiff]
  cases b <;> simp

/-! ## Linear algebra of the rows -/

theorem SameNull.refl (N : Nat) (m : Mat) : SameNull N m m := fun _ => Iff.rfl

theorem SameNull.trans {N : Nat} {x y m : Mat} (h1 : SameNull N x y) (h2 : SameNull N y m) :
    SameNull N x m := fun w => (h1 w).trans (h2 w)

theorem rowDot_last_zero (N : Nat) (y : Mat) (i : Nat) (w : Nat → ℚ) (hw : w N = 0) :
    rowDot N y i w = ∑ j in Finset.range N, entry y i j * w j := by
  simp [rowDot, Finset.sum_range_succ, hw]

/-- A non-singular coefficient part has a trivial kernel. -/
theorem kernel_trivial {N : Nat} {m : Mat} (hns : NonSingular N m) (w : Nat → ℚ)
    (hw : ∀ i < N, ∑ j in Finset.range N, entry m i j * w j = 0) :
    ∀ j < N, w j = 0 := by
  by_contra hcon
  push_neg at hcon
  obtain ⟨j0, hj0, hne⟩ := hcon
  apply hns
  rw [← Matrix.exists_mulVec_eq_zero_iff]
  refine ⟨fun j => w j.val, ?_, ?_⟩
  · intro h0
    exact hne (by simpa using congrFun h0 ⟨j0, hj0⟩)
  · funext i
    have := hw i.val i.isLt
    rw [Finset.sum_range] at this
    simpa [Matrix.mulVec, Matrix.dotProduct, coeff] using this

/-- A coefficient part with a trivial kernel is non-singular. -/
theorem nonSingular_of_kernel_trivial {N : Nat} {m : Mat}
    (h : ∀ w : Nat → ℚ, (∀ i < N, ∑ j in Finset.range N, entry m i j * w j = 0) →
      ∀ j < N, w j = 0) :
    NonSingular N m := by
  intro hdet
  rw [← Matrix.exists_mulVec_eq_zero_iff] at hdet
  obtain ⟨v, hv, hmul⟩ := hdet
  apply hv
  funext j
  have key := h (fun k => if hk : k < N then v ⟨k, hk⟩ else 0) (by
    intro i hi
    rw [Finset.sum_range]
    have := congrFun hmul ⟨i, hi⟩
    simpa [Matrix.mulVec, Matrix.dotProduct, coeff] using this) j.val j.isLt
  simpa using key

/-- A matrix that is diagonal with non-zero diagonal left of the last column, and whose
rows are orthogonal to the same weights as those of `m`, certifies that `m` is
non-singular. -/
theorem nonSingular_of_diag {N : Nat} {m y : Mat}
    (hoff : ∀ i < N, ∀ j < N, i ≠ j → entry y i j = 0)
    (hdiag : ∀ j < N, entry y j j ≠ 0) (hnull : SameNull N y m) :
    NonSingular N m := by
  apply nonSingular_of_kernel_trivial
  intro w hw
  have hm : ∀ i < N, rowDot N m i (fun j => if j < N then w j else 0) = 0 := by
    intro i hi
    rw [rowDot_last_zero _ _ _ _ (by simp), ← hw i hi]
    apply Finset.sum_congr rfl
    intro j hj
    simp [Finset.mem_range.mp hj]
  have hy := (hnull _).mpr hm
  intro i hi
  have h1 := hy i hi
  rw [rowDot_last_zero _ _ _ _ (by simp), Finset.sum_eq_single i] at h1
  · simp only [hi, if_true] at h1
    rcases mul_eq_zero.mp h1 with h2 | h2
    · exact absurd h2 (hdiag i hi)
    · exact h2
  · intro j hj hji
    rw [hoff i hi j (Finset.mem_range.mp hj) (Ne.symm hji)]; simp
  · intro hni
    exact absurd (Finset.mem_range.mpr hi) hni

/-- On a non-singular system the pivot search cannot fail: some row from `a` on has a
non-zero entry in column `a`. -/
theorem pivot_exists {N : Nat} {m y : Mat} {a : Nat} (hns : NonSingular N m)
    (hinv : MainInv N m a y) (ha : a < N) :
    ∃ r, a ≤ r ∧ r < N ∧ entry y r a ≠ 0 := by
  by_contra hcon
  push_neg at hcon
  let w : Nat → ℚ := fun j =>
    if j < a then - entry y j a / entry y j j else if j = a then 1 else 0
  have hwa : w a = 1 := by simp [w]
  have hwN : w N = 0 := by
    have h1 : ¬ N < a := by omega
    have h2 : ¬ N = a := by omega
    simp [w, h1, h2]
  have hy : ∀ i < N, rowDot N y i w = 0 := by
    intro i hi
    by_cases hia : i < a
    · have hterm : ∀ j ∈ Finset.range (N + 1), entry y i j * w j =
          (if j = i then - entry y i a else 0) + (if j = a then entry y i a else 0) := by
        intro j _
        by_cases hji : j = i
        · subst hji
          have hne : j ≠ a := by omega
          have hd := hinv.diag j hia
          simp only [w, hia, hne, if_true, if_false]
          field_simp
          ring
        · by_cases hja : j = a
          · subst hja
            simp [w, hji]
          · by_cases hlt : j < a
            · rw [hinv.offdiag i hi j hlt (Ne.symm hji)]
              simp [hji, hja]
            · simp [w, hji, hja, hlt]
      unfold rowDot
      rw [Finset.sum_congr rfl hterm, Finset.sum_add_distrib, Finset.sum_ite_eq',
        Finset.sum_ite_eq']
      have h1 : i ∈ Finset.range (N + 1) := Finset.mem_range.mpr (by omega)
      have h2 : a ∈ Finset.range (N + 1) := Finset.mem_range.mpr (by omega)
      simp [h1, h2]
    · unfold rowDot
      apply Finset.sum_eq_zero
      intro j _
      by_cases hlt : j < a
      · rw [hinv.offdiag i hi j hlt (by omega)]; simp
      · by_cases hja : j = a
        · subst hja
          rw [hcon i (by omega) hi]; simp
        · simp [w, hlt, hja]
  have hm := (hinv.null w).mp hy
  have hker := kernel_trivial hns w (by
    intro i hi
    rw [← rowDot_last_zero N m i w hwN]
    exact hm i hi) a ha
  rw [hwa] at hker
  exact one_ne_zero hker

theorem rowDot_congr {N : Nat} {y y' : Mat} {i i' : Nat} (w : Nat → ℚ)
    (h : ∀ c, entry y' i' c = entry y i c) : rowDot N y' i' w = rowDot N y i w := by
  unfold rowDot
  exact Finset.sum_congr rfl (fun c _ => by rw [h c])

theorem rowDot_scale {N : Nat} {y y' : Mat} {i i' : Nat} (w : Nat → ℚ) (t : ℚ)
    (h : ∀ c, entry y' i' c = entry y i c * t) : rowDot N y' i' w = rowDot N y i w * t := by
  unfold rowDot
  rw [Finset.sum_mul]
  exact Finset.sum_congr rfl (fun c _ => by rw [h c]; ring)

theorem rowDot_scale_add {N : Nat} {y y' : Mat} {i i' a : Nat} (w : Nat → ℚ) (t : ℚ)
    (h : ∀ c, entry y' i' c = entry y i c * t + entry y a c) :
    rowDot N y' i' w = rowDot N y i w * t + rowDot N y a w := by
  unfold rowDot
  rw [Finset.sum_mul, ← Finset.sum_add_distrib]
  exact Finset.sum_congr rfl (fun c _ => by rw [h c]; ring)

theorem swapIdx_lt {N a i r : Nat} (ha : a < N) (hi : i < N) (hr : r < N) :
    swapIdx a i r < N := by
  unfold swapIdx; split_ifs <;> assumption

theorem swapIdx_swapIdx (a i r : Nat) : swapIdx a i (swapIdx a i r) = r := by
  unfold swapIdx
  by_cases h1 : r = a
  · by_cases h2 : i = a <;> simp [h1, h2]
  · by_cases h2 : r = i
    · simp [h1, h2]
    · simp [h1, h2]

/-- Exchanging two rows keeps the weights orthogonal to all rows. -/
theorem sameNull_swap {N : Nat} {y y1 : Mat} {a i0 : Nat} (ha : a < N) (hi0 : i0 < N)
    (he : ∀ r c, entry y1 r c = entry y (swapIdx a i0 r) c) : SameNull N y1 y := by
  intro w
  constructor
  · intro h r hr
    have := h (swapIdx a i0 r) (swapIdx_lt ha hi0 hr)
    rw [rowDot_congr w (he (swapIdx a i0 r)), swapIdx_swapIdx] at this
    exact this
  · intro h r hr
    rw [rowDot_congr w (he r)]
    exact h _ (swapIdx_lt ha hi0 hr)

/-- Multiplying row `a` by a non-zero factor keeps the weights orthogonal to all rows. -/
theorem sameNull_scale {N : Nat} {y y1 : Mat} {a : Nat} {t : ℚ} (ht : t ≠ 0)
    (he : ∀ r c, entry y1 r c = if r = a then entry y a c * t else entry y r c) :
    SameNull N y1 y := by
  have hrow : ∀ r, rowDot N y1 r = fun w => if r = a then rowDot N y a w * t
      else rowDot N y r w := by
    intro r; funext w
    by_cases hr : r = a
    · subst hr; simp only [if_true]
      exact rowDot_scale w t (fun c => by rw [he r c]; simp)
    · simp only [hr, if_false]
      exact rowDot_congr w (fun c => by rw [he r c]; simp [hr])
  intro w
  constructor
  · intro h r hr
    have := h r hr
    rw [hrow r] at this
    by_cases hra : r = a
    · subst hra
      simp only [if_true] at this
      rcases mul_eq_zero.mp this with h1 | h1
      · exact h1
      · exact absurd h1 ht
    · simpa [hra] using this
  · intro h r hr
    rw [hrow r]
    by_cases hra : r = a
    · subst hra; simp [h r hr]
    · simp [hra, h r hr]

/-- Step (4) keeps the weights orthogonal to all rows. -/
theorem sameNull_eliminated {N : Nat} {y y1 : Mat} {a : Nat} (ha : a < N)
    (he : ∀ r c, entry y1 r c = eliminated y a r c) : SameNull N y1 y := by
  have hrow : ∀ r w, rowDot N y1 r w =
      if r ≠ a ∧ entry y r a ≠ 0 then rowDot N y r w * (-1 / entry y r a) + rowDot N y a w
      else rowDot N y r w := by
    intro r w
    by_cases hc : r ≠ a ∧ entry y r a ≠ 0
    · rw [if_pos hc]
      exact rowDot_scale_add w _ (fun c => by rw [he r c, eliminated, if_pos hc])
    · rw [if_neg hc]
      exact rowDot_congr w (fun c => by rw [he r c, eliminated, if_neg hc])
  intro w
  constructor
  · intro h r hr
    have hra := h a ha
    rw [hrow a w] at hra
    simp only [ne_eq, not_true_eq_false, false_and, if_false] at hra
    have := h r hr
    rw [hrow r w] at this
    by_cases hc : r ≠ a ∧ entry y r a ≠ 0
    · rw [if_pos hc, hra, add_zero] at this
      rcases mul_eq_zero.mp this with h1 | h1
      · exact h1
      · exfalso
        have : (-1 : ℚ) / entry y r a ≠ 0 := div_ne_zero (by norm_num) hc.2
        exact this h1
    · rw [if_neg hc] at this; exact this
  · intro h r hr
    rw [hrow r w]
    by_cases hc : r ≠ a ∧ entry y r a ≠ 0
    · rw [if_pos hc, h r hr, h a ha]; simp
    · rw [if_neg hc]; exact h r hr

/-! ## One column of the main loop -/

/-- Step (2) keeps the loop invariant and, when a pivot exists, puts a non-zero entry on
the diagonal. -/
theorem pivotStep_inv {N : Nat} {m y : Mat} {a : Nat} (hinv : MainInv N m a y) (ha : a < N)
    (hpiv : ∃ r, a ≤ r ∧ r < N ∧ entry y r a ≠ 0) :
    ∃ y1, pivotStep a y = .ok y1 ∧ MainInv N m a y1 ∧ entry y1 a a ≠ 0 := by
  obtain ⟨y1, hrun, hs, hcase⟩ := pivotStep_spec hinv.shape ha
  rcases hcase with ⟨hne, rfl⟩ | ⟨hz, _, hall⟩ | ⟨hz, i0, h1, h2, h3, _, he⟩
  · exact ⟨y1, hrun, hinv, hne⟩
  · exfalso
    obtain ⟨r, hr1, hr2, hr3⟩ := hpiv
    by_cases hra : r = a
    · subst hra; exact hr3 hz
    · exact hr3 (hall r (by omega) hr2)
  · refine ⟨y1, hrun, ⟨hs, ?_, ?_, (sameNull_swap ha h2 he).trans hinv.null⟩, ?_⟩
    · intro i hi j hj hij
      rw [he i j]
      apply hinv.offdiag _ (swapIdx_lt ha h2 hi) j hj
      unfold swapIdx
      split_ifs <;> omega
    · intro j hj
      rw [he j j]
      have : swapIdx a i0 j = j := by
        unfold swapIdx
        have h4 : j ≠ a := by omega
        have h5 : j ≠ i0 := by omega
        simp [h4, h5]
      rw [this]
      exact hinv.diag j hj
    · rw [he a a]
      simpa [swapIdx] using h3

/-- Step (3) on a non-zero pivot keeps the loop invariant and makes the pivot `1`. -/
theorem normalizeStep_inv {N : Nat} {m y : Mat} {a : Nat} (hinv : MainInv N m a y)
    (ha : a < N) (hp : entry y a a ≠ 0) :
    ∃ y1, normalizeStep a y = .ok y1 ∧ MainInv N m a y1 ∧ entry y1 a a = 1 := by
  obtain ⟨y1, hrun, hs, he⟩ := normalizeStep_spec hinv.shape ha hp
  have ht : (1 : ℚ) / entry y a a ≠ 0 := div_ne_zero one_ne_zero hp
  refine ⟨y1, hrun, ⟨hs, ?_, ?_, (sameNull_scale ht he).trans hinv.null⟩, ?_⟩
  · intro i hi j hj hij
    rw [he i j]
    by_cases hia : i = a
    · subst hia
      simp [hinv.offdiag i hi j hj hij]
    · simp [hia, hinv.offdiag i hi j hj hij]
  · intro j hj
    rw [he j j]
    have : j ≠ a := by omega
    simp only [this, if_false]
    exact hinv.diag j hj
  · rw [he a a]
    simp only [if_true]
    field_simp

/-- Step (4) with a unit pivot clears column `a` and advances the loop invariant. -/
theorem eliminateStep_inv {N : Nat} {m y : Mat} {a : Nat} (hinv : MainInv N m a y)
    (ha : a < N) (hp : entry y a a = 1) :
    ∃ y1, eliminateStep a y = .ok y1 ∧ MainInv N m (a + 1) y1 := by
  obtain ⟨y1, hrun, hs, he⟩ := eliminateStep_spec hinv.shape ha
  refine ⟨y1, hrun, ⟨hs, ?_, ?_, (sameNull_eliminated ha he).trans hinv.null⟩⟩
  · intro i hi j hj hij
    rw [he i j, eliminated]
    by_cases hja : j = a
    · subst hja
      by_cases hc : entry y i j = 0
      · simp [hc]
      · simp only [ne_eq, hij, not_false_eq_true, hc, and_self, if_true, hp]
        field_simp
    · have hj' : j < a := by omega
      have h1 := hinv.offdiag i hi j hj' hij
      have h2 := hinv.offdiag a ha j hj' (Ne.symm hja)
      split_ifs <;> simp [h1, h2]
  · intro j hj
    rw [he j j, eliminated]
    by_cases hja : j = a
    · subst hja
      simp [hp]
    · have hj' : j < a := by omega
      have h1 := hinv.diag j hj'
      have h2 := hinv.offdiag a ha j hj' (Ne.symm hja)
      by_cases hc : entry y j a = 0
      · simp [hc, h1]
      · simp only [ne_eq, hja, not_false_eq_true, hc, and_self, if_true, h2, add_zero]
        exact mul_ne_zero h1 (div_ne_zero (by norm_num) hc)

/-- One iteration of the main loop with a pivot available runs without fault and
advances the invariant. -/
theorem columnStep_inv {N : Nat} {m y : Mat} {a : Nat} (hinv : MainInv N m a y) (ha : a < N)
    (hpiv : ∃ r, a ≤ r ∧ r < N ∧ entry y r a ≠ 0) :
    ∃ y1, columnStep a y = .ok y1 ∧ MainInv N m (a + 1) y1 := by
  obtain ⟨y1, hrun1, hinv1, hp1⟩ := pivotStep_inv hinv ha hpiv
  obtain ⟨y2, hrun2, hinv2, hp2⟩ := normalizeStep_inv hinv1 ha hp1
  obtain ⟨y3, hrun3, hinv3⟩ := eliminateStep_inv hinv2 ha hp2
  exact ⟨y3, by simp [columnStep, hrun1, hrun2, hrun3], hinv3⟩

/-- One iteration of the main loop without a pivot: the search exchanges nothing and
step (3) divides by the zero on the diagonal. -/
theorem columnStep_zero {N : Nat} {y : Mat} {a : Nat} (hs : IsShape N y) (ha : a < N)
    (hcol : ∀ r, a ≤ r → r < N → entry y r a = 0) :
    pivotStep a y = .ok y ∧ normalizeStep a y = .error (.zeroPivot a) ∧
      columnStep a y = .error (.zeroPivot a) := by
  have hz : entry y a a = 0 := hcol a (le_refl _) ha
  obtain ⟨y1, hrun, _, hcase⟩ := pivotStep_spec hs ha
  have hy1 : y1 = y := by
    rcases hcase with ⟨hne, _⟩ | ⟨_, h1, _⟩ | ⟨_, i0, h1, h2, h3, _, _⟩
    · exact absurd hz hne
    · exact h1
    · exact absurd (hcol i0 (by omega) h2) h3
  subst hy1
  have hn := normalizeStep_zero hs ha hz
  exact ⟨hrun, hn, by simp [columnStep, hrun, hn]⟩

/-! ## The main loop and the final pass -/

/-- A matrix in row canonical form is the identity left of the last column. -/
theorem identity_of_rowCanonicalForm {N : Nat} {y : Mat} (hs : IsShape N y)
    (h : rowCanonicalForm y = .ok true) : IsIdentityPart N y := by
  have := ((rowCanonicalForm_true_iff y).mp h).2
  rw [hs.1] at this
  exact this

/-- On a non-singular system the main loop runs without fault, stops after at most `N`
iterations, and stops either in row canonical form or with every column processed. -/
theorem mainLoop_spec {N : Nat} {m : Mat} (hns : NonSingular N m) :
    ∀ (k a : Nat) (y : Mat), a + k = N → MainInv N m a y →
      ∃ y1 a1, mainLoop k a y = .ok (y1, a1) ∧ a ≤ a1 ∧ a1 ≤ N ∧ MainInv N m a1 y1 ∧
        (a1 = N ∨ rowCanonicalForm y1 = .ok true) := by
  intro k
  induction k with
  | zero =>
    intro a y hak hinv
    exact ⟨y, a, rfl, le_refl _, by omega, hinv, Or.inl (by omega)⟩
  | succ k ih =>
    intro a y hak hinv
    have ha : a < N := by omega
    obtain ⟨b, hb, _⟩ := rowCanonicalForm_spec y
    cases b with
    | true =>
      exact ⟨y, a, by simp [mainLoop, hb], le_refl _, by omega, hinv, Or.inr hb⟩
    | false =>
      obtain ⟨y1, hrun, hinv1⟩ := columnStep_inv hinv ha (pivot_exists hns hinv ha)
      obtain ⟨y2, a2, hrun2, h1, h2, h3, h4⟩ := ih (a + 1) y1 (by omega) hinv1
      exact ⟨y2, a2, by simp [mainLoop, hb, hrun, hrun2], by omega, h2, h3, h4⟩

/-- One iteration of the final pass runs without fault and advances its invariant. -/
theorem finalStep_inv {N : Nat} {m y : Mat} {i : Nat} (hinv : FinalInv N m i y) (hi : i < N) :
    ∃ y1, finalStep i y = .ok y1 ∧ FinalInv N m (i + 1) y1 := by
  have hp := hinv.diag i hi
  obtain ⟨y1, hrun, hs, he⟩ := finalStep_spec hinv.shape hi hp
  have ht : (1 : ℚ) / entry y i i ≠ 0 := div_ne_zero one_ne_zero hp
  refine ⟨y1, hrun, ⟨hs, ?_, ?_, ?_, (sameNull_scale ht he).trans hinv.null⟩⟩
  · intro r hr c hc hrc
    rw [he r c]
    have := hinv.offdiag r hr c hc hrc
    by_cases hri : r = i
    · subst hri; simp [this]
    · simp [hri, this]
  · intro j hj
    rw [he j j]
    by_cases hji : j = i
    · subst hji
      simp only [if_true]
      exact mul_ne_zero hp ht
    · simp only [hji, if_false]
      exact hinv.diag j hj
  · intro j hj
    rw [he j j]
    by_cases hji : j = i
    · subst hji
      simp only [if_true]
      field_simp
    · simp only [hji, if_false]
      exact hinv.unit j (by omega)

/-- The final pass runs without fault and ends in row canonical form. -/
theorem finalLoop_spec {N : Nat} {m : Mat} :
    ∀ (k i : Nat) (y : Mat), i + k = N → FinalInv N m i y →
      ∃ y1 i1, finalLoop k i y = .ok (y1, i1) ∧ IsShape N y1 ∧ IsIdentityPart N y1 ∧
        SameNull N y1 m := by
  intro k
  induction k with
  | zero =>
    intro i y hik hinv
    refine ⟨y, i, rfl, hinv.shape, ?_, hinv.null⟩
    intro r hr c hc
    by_cases hrc : r = c
    · subst hrc; simp [hinv.unit r (by omega)]
    · simp [hrc, hinv.offdiag r hr c hc hrc]
  | succ k ih =>
    intro i y hik hinv
    obtain ⟨b, hb, _⟩ := rowCanonicalForm_spec y
    cases b with
    | true =>
      exact ⟨y, i, by simp [finalLoop, hb], hinv.shape,
        identity_of_rowCanonicalForm hinv.shape hb, hinv.null⟩
    | false =>
      obtain ⟨y1, hrun, hinv1⟩ := finalStep_inv hinv (by omega)
      obtain ⟨y2, i2, hrun2, h⟩ := ih (i + 1) y1 (by omega) hinv1
      exact ⟨y2, i2, by simp [finalLoop, hb, hrun, hrun2], h⟩

/-- The state in which the main loop ends satisfies the entry invariant of the final
pass. -/
theorem finalInv_of_mainLoop {N : Nat} {m y : Mat} {a : Nat} (hinv : MainInv N m a y)
    (hend : a = N ∨ rowCanonicalForm y = .ok true) : FinalInv N m 0 y := by
  rcases hend with rfl | hcan
  · exact ⟨hinv.shape, hinv.offdiag, hinv.diag, by intro j hj; omega, hinv.null⟩
  · have hid := identity_of_rowCanonicalForm hinv.shape hcan
    refine ⟨hinv.shape, ?_, ?_, by intro j hj; omega, hinv.null⟩
    · intro r hr c hc hrc
      rw [hid r hr c hc]; simp [hrc]
    · intro j hj
      rw [hid j hj j hj]; simp

/-! ## The copy loop and the solution extraction -/

theorem getElem?_snoc_at {α : Type} (pre : List α) (r : α) {i : Nat} (hi : pre.length = i) :
    (pre ++ [r])[i]? = some r := by
  subst hi; simp

theorem set_snoc_at {α : Type} (pre : List α) (r r' : α) {i : Nat} (hi : pre.length = i) :
    (pre ++ [r]).set i r' = pre ++ [r'] := by
  subst hi
  induction pre with
  | nil => rfl
  | cons a t ih => simp [List.set, ih]

theorem vresize_snoc {α : Type} (v : List α) (d : α) {n : Nat} (hn : v.length = n) :
    vresize v (n + 1) d = v ++ [d] := by
  subst hn
  simp [vresize, List.take_of_length_le]

theorem take_succ_of_lt {α : Type} (l : List α) {n : Nat} (hn : n < l.length) :
    l.take (n + 1) = l.take n ++ [l[n]] := by
  rw [List.take_succ, List.getElem?_eq_getElem hn]; rfl

theorem resizeRow_snoc (pre : Mat) (row : List ℚ) {i j : Nat} (hpre : pre.length = i)
    (hrow : row.length = j) :
    resizeRow (pre ++ [row]) i (j + 1) = .ok (pre ++ [row ++ [0]]) := by
  unfold resizeRow
  rw [getElem?_snoc_at pre row hpre]
  show Except.ok (List.set (pre ++ [row]) i (vresize row (j + 1) 0)) = _
  rw [vresize_snoc row 0 hrow, set_snoc_at pre _ _ hpre]

theorem wr_snoc (pre : Mat) (row : List ℚ) (d v : ℚ) {i j : Nat} (hpre : pre.length = i)
    (hrow : row.length = j) :
    wr (pre ++ [row ++ [d]]) i j v = .ok (pre ++ [row ++ [v]]) := by
  unfold wr
  rw [getElem?_snoc_at pre _ hpre]
  have : j < (row ++ [d]).length := by simp [hrow]
  show (if j < (row ++ [d]).length then
    Except.ok (List.set (pre ++ [row ++ [d]]) i ((row ++ [d]).set j v))
    else Except.error Fault.outOfRange) = _
  rw [if_pos this, set_snoc_at row d v hrow, set_snoc_at pre _ _ hpre]

/-- The inner copy loop appends row `i` of `x`, entry by entry. -/
theorem copyRow_spec (x : Mat) {i : Nat} (hi : i < x.length) (pre : Mat)
    (hpre : pre.length = i) :
    forRange (copyRowBody x i) (x[i]).length 0 (pre ++ [[]]) = .ok (pre ++ [x[i]]) := by
  obtain ⟨y1, hrun, hP⟩ := forRange_inv (copyRowBody x i)
    (fun j y => j ≤ (x[i]).length ∧ y = pre ++ [(x[i]).take j])
    (x[i]).length 0 (pre ++ [[]]) ⟨Nat.zero_le _, by simp⟩
    (by
      intro j y _ hj ⟨_, hy⟩
      have hj : j < (x[i]).length := by omega
      subst hy
      have hlen : ((x[i]).take j).length = j := by
        rw [List.length_take]; omega
      refine ⟨pre ++ [(x[i]).take (j + 1)], ?_, by omega, rfl⟩
      have h1 := resizeRow_snoc pre _ hpre hlen
      have h2 : rd x i j = .ok ((x[i])[j]) := by
        simp [rd, List.getElem?_eq_getElem hi, List.getElem?_eq_getElem hj]
      have h3 := wr_snoc pre _ 0 ((x[i])[j]) hpre hlen
      simp only [copyRowBody, h1, h2, h3, take_succ_of_lt _ hj])
  rw [hrun, hP.2]
  simp

/-- The copy loop reproduces its argument. -/
theorem copyMatrix_eq (x : Mat) : copyMatrix x = .ok x := by
  obtain ⟨y1, hrun, hP⟩ := forRange_inv (copyBody x)
    (fun i y => i ≤ x.length ∧ y = x.take i)
    x.length 0 [] ⟨Nat.zero_le _, by simp⟩
    (by
      intro i y _ hi ⟨_, hy⟩
      have hi : i < x.length := by omega
      subst hy
      have hlen : (x.take i).length = i := by
        rw [List.length_take]; omega
      refine ⟨x.take (i + 1), ?_, by omega, rfl⟩
      have h1 : rowSize x i = .ok (x[i]).length := by
        simp [rowSize, List.getElem?_eq_getElem hi]
      simp only [copyBody, h1, vresize_snoc _ _ hlen, copyRow_spec x hi _ hlen,
        take_succ_of_lt _ hi])
  unfold copyMatrix
  rw [hrun, hP.2]
  simp

theorem rd_last (x : Mat) {i : Nat} (hi : i < x.length) (hne : x[i] ≠ []) :
    rd x i (sizePred (x[i]).length) = .ok (lastOf x[i]) := by
  have hpos : 0 < (x[i]).length := List.length_pos.mpr hne
  have h0 : (x[i]).length ≠ 0 := by omega
  have hlt : (x[i]).length - 1 < (x[i]).length := by omega
  unfold sizePred
  rw [if_neg h0]
  simp [rd, List.getElem?_eq_getElem hi, List.getElem?_eq_getElem hlt, lastOf,
    List.getLast?_eq_getElem?]

theorem wrv_snoc (s : List ℚ) {i : Nat} (hlen : s.length = i) (d v : ℚ) :
    wrv (s ++ [d]) i v = .ok (s ++ [v]) := by
  subst hlen
  simp [wrv, set_snoc_at s d v rfl]

/-- On rows that are all non-empty the extraction returns the last element of every row,
in row order. -/
theorem solve_spec (x : Mat) (hne : ∀ r ∈ x, r ≠ []) :
    solveSystem_PreReducedMatrix x = .ok (x.map lastOf) := by
  obtain ⟨s1, hrun, hP⟩ := forRange_inv (solveBody x)
    (fun i s => i ≤ x.length ∧ s = (x.take i).map lastOf)
    x.length 0 [] ⟨Nat.zero_le _, by simp⟩
    (by
      intro i s _ hi ⟨_, hs⟩
      have hi : i < x.length := by omega
      subst hs
      have hlen : ((x.take i).map lastOf).length = i := by
        rw [List.length_map, List.length_take]; omega
      refine ⟨(x.take (i + 1)).map lastOf, ?_, by omega, rfl⟩
      have h1 : rowSize x i = .ok (x[i]).length := by
        simp [rowSize, List.getElem?_eq_getElem hi]
      have h2 := rd_last x hi (hne _ (List.getElem_mem hi))
      have h3 := wrv_snoc _ hlen 0 (lastOf x[i])
      simp only [solveBody, h1, h2, vresize_snoc _ _ hlen, h3, take_succ_of_lt _ hi,
        List.map_append, List.map_cons, List.map_nil])
  unfold solveSystem_PreReducedMatrix
  rw [hrun, hP.2]
  simp

/-! ## The whole reduction -/

theorem mainInv_init {N : Nat} {m : Mat} (hs : IsShape N m) : MainInv N m 0 m :=
  ⟨hs, by intro i _ j hj; omega, by intro j hj; omega, SameNull.refl N m⟩

theorem gaussJordanElimination_unfold {N : Nat} {m y r : Mat} {a i : Nat} (hs : IsShape N m)
    (hy : IsShape N y) (h1 : mainLoop N 0 m = .ok (y, a)) (h2 : finalLoop N 0 y = .ok (r, i)) :
    gaussJordanElimination m = .ok r := by
  simp [gaussJordanElimination, copyMatrix_eq, hs.1, hy.1, h1, h2]

/-- On a non-singular `N x (N+1)` system the reduction runs without fault and returns a
matrix in row canonical form whose rows are orthogonal to the same weights as the rows of
the input. -/
theorem gaussJordan_spec {N : Nat} {m : Mat} (hs : IsShape N m) (hns : NonSingular N m) :
    ∃ y a r i, mainLoop N 0 m = .ok (y, a) ∧ a ≤ N ∧ finalLoop N 0 y = .ok (r, i) ∧
      gaussJordanElimination m = .ok r ∧ IsShape N r ∧ IsIdentityPart N r ∧
      SameNull N r m := by
  obtain ⟨y, a, h1, _, ha, hinv, hend⟩ :=
    mainLoop_spec hns N 0 m (by omega) (mainInv_init hs)
  obtain ⟨r, i, h2, hr1, hr2, hr3⟩ :=
    finalLoop_spec N 0 y (by omega) (finalInv_of_mainLoop hinv hend)
  exact ⟨y, a, r, i, h1, ha, h2, gaussJordanElimination_unfold hs hinv.shape h1 h2,
    hr1, hr2, hr3⟩

/-- On a singular system the main loop reaches a column whose pivot search finds nothing
and whose normalization divides by zero. -/
theorem mainLoop_singular {N : Nat} {m : Mat} (hsing : ¬ NonSingular N m) :
    ∀ (k a0 : Nat) (y0 : Mat), a0 + k = N → MainInv N m a0 y0 →
      ∃ a y, a0 ≤ a ∧ a < N ∧ mainLoop (a - a0) a0 y0 = .ok (y, a) ∧ IsShape N y ∧
        rowCanonicalForm y = .ok false ∧ (∀ r, a ≤ r → r < N → entry y r a = 0) ∧
        mainLoop k a0 y0 = .error (.zeroPivot a) := by
  intro k
  induction k with
  | zero =>
    intro a0 y0 hak hinv
    have : a0 = N := by omega
    subst this
    exact absurd (nonSingular_of_diag hinv.offdiag hinv.diag hinv.null) hsing
  | succ k ih =>
    intro a0 y0 hak hinv
    have ha : a0 < N := by omega
    obtain ⟨b, hb, _⟩ := rowCanonicalForm_spec y0
    cases b with
    | true =>
      exfalso
      have hfin := finalInv_of_mainLoop hinv (Or.inr hb)
      exact hsing (nonSingular_of_diag hfin.offdiag hfin.diag hfin.null)
    | false =>
      by_cases hpiv : ∃ r, a0 ≤ r ∧ r < N ∧ entry y0 r a0 ≠ 0
      · obtain ⟨y1, hrun, hinv1⟩ := columnStep_inv hinv ha hpiv
        obtain ⟨a, y, h1, h2, h3, h4, h5, h6, h7⟩ := ih (a0 + 1) y1 (by omega) hinv1
        refine ⟨a, y, by omega, h2, ?_, h4, h5, h6, by simp [mainLoop, hb, hrun, h7]⟩
        have : a - a0 = (a - (a0 + 1)) + 1 := by omega
        rw [this]
        simp [mainLoop, hb, hrun, h3]
      · push_neg at hpiv
        have hz := columnStep_zero hinv.shape ha hpiv
        refine ⟨a0, y0, le_refl _, ha, by simp [mainLoop], hinv.shape, hb, hpiv, ?_⟩
        simp [mainLoop, hb, hz.2.2]

/-- On a singular `N x (N+1)` system the reduction ends in the zero-pivot division. -/
theorem gaussJordan_singular {N : Nat} {m : Mat} (hs : IsShape N m)
    (hsing : ¬ NonSingular N m) :
    ∃ a y, a < N ∧ mainLoop a 0 m = .ok (y, a) ∧ IsShape N y ∧
      rowCanonicalForm y = .ok false ∧ (∀ r, a ≤ r → r < N → entry y r a = 0) ∧
      gaussJordanElimination m = .error (.zeroPivot a) := by
  obtain ⟨a, y, _, h2, h3, h4, h5, h6, h7⟩ :=
    mainLoop_singular hsing N 0 m (by omega) (mainInv_init hs)
  refine ⟨a, y, h2, by simpa using h3, h4, h5, h6, ?_⟩
  simp [gaussJordanElimination, copyMatrix_eq, hs.1, h7]

/-- A run of the main loop that starts in row canonical form performs no iteration. -/
theorem mainLoop_of_canonical {m : Mat} (h : rowCanonicalForm m = .ok true) (k a : Nat) :
    mainLoop k a m = .ok (m, a) := by
  cases k with
  | zero => rfl
  | succ k => simp [mainLoop, h]

/-- A run of the final pass that starts in row canonical form performs no iteration. -/
theorem finalLoop_of_canonical {m : Mat} (h : rowCanonicalForm m = .ok true) (k i : Nat) :
    finalLoop k i m = .ok (m, i) := by
  cases k with
  | zero => rfl
  | succ k => simp [finalLoop, h]

/-- The reduction returns a matrix in row canonical form unchanged. -/
theorem gaussJordan_of_canonical {m : Mat} (h : rowCanonicalForm m = .ok true) :
    gaussJordanElimination m = .ok m := by
  simp [gaussJordanElimination, copyMatrix_eq, mainLoop_of_canonical h,
    finalLoop_of_canonical h]

/-! ## Solutions of the system -/

theorem satisfies_iff_rowDot (N : Nat) (m : Mat) (v : List ℚ) :
    Satisfies N m v ↔ ∀ i < N, rowDot N m i (augWeights N v) = 0 := by
  have key : ∀ i, rowDot N m i (augWeights N v)
      = (∑ j in Finset.range N, entry m i j * v.getD j 0) - entry m i N := by
    intro i
    unfold rowDot
    rw [Finset.sum_range_succ]
    have h1 : ∑ j in Finset.range N, entry m i j * augWeights N v j
        = ∑ j in Finset.range N, entry m i j * v.getD j 0 :=
      Finset.sum_congr rfl (fun j hj => by simp [augWeights, Finset.mem_range.mp hj])
    rw [h1]
    simp [augWeights]
    ring
  unfold Satisfies
  constructor
  · intro h i hi
    rw [key i, h i hi, sub_self]
  · intro h i hi
    have := h i hi
    rw [key i] at this
    exact sub_eq_zero.mp this

/-- Matrices whose rows are orthogonal to the same weights have the same solutions. -/
theorem satisfies_congr {N : Nat} {y m : Mat} (h : SameNull N y m) (v : List ℚ) :
    Satisfies N m v ↔ Satisfies N y v := by
  rw [satisfies_iff_rowDot, satisfies_iff_rowDot]
  exact (h _).symm

theorem rows_nonempty {N : Nat} {y : Mat} (hs : IsShape N y) : ∀ r ∈ y, r ≠ [] := by
  intro r hr h
  have := hs.2 r hr
  rw [h] at this
  simp at this

theorem getD_map_lastOf {N : Nat} {y : Mat} (hs : IsShape N y) {i : Nat} (hi : i < N) :
    (y.map lastOf).getD i 0 = entry y i N := by
  obtain ⟨r, hr, hlen, _⟩ := getElem?_of_shape hs hi
  have hN : r.length - 1 = N := by omega
  simp [List.getD_eq_getElem?_getD, hr, entry, lastOf, List.getLast?_eq_getElem?, hN]

/-- The last column of a matrix in row canonical form solves the matrix's own system. -/
theorem satisfies_lastColumn {N : Nat} {y : Mat} (hs : IsShape N y)
    (hid : IsIdentityPart N y) : Satisfies N y (y.map lastOf) := by
  intro i hi
  rw [Finset.sum_eq_single i]
  · rw [hid i hi i hi, getD_map_lastOf hs hi]; simp
  · intro j hj hji
    rw [hid i hi j (Finset.mem_range.mp hj)]
    simp [Ne.symm hji]
  · intro h
    exact absurd (Finset.mem_range.mpr hi) h

/-! ## The claims that rest on comparisons and element access -/

/-- C4 (identity invariance).  For every matrix `m` with `rowCanonicalForm m = true`,
`gaussJordanElimination m` returns `m` itself, and neither the main loop nor the final
pass performs an iteration (both exit with their counter at `0`).  On scenario 3 the
predicate is `true`, the reduction returns the same matrix and the extraction returns
`[5, 7]`. -/
theorem identity_invariance :
    (∀ m : Mat, rowCanonicalForm m = .ok true →
      gaussJordanElimination m = .ok m ∧ mainLoop m.length 0 m = .ok (m, 0) ∧
        finalLoop m.length 0 m = .ok (m, 0)) ∧
    (rowCanonicalForm scenario3 = .ok true ∧
      gaussJordanElimination scenario3 = .ok scenario3 ∧
      solveSystem_PreReducedMatrix scenario3 = .ok [5, 7]) := by
  constructor
  · intro m h
    exact ⟨gaussJordan_of_canonical h, mainLoop_of_canonical h _ _,
      finalLoop_of_canonical h _ _⟩
  · exact ⟨by decide!, by decide!, by decide!⟩

theorem identity_invariance_witness :
    rowCanonicalForm scenario3 = .ok true ∧
      (gaussJordanElimination scenario3 = .ok scenario3 ∧
        mainLoop scenario3.length 0 scenario3 = .ok (scenario3, 0) ∧
        finalLoop scenario3.length 0 scenario3 = .ok (scenario3, 0)) :=
  ⟨by decide!, identity_invariance.1 scenario3 (by decide!)⟩

/-- C6 (characterisation of the predicate).  For every matrix `x` with `N` rows,
`rowCanonicalForm x` returns without fault, and it returns `true` if and only if every
row of `x` has length `N + 1` and, for all `i, j < N`, `x[i][j]` is `1` when `i = j` and
`0` otherwise.  The last column never influences the result: a matrix with the same row
lengths that agrees with `x` in every column `j < N` gets the same result. -/
theorem rowCanonicalForm_characterisation (x : Mat) :
    (∃ b, rowCanonicalForm x = .ok b) ∧
    (rowCanonicalForm x = .ok true ↔
      (∀ r ∈ x, r.length = x.length + 1) ∧
      ∀ i < x.length, ∀ j < x.length, entry x i j = if i = j then 1 else 0) ∧
    (∀ x2 : Mat, x2.length = x.length →
      (∀ i < x.length, (x2.getD i []).length = (x.getD i []).length) →
      (∀ i < x.length, ∀ j < x.length, entry x2 i j = entry x i j) →
      rowCanonicalForm x2 = rowCanonicalForm x) := by
  refine ⟨?_, ?_, ?_⟩
  · obtain ⟨b, hb, _⟩ := rowCanonicalForm_spec x
    exact ⟨b, hb⟩
  · rw [rowCanonicalForm_true_iff]
    constructor
    · rintro ⟨h1, h2⟩; exact ⟨h1.2, h2⟩
    · rintro ⟨h1, h2⟩; exact ⟨⟨rfl, h1⟩, h2⟩
  · intro x2 hlen hrows hent
    obtain ⟨b, hb, hiff⟩ := rowCanonicalForm_spec x
    obtain ⟨b2, hb2, hiff2⟩ := rowCanonicalForm_spec x2
    rw [hb, hb2]
    congr 1
    rw [Bool.eq_iff_iff, hiff, hiff2, hlen, isShape_iff, isShape_iff, hlen]
    constructor
    · rintro ⟨⟨_, h1⟩, h2⟩
      refine ⟨⟨rfl, fun r hr => ?_⟩, fun i hi j hj => ?_⟩
      · rw [← hrows r hr]; exact h1 r hr
      · rw [← hent i hi j hj]; exact h2 i hi j hj
    · rintro ⟨⟨_, h1⟩, h2⟩
      refine ⟨⟨rfl, fun r hr => ?_⟩, fun i hi j hj => ?_⟩
      · rw [hrows r hr]; exact h1 r hr
      · rw [hent i hi j hj]; exact h2 i hi j hj

theorem rowCanonicalForm_characterisation_witness :
    scenario3Shifted.length = scenario3.length ∧
      (∀ i < scenario3.length,
        (scenario3Shifted.getD i []).length = (scenario3.getD i []).length) ∧
      (∀ i < scenario3.length, ∀ j < scenario3.length,
        entry scenario3Shifted i j = entry scenario3 i j) ∧
      rowCanonicalForm scenario3Shifted = rowCanonicalForm scenario3 :=
  ⟨by decide, by decide, by decide!,
    (rowCanonicalForm_characterisation scenario3).2.2 scenario3Shifted
      (by decide) (by decide) (by decide!)⟩

/-- C7 (shape rejection).  For every matrix `x` in which some row's length differs from
the number of rows plus one, `rowCanonicalForm x` returns `false` without fault, whatever
the entries are; the `return false` is taken inside the shape loop, before the entry loop
is reached. -/
theorem rowCanonicalForm_rejects_shape (x : Mat)
    (h : ∃ r ∈ x, r.length ≠ x.length + 1) :
    rowCanonicalForm x = .ok false ∧ shapeLoop x x.length 0 = .ok false := by
  have hns : ¬ IsShape x.length x := by
    rintro ⟨_, h2⟩
    obtain ⟨r, hr, hne⟩ := h
    exact hne (h2 r hr)
  constructor
  · rw [rowCanonicalForm_false_iff]
    exact fun hc => hns hc.1
  · obtain ⟨b, hb, hiff⟩ := shapeLoop_spec x x.length 0 (by omega)
    cases b with
    | false => exact hb
    | true =>
      exfalso
      exact hns ((isShape_iff _ x).mpr ⟨rfl, fun r hr => hiff.mp rfl r (Nat.zero_le _) hr⟩)

theorem rowCanonicalForm_rejects_shape_witness :
    (∃ r ∈ raggedExample, r.length ≠ raggedExample.length + 1) ∧
      rowCanonicalForm raggedExample = .ok false ∧
      shapeLoop raggedExample raggedExample.length 0 = .ok false :=
  ⟨by decide, rowCanonicalForm_rejects_shape raggedExample (by decide)⟩

/-- C8 (solution extraction).  For every matrix `x` all of whose rows are non-empty,
`solveSystem_PreReducedMatrix x` returns a sequence as long as `x` has rows whose `i`-th
element is the last element of row `i`; nothing about `x` being reduced is assumed. -/
theorem solve_extracts_last_column (x : Mat) (hne : ∀ r ∈ x, r ≠ []) :
    ∃ s, solveSystem_PreReducedMatrix x = .ok s ∧ s.length = x.length ∧
      ∀ (i : Nat) (hi : i < x.length),
        s[i]? = some ((x[i]).getLast (hne _ (List.getElem_mem hi))) := by
  refine ⟨x.map lastOf, solve_spec x hne, by simp, ?_⟩
  intro i hi
  have h := hne _ (List.getElem_mem hi)
  simp [List.getElem?_map, List.getElem?_eq_getElem hi, lastOf, List.getLast?_eq_getLast _ h]

theorem solve_extracts_last_column_witness :
    (∀ r ∈ unreducedExample, r ≠ []) ∧
      ∃ s, solveSystem_PreReducedMatrix unreducedExample = .ok s ∧
        s.length = unreducedExample.length ∧ s = [5, 7, 8] := by
  refine ⟨by decide, ?_⟩
  obtain ⟨s, h1, h2, _⟩ := solve_extracts_last_column unreducedExample (by decide)
  refine ⟨s, h1, h2, ?_⟩
  have h3 : solveSystem_PreReducedMatrix unreducedExample = .ok [5, 7, 8] := by decide!
  rw [h1] at h3
  injection h3

/-! ## The rows the final pass visits -/

/-- The final pass from row `i0`: it visits the rows `i0, ..., i1 - 1` in order, each time
on a matrix that is not yet canonical, multiplies each visited row by the reciprocal of
its diagonal entry, and leaves every other row alone. -/
theorem finalLoop_rows {N : Nat} {m : Mat} :
    ∀ (k i0 : Nat) (y0 : Mat), i0 + k = N → FinalInv N m i0 y0 →
      ∃ r i1, finalLoop k i0 y0 = .ok (r, i1) ∧ i0 ≤ i1 ∧ i1 ≤ N ∧
        (∀ j c, i0 ≤ j → j < i1 → entry r j c = entry y0 j c * (1 / entry y0 j j)) ∧
        (∀ j c, j < i0 ∨ i1 ≤ j → entry r j c = entry y0 j c) ∧
        (∀ i, i0 ≤ i → i < i1 →
          ∃ yi, finalLoop (i - i0) i0 y0 = .ok (yi, i) ∧ rowCanonicalForm yi = .ok false) := by
  intro k
  induction k with
  | zero =>
    intro i0 y0 hik _
    refine ⟨y0, i0, rfl, le_refl _, by omega, ?_, fun _ _ _ => rfl, ?_⟩
    · intro j c h1 h2; omega
    · intro i h1 h2; omega
  | succ k ih =>
    intro i0 y0 hik hinv
    obtain ⟨b, hb, _⟩ := rowCanonicalForm_spec y0
    cases b with
    | true =>
      refine ⟨y0, i0, by simp [finalLoop, hb], le_refl _, by omega, ?_, fun _ _ _ => rfl, ?_⟩
      · intro j c h1 h2; omega
      · intro i h1 h2; omega
    | false =>
      have hi0 : i0 < N := by omega
      obtain ⟨y1, hrun1, _, he⟩ := finalStep_spec hinv.shape hi0 (hinv.diag i0 hi0)
      obtain ⟨y1', hrun1', hinv1⟩ := finalStep_inv hinv hi0
      rw [hrun1] at hrun1'
      injection hrun1' with hyy
      subst hyy
      obtain ⟨r, i1, hrun, h1, h2, h3, h4, h5⟩ := ih (i0 + 1) y1 (by omega) hinv1
      refine ⟨r, i1, by simp [finalLoop, hb, hrun1, hrun], by omega, h2, ?_, ?_, ?_⟩
      · intro j c hj1 hj2
        by_cases hj : j = i0
        · subst hj
          rw [h4 j c (Or.inl (by omega)), he j c]; simp
        · rw [h3 j c (by omega) hj2, he j c, he j j]; simp [hj]
      · intro j c hj
        have hne : j ≠ i0 := by omega
        rw [h4 j c (by omega), he j c]; simp [hne]
      · intro i hi1 hi2
        by_cases hi : i = i0
        · subst hi
          exact ⟨y0, by simp [finalLoop], hb⟩
        · obtain ⟨yi, hyi, hcan⟩ := h5 i (by omega) hi2
          refine ⟨yi, ?_, hcan⟩
          have : i - i0 = (i - (i0 + 1)) + 1 := by omega
          rw [this]
          simp [finalLoop, hb, hrun1, hyi]

/-- The final pass from a matrix that is diagonal with non-zero diagonal left of the last
column: the result is in row canonical form and every row is the old row divided by its
diagonal entry. -/
theorem finalLoop_divides {N : Nat} {m y : Mat} (hinv : FinalInv N m 0 y) :
    ∃ r i1, finalLoop N 0 y = .ok (r, i1) ∧ i1 ≤ N ∧ IsShape N r ∧ IsIdentityPart N r ∧
      (∀ i, i < i1 →
        ∃ yi, finalLoop i 0 y = .ok (yi, i) ∧ rowCanonicalForm yi = .ok false) ∧
      (∀ i, i < i1 → ∀ c, entry r i c = entry y i c / entry y i i) ∧
      (∀ i, i1 ≤ i → ∀ c, entry r i c = entry y i c) ∧
      (∀ i, i < N → ∀ c, entry r i c = entry y i c / entry y i i) := by
  obtain ⟨r, i1, hrun, _, h2, h3, h4, h5⟩ := finalLoop_rows N 0 y (by omega) hinv
  obtain ⟨r', i1', hrun', hs, hid, _⟩ := finalLoop_spec N 0 y (by omega) hinv
  rw [hrun] at hrun'
  injection hrun' with hp
  injection hp with hrr _
  subst hrr
  have hvis : ∀ i, i < i1 → ∀ c, entry r i c = entry y i c / entry y i i := by
    intro i hi c
    rw [h3 i c (Nat.zero_le _) hi, mul_one_div]
  have hrest : ∀ i, i1 ≤ i → ∀ c, entry r i c = entry y i c :=
    fun i hi c => h4 i c (Or.inr hi)
  refine ⟨r, i1, hrun, h2, hs, hid, ?_, hvis, hrest, ?_⟩
  · intro i hi
    simpa using h5 i (Nat.zero_le _) hi
  · intro i hi c
    by_cases hlt : i < i1
    · exact hvis i hlt c
    · have hge : i1 ≤ i := not_lt.mp hlt
      have hone : entry y i i = 1 := by
        rw [← hrest i hge i, hid i hi i hi]; simp
      rw [hrest i hge c, hone, div_one]

/-! ## The caller -/

/-- What `main` tests before it calls the reduction: that there is a row, and that row
`0` has one entry more than there are rows. -/
theorem main_branches (x : Mat) :
    (x.length = 0 → main x = .ok .errorZeroRows) ∧
    (x.length ≠ 0 → (x.getD 0 []).length ≠ x.length + 1 → main x = .ok .errorNotShape) ∧
    (x.length ≠ 0 → (x.getD 0 []).length = x.length + 1 →
      ∃ s, main x = .ok (.reduced s)) := by
  refine ⟨fun h => by simp [main, h], fun h0 h1 => ?_, fun h0 h1 => ?_⟩
  · have hlt : 0 < x.length := Nat.pos_of_ne_zero h0
    simp only [main, h0, if_false, rowSize_of_lt x hlt]
    generalize (x.getD 0 []).length = n at h1
    simp [h1]
  · have hlt : 0 < x.length := Nat.pos_of_ne_zero h0
    simp only [main, h0, if_false, rowSize_of_lt x hlt]
    generalize (x.getD 0 []).length = n at h1
    rw [if_neg (not_not.mpr h1)]
    exact ⟨_, rfl⟩

/-! ## The claims on the caller and on the pivot search -/

/-- C11 (caller-side shape check), evaluated where it fails.  `main` tests the length of
row `0` only.  The parsed input `[[1, 2, 3], [4]]` has two rows and a second row of
length `1`, so it is not a `2 x 3` matrix; `main` takes neither error branch and calls
`gaussJordanElimination`, which reads `y[1][1]` out of range at column `1`. -/
theorem main_passes_ragged_input :
    raggedInput.length ≠ 0 ∧ (∃ r ∈ raggedInput, r.length ≠ raggedInput.length + 1) ∧
      main raggedInput ≠ .ok .errorZeroRows ∧ main raggedInput ≠ .ok .errorNotShape ∧
      main raggedInput = .ok (.reduced (.error .outOfRange)) ∧
      gaussJordanElimination raggedInput = .error .outOfRange := by
  refine ⟨by decide, by decide, by decide!, by decide!, by decide!, by decide!⟩

/-- C13 (pivot search and swap).  At column `a < N` of an `N x (N+1)` working matrix `y`
step (2) returns a matrix `y1` of the same shape.  If `y[a][a] ≠ 0` then `y1 = y`.  If
`y[a][a] = 0` and every row below `a` has a zero in column `a` then `y1 = y`.  If
`y[a][a] = 0` and `i0` is the first row below `a` with `y[i0][a] ≠ 0`, then row `a` of
`y1` is row `i0` of `y`, row `i0` of `y1` is row `a` of `y`, every other row is unchanged,
and `y1[a][a] ≠ 0`. -/
theorem pivot_search_and_swap (N : Nat) (y : Mat) (a : Nat) (hs : IsShape N y)
    (ha : a < N) :
    ∃ y1, pivotStep a y = .ok y1 ∧ IsShape N y1 ∧
      (entry y a a ≠ 0 → y1 = y) ∧
      (entry y a a = 0 → (∀ r, a < r → r < N → entry y r a = 0) → y1 = y) ∧
      (entry y a a = 0 → ∀ i0, a < i0 → i0 < N → entry y i0 a ≠ 0 →
        (∀ r, a < r → r < i0 → entry y r a = 0) →
        (∀ c, entry y1 a c = entry y i0 c) ∧ (∀ c, entry y1 i0 c = entry y a c) ∧
        (∀ r c, r ≠ a → r ≠ i0 → entry y1 r c = entry y r c) ∧ entry y1 a a ≠ 0) := by
  obtain ⟨y1, hrun, hs1, hcase⟩ := pivotStep_spec hs ha
  refine ⟨y1, hrun, hs1, ?_, ?_, ?_⟩
  · intro hne
    rcases hcase with ⟨_, h⟩ | ⟨hz, _, _⟩ | ⟨hz, _⟩
    · exact h
    · exact absurd hz hne
    · exact absurd hz hne
  · intro hz hall
    rcases hcase with ⟨hne, _⟩ | ⟨_, h, _⟩ | ⟨_, i0, h1, h2, h3, _, _⟩
    · exact absurd hz hne
    · exact h
    · exact absurd (hall i0 h1 h2) h3
  · intro hz i0 h1 h2 h3 hmin
    rcases hcase with ⟨hne, _⟩ | ⟨_, _, hall⟩ | ⟨_, j0, g1, g2, g3, gmin, he⟩
    · exact absurd hz hne
    · exact absurd (hall i0 h1 h2) h3
    · have hij : j0 = i0 := by
        rcases Nat.lt_trichotomy j0 i0 with hlt | heq | hgt
        · exact absurd (hmin j0 g1 hlt) g3
        · exact heq
        · exact absurd (gmin i0 h1 hgt) h3
      subst hij
      have hne : j0 ≠ a := by omega
      refine ⟨fun c => ?_, fun c => ?_, fun r c hra hri => ?_, ?_⟩
      · rw [he a c]; simp [swapIdx]
      · rw [he j0 c]; simp [swapIdx, hne]
      · rw [he r c]; simp [swapIdx, hra, hri]
      · rw [he a a]; simpa [swapIdx] using g3

theorem pivot_search_and_swap_witness :
    IsShape 2 swapExample ∧ 0 < 2 ∧ entry swapExample 0 0 = 0 ∧ entry swapExample 1 0 ≠ 0 ∧
      ∃ y1, pivotStep 0 swapExample = .ok y1 ∧ IsShape 2 y1 ∧
        (∀ c, entry y1 0 c = entry swapExample 1 c) ∧
        (∀ c, entry y1 1 c = entry swapExample 0 c) ∧ entry y1 0 0 ≠ 0 := by
  obtain ⟨y1, h1, h2, _, _, h5⟩ :=
    pivot_search_and_swap 2 swapExample 0 (by decide) (by decide)
  have h6 := h5 (by decide!) 1 (by decide) (by decide) (by decide!)
    (fun r hr1 hr2 => absurd hr2 (by omega))
  exact ⟨by decide, by decide, by decide!, by decide!, y1, h1, h2, h6.1, h6.2.1, h6.2.2.2⟩

/-! ## The claim on the empty matrix -/

/-- C18 (empty matrix).  On the matrix with zero rows `rowCanonicalForm` returns `true`,
`gaussJordanElimination` returns the matrix with zero rows and
`solveSystem_PreReducedMatrix` returns the empty sequence.  Every loop involved runs zero
times: a loop with no iteration left returns its state whatever its body is, so no
element is indexed and nothing is divided. -/
theorem empty_matrix_edge_case :
    rowCanonicalForm [] = .ok true ∧
    gaussJordanElimination [] = .ok [] ∧
    solveSystem_PreReducedMatrix [] = .ok [] ∧
    (∀ x : Mat, shapeLoop x ([] : Mat).length 0 = .ok true ∧
      entryLoop x ([] : Mat).length 0 = .ok true) ∧
    (∀ (body : Nat → Mat → Run Mat) (s : Mat),
      forRange body ([] : Mat).length 0 s = .ok s) ∧
    (∀ (body : Nat → List ℚ → Run (List ℚ)) (s : List ℚ),
      forRange body ([] : Mat).length 0 s = .ok s) ∧
    (∀ y : Mat, mainLoop ([] : Mat).length 0 y = .ok (y, 0) ∧
      finalLoop ([] : Mat).length 0 y = .ok (y, 0)) :=
  ⟨rfl, rfl, rfl, fun _ => ⟨rfl, rfl⟩, fun _ _ => rfl, fun _ _ => rfl, fun _ => ⟨rfl, rfl⟩⟩

/-! ## Element access on well-shaped matrices, any entry type -/

namespace Prog

section Access
variable {F : Type}

theorem getElem?_shaped {N : Nat} {y : MatOf F} (h : IsShape N y) {i : Nat} (hi : i < N) :
    ∃ r, y[i]? = some r ∧ r.length = N + 1 ∧ y.getD i [] = r := by
  have hl : i < y.length := by rw [h.1]; exact hi
  refine ⟨y[i], List.getElem?_eq_getElem hl, h.2 _ (List.getElem_mem hl), ?_⟩
  simp [List.getD_eq_getElem?_getD, List.getElem?_eq_getElem hl]

theorem rd_shaped (d : F) {N : Nat} {y : MatOf F} (h : IsShape N y) {i j : Nat} (hi : i < N)
    (hj : j ≤ N) : rd y i j = .ok (entry d y i j) := by
  obtain ⟨r, hr, hlen, hd⟩ := getElem?_shaped h hi
  have hjl : j < r.length := by omega
  simp [rd, hr, entry, hd, List.getD_eq_getElem?_getD, List.getElem?_eq_getElem hjl]

theorem rowSize_shaped {N : Nat} {y : MatOf F} (h : IsShape N y) {i : Nat} (hi : i < N) :
    rowSize y i = .ok (N + 1) := by
  obtain ⟨r, hr, hlen, _⟩ := getElem?_shaped h hi
  simp [rowSize, hr, hlen]

theorem entry_set_row (d : F) (y : MatOf F) (i : Nat) (r : List F) (hi : i < y.length)
    (a b : Nat) :
    entry d (y.set i r) a b = if a = i then r.getD b d else entry d y a b := by
  unfold entry
  by_cases h : a = i
  · subst h; simp [List.getD_eq_getElem?_getD, hi]
  · simp [List.getD_eq_getElem?_getD, h, List.getElem?_set_ne (Ne.symm h)]

theorem wr_shaped (d : F) {N : Nat} {y : MatOf F} (h : IsShape N y) {i j : Nat} (hi : i < N)
    (hj : j ≤ N) (v : F) :
    ∃ y1, wr y i j v = .ok y1 ∧ IsShape N y1 ∧
      ∀ a b, entry d y1 a b = if a = i ∧ b = j then v else entry d y a b := by
  obtain ⟨r, hr, hlen, hd⟩ := getElem?_shaped h hi
  have hjl : j < r.length := by omega
  have hil : i < y.length := by rw [h.1]; exact hi
  refine ⟨y.set i (r.set j v), by simp [wr, hr, hjl], ⟨by simp [h.1], ?_⟩, ?_⟩
  · intro r1 hr1
    rcases List.mem_or_eq_of_mem_set hr1 with h1 | h1
    · exact h.2 _ h1
    · simp [h1, hlen]
  · intro a b
    rw [entry_set_row d y i _ hil]
    by_cases ha : a = i
    · subst ha
      by_cases hb : b = j
      · subst hb; simp [List.getD_eq_getElem?_getD, hjl]
      · simp [hb, entry, hr, List.getD_eq_getElem?_getD, List.getElem?_set_ne (Ne.symm hb)]
    · simp [ha]

theorem entry_below (d : F) {N : Nat} {y : MatOf F} (h : IsShape N y) {a : Nat}
    (ha : N ≤ a) (b : Nat) : entry d y a b = d := by
  have : y.length ≤ a := by rw [h.1]; exact ha
  simp [entry, List.getD_eq_getElem?_getD, List.getElem?_eq_none this]

theorem entry_beside (d : F) {N : Nat} {y : MatOf F} (h : IsShape N y) (a : Nat) {b : Nat}
    (hb : N < b) : entry d y a b = d := by
  by_cases ha : a < N
  · obtain ⟨r, hr, hlen, hd⟩ := getElem?_shaped h ha
    have : r.length ≤ b := by omega
    simp [entry, hr, List.getD_eq_getElem?_getD, List.getElem?_eq_none this]
  · exact entry_below d h (by omega) b

/-- Total-correctness rule for `forRange`: an invariant established at entry and
re-established by every iteration (which must return) holds at exit. -/
theorem forRange_rule {σ : Type} (body : Nat → σ → Out σ) (Q : Nat → σ → Prop) :
    ∀ (k j : Nat) (s : σ), Q j s →
      (∀ t s1, j ≤ t → t < j + k → Q t s1 → ∃ s2, body t s1 = .ok s2 ∧ Q (t + 1) s2) →
      ∃ s1, forRange body k j s = .ok s1 ∧ Q (j + k) s1 := by
  intro k
  induction k with
  | zero => intro j s h _; exact ⟨s, rfl, by simpa using h⟩
  | succ k ih =>
    intro j s h step
    obtain ⟨s1, hb, hP⟩ := step j s (le_refl _) (by omega) h
    obtain ⟨s2, hr, hP2⟩ := ih (j + 1) s1 hP (fun t s3 h1 h2 h3 =>
      step t s3 (by omega) (by omega) h3)
    refine ⟨s2, ?_, ?_⟩
    · simp [forRange, hb, hr]
    · have : j + (k + 1) = j + 1 + k := by omega
      rw [this]; exact hP2

/-- A loop over the columns of row `i` that stores `f j` at column `j` rewrites row `i`
to `f` and leaves every other row alone. -/
theorem rowLoop_rule (d : F) {N : Nat} {y0 : MatOf F} (h0 : IsShape N y0) {i : Nat}
    (f : Nat → F) (body : Nat → MatOf F → Out (MatOf F))
    (hbody : ∀ j y1, j ≤ N → IsShape N y1 →
      (∀ a b, entry d y1 a b = if a = i ∧ b < j then f b else entry d y0 a b) →
      ∃ y2, body j y1 = .ok y2 ∧ IsShape N y2 ∧
        ∀ a b, entry d y2 a b = if a = i ∧ b = j then f j else entry d y1 a b) :
    ∃ y1, forRange body (N + 1) 0 y0 = .ok y1 ∧ IsShape N y1 ∧
      ∀ a b, entry d y1 a b = if a = i ∧ b ≤ N then f b else entry d y0 a b := by
  obtain ⟨y1, hr, hs, he⟩ := forRange_rule body
    (fun j y1 => IsShape N y1 ∧
      ∀ a b, entry d y1 a b = if a = i ∧ b < j then f b else entry d y0 a b)
    (N + 1) 0 y0 ⟨h0, by intro a b; simp⟩
    (by
      intro t s1 _ ht ⟨hs, he⟩
      obtain ⟨y2, hb, hs2, he2⟩ := hbody t s1 (by omega) hs he
      refine ⟨y2, hb, hs2, ?_⟩
      intro a b
      rw [he2 a b, he a b]
      by_cases h1 : a = i
      · by_cases h2 : b = t
        · subst h2; simp [h1]
        · have : b < t + 1 ↔ b < t := by omega
          simp [h1, h2, this]
      · simp [h1])
  refine ⟨y1, hr, hs, ?_⟩
  intro a b
  rw [he a b]
  simp only [Nat.zero_add, Nat.lt_succ_iff]

end Access

end Prog

/-! ## Element access on well-shaped matrices of doubles -/

theorem rdD_eq {N : Nat} {y : MatOf F64} (h : Prog.IsShape N y) {i j : Nat} (hi : i < N)
    (hj : j ≤ N) : Prog.rd y i j = .ok (entryD y i j) :=
  Prog.rd_shaped (F64.fin false 0) h hi hj

theorem wrD_eq {N : Nat} {y : MatOf F64} (h : Prog.IsShape N y) {i j : Nat} (hi : i < N)
    (hj : j ≤ N) (v : F64) :
    ∃ y1, Prog.wr y i j v = .ok y1 ∧ Prog.IsShape N y1 ∧
      ∀ a b, entryD y1 a b = if a = i ∧ b = j then v else entryD y a b :=
  Prog.wr_shaped (F64.fin false 0) h hi hj v

theorem entryD_row_oob {N : Nat} {y : MatOf F64} (h : Prog.IsShape N y) {a : Nat}
    (ha : N ≤ a) (b : Nat) : entryD y a b = .fin false 0 :=
  Prog.entry_below (F64.fin false 0) h ha b

theorem entryD_col_oob {N : Nat} {y : MatOf F64} (h : Prog.IsShape N y) (a : Nat) {b : Nat}
    (hb : N < b) : entryD y a b = .fin false 0 :=
  Prog.entry_beside (F64.fin false 0) h a hb

theorem rowLoopD_spec {N : Nat} {y0 : MatOf F64} (h0 : Prog.IsShape N y0) {i : Nat}
    (f : Nat → F64) (body : Nat → MatOf F64 → Out (MatOf F64))
    (hbody : ∀ j y1, j ≤ N → Prog.IsShape N y1 →
      (∀ a b, entryD y1 a b = if a = i ∧ b < j then f b else entryD y0 a b) →
      ∃ y2, body j y1 = .ok y2 ∧ Prog.IsShape N y2 ∧
        ∀ a b, entryD y2 a b = if a = i ∧ b = j then f j else entryD y1 a b) :
    ∃ y1, Prog.forRange body (N + 1) 0 y0 = .ok y1 ∧ Prog.IsShape N y1 ∧
      ∀ a b, entryD y1 a b = if a = i ∧ b ≤ N then f b else entryD y0 a b :=
  Prog.rowLoop_rule (F64.fin false 0) h0 f body hbody

/-! ## The steps of one column in double arithmetic -/

/-- Step (3) always returns: row `a` is multiplied, entry by entry, by the rounded
reciprocal of `y[a][a]`. -/
theorem normalizeStepD_spec {N : Nat} {y : MatOf F64} (h : Prog.IsShape N y) {a : Nat}
    (ha : a < N) :
    ∃ y1, Prog.normalizeStep ieee a y = .ok y1 ∧ Prog.IsShape N y1 ∧
      ∀ r c, entryD y1 r c = scaledD N y a r c := by
  obtain ⟨y1, hr, hs, he⟩ := rowLoopD_spec h (i := a)
    (fun c => F64.mul (entryD y a c) (F64.div (.fin false 1) (entryD y a a)))
    (Prog.normalizeBody ieee a (entryD y a a))
    (by
      intro j y1 hj hs1 he1
      obtain ⟨y2, hw, hs2, he2⟩ := wrD_eq hs1 ha hj
        (F64.mul (entryD y1 a j) (F64.div (.fin false 1) (entryD y a a)))
      refine ⟨y2, ?_, hs2, ?_⟩
      · simpa [Prog.normalizeBody, ieee, rdD_eq hs1 ha hj] using hw
      · intro r c
        rw [he2 r c]
        have : entryD y1 a j = entryD y a j := by rw [he1 a j]; simp
        simp [this])
  refine ⟨y1, ?_, hs, fun r c => by rw [he r c, scaledD]⟩
  simpa [Prog.normalizeStep, rdD_eq h ha (le_of_lt ha),
    Prog.rowSize_shaped h ha] using hr

/-- The final-pass step always returns: row `i` is multiplied, entry by entry, by the
rounded reciprocal of `y[i][i]`. -/
theorem finalStepD_spec {N : Nat} {y : MatOf F64} (h : Prog.IsShape N y) {i : Nat}
    (hi : i < N) :
    ∃ y1, Prog.finalStep ieee i y = .ok y1 ∧ Prog.IsShape N y1 ∧
      ∀ r c, entryD y1 r c = scaledD N y i r c := by
  obtain ⟨y1, hr, hs, he⟩ := rowLoopD_spec h (i := i)
    (fun c => F64.mul (entryD y i c) (F64.div (.fin false 1) (entryD y i i)))
    (Prog.finalBody ieee i (F64.div (.fin false 1) (entryD y i i)))
    (by
      intro j y1 hj hs1 he1
      obtain ⟨y2, hw, hs2, he2⟩ := wrD_eq hs1 hi hj
        (F64.mul (entryD y1 i j) (F64.div (.fin false 1) (entryD y i i)))
      refine ⟨y2, ?_, hs2, ?_⟩
      · simpa [Prog.finalBody, ieee, rdD_eq hs1 hi hj] using hw
      · intro r c
        rw [he2 r c]
        have : entryD y1 i j = entryD y i j := by rw [he1 i j]; simp
        simp [this])
  refine ⟨y1, ?_, hs, fun r c => by rw [he r c, scaledD]⟩
  simpa [Prog.finalStep, ieee, rdD_eq h hi (le_of_lt hi),
    Prog.rowSize_shaped h hi] using hr

/-- The inner elimination loop always returns: row `i` becomes, entry by entry, the
rounded sum of the rounded product `y[i][j] * t` and `y[a][j]`. -/
theorem eliminateRowD_spec {N : Nat} {y : MatOf F64} (h : Prog.IsShape N y) {a i : Nat}
    (ha : a < N) (hi : i < N) (hia : i ≠ a) (t : F64) :
    ∃ y1, Prog.forRange (Prog.eliminateRowBody ieee a i t) (N + 1) 0 y = .ok y1 ∧
      Prog.IsShape N y1 ∧
      ∀ r c, entryD y1 r c =
        if r = i ∧ c ≤ N then F64.add (F64.mul (entryD y i c) t) (entryD y a c)
        else entryD y r c := by
  obtain ⟨y1, hr, hs, he⟩ := rowLoopD_spec h (i := i)
    (fun c => F64.add (F64.mul (entryD y i c) t) (entryD y a c))
    (Prog.eliminateRowBody ieee a i t)
    (by
      intro j y1 hj hs1 he1
      obtain ⟨y2, hw, hs2, he2⟩ := wrD_eq hs1 hi hj
        (F64.add (F64.mul (entryD y1 i j) t) (entryD y1 a j))
      refine ⟨y2, ?_, hs2, ?_⟩
      · simpa [Prog.eliminateRowBody, ieee, rdD_eq hs1 hi hj,
          rdD_eq hs1 ha hj] using hw
      · intro r c
        rw [he2 r c]
        have h1 : entryD y1 i j = entryD y i j := by rw [he1 i j]; simp
        have h2 : entryD y1 a j = entryD y a j := by rw [he1 a j]; simp [Ne.symm hia]
        simp [h1, h2])
  exact ⟨y1, hr, hs, fun r c => by rw [he r c]⟩

/-- Step (4) always returns: every row `i ≠ a` with `y[i][a] != 0` is replaced by the
rounded `row_i * (-1 / y[i][a]) + row_a`; the other rows are unchanged. -/
theorem eliminateStepD_spec {N : Nat} {y : MatOf F64} (h : Prog.IsShape N y) {a : Nat}
    (ha : a < N) :
    ∃ y1, Prog.eliminateStep ieee a y = .ok y1 ∧ Prog.IsShape N y1 ∧
      ∀ r c, entryD y1 r c = eliminatedD N y a r c := by
  obtain ⟨y1, hr, hs, he⟩ := Prog.forRange_rule (Prog.eliminateBody ieee a)
    (fun i y1 => Prog.IsShape N y1 ∧
      ∀ r c, entryD y1 r c = if r < i then eliminatedD N y a r c else entryD y r c)
    N 0 y ⟨h, by intro r c; simp⟩
    (by
      intro i y1 _ hi ⟨hs1, he1⟩
      have hi : i < N := by omega
      by_cases hia : i = a
      · refine ⟨y1, by simp [Prog.eliminateBody, hia], hs1, ?_⟩
        intro r c
        rw [he1 r c]
        by_cases h1 : r = i
        · subst h1; simp [eliminatedD, hia]
        · have : r < i + 1 ↔ r < i := by omega
          simp [this]
      · have hc : entryD y1 i a = entryD y i a := by rw [he1 i a]; simp
        have hrow : ∀ c, entryD y1 i c = entryD y i c := by intro c; rw [he1 i c]; simp
        have hrowa : ∀ c, entryD y1 a c = entryD y a c := by
          intro c; rw [he1 a c]; simp [eliminatedD]
        by_cases hz : (entryD y i a).isZero = true
        · refine ⟨y1, by simp [Prog.eliminateBody, hia, ieee,
            rdD_eq hs1 hi (le_of_lt ha), hc, hz], hs1, ?_⟩
          intro r c
          rw [he1 r c]
          by_cases h1 : r = i
          · subst h1; simp [eliminatedD, hz]
          · have : r < i + 1 ↔ r < i := by omega
            simp [this]
        · have hz2 : (entryD y i a).isZero = false := by simpa using hz
          obtain ⟨y2, hrun, hs2, he2⟩ :=
            eliminateRowD_spec hs1 ha hi hia (F64.div (.fin true 1) (entryD y i a))
          refine ⟨y2, ?_, hs2, ?_⟩
          · simpa [Prog.eliminateBody, hia, ieee,
              rdD_eq hs1 hi (le_of_lt ha), hc, hz2,
              Prog.rowSize_shaped hs1 hi] using hrun
          · intro r c
            rw [he2 r c]
            by_cases h1 : r = i
            · subst h1
              by_cases hcN : c ≤ N
              · simp [eliminatedD, hia, hz2, hrow, hrowa, hcN]
              · simp [eliminatedD, hcN, hrow]
            · have : r < i + 1 ↔ r < i := by omega
              simp [h1, this, he1 r c])
  refine ⟨y1, by simpa [Prog.eliminateStep, h.1] using hr, hs, ?_⟩
  intro r c
  rw [he r c]
  by_cases h1 : r < N
  · simp [h1]
  · have h2 : N ≤ r := not_lt.mp h1
    have h3 : entryD y r a = .fin false 0 := entryD_row_oob h h2 a
    simp [h1, eliminatedD, h3, F64.isZero]

/-! ## The predicate, the copy and the extraction in any arithmetic -/

namespace Prog

section Returns
variable {F : Type}

theorem rowSize_in_range (x : MatOf F) {i : Nat} (hi : i < x.length) :
    rowSize x i = .ok (x.getD i []).length := by
  simp [rowSize, List.getD_eq_getElem?_getD, List.getElem?_eq_getElem hi]

theorem isShape_rows (N : Nat) (x : MatOf F) :
    IsShape N x ↔ x.length = N ∧ ∀ r, r < x.length → (x.getD r []).length = x.length + 1 := by
  constructor
  · rintro ⟨h1, h2⟩
    refine ⟨h1, ?_⟩
    intro r hr
    have := h2 (x[r]) (List.getElem_mem hr)
    simp [List.getD_eq_getElem?_getD, List.getElem?_eq_getElem hr, this, h1]
  · rintro ⟨h1, h2⟩
    refine ⟨h1, ?_⟩
    intro r hr
    obtain ⟨n, hn, rfl⟩ := List.getElem_of_mem hr
    have := h2 n hn
    simp [List.getD_eq_getElem?_getD, List.getElem?_eq_getElem hn] at this
    rw [this, h1]

/-- The shape loop always returns; it runs to its end exactly when every remaining row has
`x.size() + 1` entries. -/
theorem shapeLoop_returns (x : MatOf F) :
    ∀ (k i : Nat), i + k = x.length →
      ∃ b, shapeLoop x k i = .ok b ∧
        (b = true ↔ ∀ r, i ≤ r → r < x.length → (x.getD r []).length = x.length + 1) := by
  intro k
  induction k with
  | zero =>
    intro i hik
    exact ⟨true, rfl, by simp; intro r h1 h2; omega⟩
  | succ k ih =>
    intro i hik
    have hi : i < x.length := by omega
    by_cases hlen : (x.getD i []).length = x.length + 1
    · obtain ⟨b, hb, hiff⟩ := ih (i + 1) (by omega)
      refine ⟨b, by simp only [shapeLoop, rowSize_in_range x hi, hlen]; simp [hb], ?_⟩
      rw [hiff]
      constructor
      · intro hall r h1 h2
        by_cases hri : r = i
        · subst hri; exact hlen
        · exact hall r (by omega) h2
      · intro hall r h1 h2
        exact hall r (by omega) h2
    · refine ⟨false, ?_, ?_⟩
      · have h2 : ¬ x.length + 1 = (x.getD i []).length := fun h => hlen h.symm
        simp only [shapeLoop, rowSize_in_range x hi]
        generalize (x.getD i []).length = n at hlen h2
        by_cases h0 : i = 0 <;> simp [h0, hlen, h2]
      · simp only [Bool.false_eq_true, false_iff]
        intro hall
        exact hlen (hall i (le_refl _) hi)

/-- The inner entry loop on a well-shaped matrix always returns; it runs to its end exactly
when the remaining entries of row `i` left of the last column compare equal to the
identity. -/
theorem entryRowLoop_returns (A : Arith F) {N : Nat} {x : MatOf F} (h : IsShape N x)
    {i : Nat} (hi : i < N) :
    ∀ (k j : Nat), j + k = N →
      ∃ b, entryRowLoop A x i k j = .ok b ∧
        (b = true ↔ ∀ c, j ≤ c → c < N →
          if i = c then A.isOne (entry A.zero x i c) = true
          else A.isZero (entry A.zero x i c) = true) := by
  intro k
  induction k with
  | zero =>
    intro j hjk
    exact ⟨true, rfl, by simp; intro c h1 h2; omega⟩
  | succ k ih =>
    intro j hjk
    have hj : j < N := by omega
    by_cases hv : if i = j then A.isOne (entry A.zero x i j) = true
        else A.isZero (entry A.zero x i j) = true
    · obtain ⟨b, hb, hiff⟩ := ih (j + 1) (by omega)
      refine ⟨b, ?_, ?_⟩
      · by_cases hij : i = j
        · subst hij
          simp only [if_true] at hv
          simp [entryRowLoop, rd_shaped A.zero h hi (le_of_lt hj), hv, hb]
        · simp only [hij, if_false] at hv
          simp [entryRowLoop, rd_shaped A.zero h hi (le_of_lt hj), hij, hv, hb]
      · rw [hiff]
        constructor
        · intro hall c h1 h2
          by_cases hcj : c = j
          · subst hcj; exact hv
          · exact hall c (by omega) h2
        · intro hall c h1 h2
          exact hall c (by omega) h2
    · refine ⟨false, ?_, ?_⟩
      · by_cases hij : i = j
        · subst hij
          simp only [if_true] at hv
          simp [entryRowLoop, rd_shaped A.zero h hi (le_of_lt hj), hv]
        · simp only [hij, if_false] at hv
          simp [entryRowLoop, rd_shaped A.zero h hi (le_of_lt hj), hij, hv]
      · simp only [Bool.false_eq_true, false_iff]
        intro hall
        exact hv (hall j (le_refl _) hj)

/-- The outer entry loop on a well-shaped matrix always returns; it runs to its end exactly
when the remaining rows compare equal to the identity left of the last column. -/
theorem entryLoop_returns (A : Arith F) {N : Nat} {x : MatOf F} (h : IsShape N x) :
    ∀ (k i : Nat), i + k = N →
      ∃ b, entryLoop A x k i = .ok b ∧
        (b = true ↔ ∀ r, i ≤ r → r < N → ∀ c, c < N →
          if r = c then A.isOne (entry A.zero x r c) = true
          else A.isZero (entry A.zero x r c) = true) := by
  intro k
  induction k with
  | zero =>
    intro i hik
    exact ⟨true, rfl, by simp; intro r h1 h2; omega⟩
  | succ k ih =>
    intro i hik
    have hi : i < N := by omega
    obtain ⟨b1, hb1, hiff1⟩ := entryRowLoop_returns A h hi N 0 (by omega)
    have hsz : sizePred (N + 1) = N := by simp [sizePred]
    cases b1 with
    | true =>
      obtain ⟨b, hb, hiff⟩ := ih (i + 1) (by omega)
      refine ⟨b, by simp [entryLoop, rowSize_shaped h hi, hsz, hb1, hb], ?_⟩
      rw [hiff]
      have hrow := hiff1.mp rfl
      constructor
      · intro hall r h1 h2 c hc
        by_cases hri : r = i
        · subst hri; exact hrow c (Nat.zero_le _) hc
        · exact hall r (by omega) h2 c hc
      · intro hall r h1 h2 c hc
        exact hall r (by omega) h2 c hc
    | false =>
      refine ⟨false, by simp [entryLoop, rowSize_shaped h hi, hsz, hb1], ?_⟩
      simp only [Bool.false_eq_true, false_iff]
      intro hall
      have : false = true := hiff1.mpr (fun c _ hc => hall i (le_refl _) hi c hc)
      exact Bool.noConfusion this

/-- The predicate `rowCanonicalForm` always returns, and it returns `true` exactly for the
`N x (N+1)` matrices whose first `N` columns compare equal to the identity. -/
theorem rowCanonicalForm_returns (A : Arith F) (x : MatOf F) :
    ∃ b, rowCanonicalForm A x = .ok b ∧
      (b = true ↔ IsShape x.length x ∧ IsIdentityPart A x.length x) := by
  obtain ⟨b1, hb1, hiff1⟩ := shapeLoop_returns x x.length 0 (by omega)
  cases b1 with
  | true =>
    have hshape : IsShape x.length x :=
      (isShape_rows _ x).mpr ⟨rfl, fun r hr => hiff1.mp rfl r (Nat.zero_le _) hr⟩
    obtain ⟨b, hb, hiff⟩ := entryLoop_returns A hshape x.length 0 (by omega)
    refine ⟨b, by simp [rowCanonicalForm, hb1, hb], ?_⟩
    rw [hiff]
    constructor
    · intro hall
      exact ⟨hshape, fun i hi j hj => hall i (Nat.zero_le _) hi j hj⟩
    · rintro ⟨_, hall⟩ r _ hr c hc
      exact hall r hr c hc
  | false =>
    refine ⟨false, by simp [rowCanonicalForm, hb1], ?_⟩
    simp only [Bool.false_eq_true, false_iff]
    rintro ⟨hshape, _⟩
    have : false = true :=
      hiff1.mpr (fun r _ hr => ((isShape_rows _ x).mp hshape).2 r hr)
    exact Bool.noConfusion this

theorem resizeRow_append (A : Arith F) (pre : MatOf F) (row : List F) {i j : Nat}
    (hpre : pre.length = i) (hrow : row.length = j) :
    resizeRow A (pre ++ [row]) i (j + 1) = .ok (pre ++ [row ++ [A.zero]]) := by
  unfold resizeRow
  rw [getElem?_snoc_at pre row hpre]
  show Except.ok (List.set (pre ++ [row]) i (vresize row (j + 1) A.zero)) = _
  rw [vresize_snoc row A.zero hrow, set_snoc_at pre _ _ hpre]

theorem wr_append (pre : MatOf F) (row : List F) (d v : F) {i j : Nat}
    (hpre : pre.length = i) (hrow : row.length = j) :
    wr (pre ++ [row ++ [d]]) i j v = .ok (pre ++ [row ++ [v]]) := by
  unfold wr
  rw [getElem?_snoc_at pre _ hpre]
  have : j < (row ++ [d]).length := by simp [hrow]
  show (if j < (row ++ [d]).length then
    Except.ok (List.set (pre ++ [row ++ [d]]) i ((row ++ [d]).set j v))
    else Except.error Stop.outOfRange) = _
  rw [if_pos this, set_snoc_at row d v hrow, set_snoc_at pre _ _ hpre]

/-- The inner copy loop appends row `i` of `x`, entry by entry. -/
theorem copyRow_appends (A : Arith F) (x : MatOf F) {i : Nat} (hi : i < x.length)
    (pre : MatOf F) (hpre : pre.length = i) :
    forRange (copyRowBody A x i) (x[i]).length 0 (pre ++ [[]]) = .ok (pre ++ [x[i]]) := by
  obtain ⟨y1, hrun, hP⟩ := forRange_rule (copyRowBody A x i)
    (fun j y => j ≤ (x[i]).length ∧ y = pre ++ [(x[i]).take j])
    (x[i]).length 0 (pre ++ [[]]) ⟨Nat.zero_le _, by simp⟩
    (by
      intro j y _ hj ⟨_, hy⟩
      have hj : j < (x[i]).length := by omega
      subst hy
      have hlen : ((x[i]).take j).length = j := by
        rw [List.length_take]; omega
      refine ⟨pre ++ [(x[i]).take (j + 1)], ?_, by omega, rfl⟩
      have h1 := resizeRow_append A pre _ hpre hlen
      have h2 : rd x i j = .ok ((x[i])[j]) := by
        simp [rd, List.getElem?_eq_getElem hi, List.getElem?_eq_getElem hj]
      have h3 := wr_append pre _ A.zero ((x[i])[j]) hpre hlen
      simp only [copyRowBody, h1, h2, h3, take_succ_of_lt _ hj])
  rw [hrun, hP.2]
  simp

/-- The copy loop reproduces its argument, in any arithmetic. -/
theorem copyMatrix_returns (A : Arith F) (x : MatOf F) : copyMatrix A x = .ok x := by
  obtain ⟨y1, hrun, hP⟩ := forRange_rule (copyBody A x)
    (fun i y => i ≤ x.length ∧ y = x.take i)
    x.length 0 [] ⟨Nat.zero_le _, by simp⟩
    (by
      intro i y _ hi ⟨_, hy⟩
      have hi : i < x.length := by omega
      subst hy
      have hlen : (x.take i).length = i := by
        rw [List.length_take]; omega
      refine ⟨x.take (i + 1), ?_, by omega, rfl⟩
      have h1 : rowSize x i = .ok (x[i]).length := by
        simp [rowSize, List.getElem?_eq_getElem hi]
      simp only [copyBody, h1, vresize_snoc _ _ hlen, copyRow_appends A x hi _ hlen,
        take_succ_of_lt _ hi])
  unfold copyMatrix
  rw [hrun, hP.2]
  simp

theorem rd_lastOf (d : F) (x : MatOf F) {i : Nat} (hi : i < x.length) (hne : x[i] ≠ []) :
    rd x i (sizePred (x[i]).length) = .ok (lastOf d x[i]) := by
  have hpos : 0 < (x[i]).length := List.length_pos.mpr hne
  have h0 : (x[i]).length ≠ 0 := by omega
  have hlt : (x[i]).length - 1 < (x[i]).length := by omega
  unfold sizePred
  rw [if_neg h0]
  simp [rd, List.getElem?_eq_getElem hi, List.getElem?_eq_getElem hlt, lastOf,
    List.getLast?_eq_getElem?]

theorem wrv_append (s : List F) {i : Nat} (hlen : s.length = i) (d v : F) :
    wrv (s ++ [d]) i v = .ok (s ++ [v]) := by
  subst hlen
  simp [wrv, set_snoc_at s d v rfl]

/-- On rows that are all non-empty the extraction returns the last element of every row,
in row order, in any arithmetic. -/
theorem solve_returns (A : Arith F) (x : MatOf F) (hne : ∀ r ∈ x, r ≠ []) :
    solveSystem_PreReducedMatrix A x = .ok (x.map (lastOf A.zero)) := by
  obtain ⟨s1, hrun, hP⟩ := forRange_rule (solveBody A x)
    (fun i s => i ≤ x.length ∧ s = (x.take i).map (lastOf A.zero))
    x.length 0 [] ⟨Nat.zero_le _, by simp⟩
    (by
      intro i s _ hi ⟨_, hs⟩
      have hi : i < x.length := by omega
      subst hs
      have hlen : ((x.take i).map (lastOf A.zero)).length = i := by
        rw [List.length_map, List.length_take]; omega
      refine ⟨(x.take (i + 1)).map (lastOf A.zero), ?_, by omega, rfl⟩
      have h1 : rowSize x i = .ok (x[i]).length := by
        simp [rowSize, List.getElem?_eq_getElem hi]
      have h2 := rd_lastOf A.zero x hi (hne _ (List.getElem_mem hi))
      have h3 := wrv_append _ hlen A.zero (lastOf A.zero x[i])
      simp only [solveBody, h1, h2, vresize_snoc _ _ hlen, h3, take_succ_of_lt _ hi,
        List.map_append, List.map_cons, List.map_nil])
  unfold solveSystem_PreReducedMatrix
  rw [hrun, hP.2]
  simp

end Returns

end Prog

/-! ## The pivot search in any arithmetic -/

namespace Prog

section Pivot
variable {F : Type}

/-- The swap loop always returns a matrix of the same shape. -/
theorem swapRows_returns (d : F) {N : Nat} {y : MatOf F} (h : IsShape N y) {a i : Nat}
    (ha : a < N) (hi : i < N) :
    ∃ y1, forRange (swapBody a i) (N + 1) 0 y = .ok y1 ∧ IsShape N y1 := by
  obtain ⟨y1, hr, hs⟩ := forRange_rule (swapBody a i) (fun _ y1 => IsShape N y1)
    (N + 1) 0 y h
    (by
      intro j y1 _ hj hs1
      have hj : j ≤ N := by omega
      obtain ⟨y2, hw2, hs2, _⟩ := wr_shaped d hs1 ha hj (entry d y1 i j)
      obtain ⟨y3, hw3, hs3, _⟩ := wr_shaped d hs2 hi hj (entry d y1 a j)
      exact ⟨y3, by simp [swapBody, rd_shaped d hs1 ha hj, rd_shaped d hs1 hi hj, hw2, hw3],
        hs3⟩)
  exact ⟨y1, hr, hs⟩

/-- The pivot search always returns a matrix of the same shape, and the matrix itself when
no row from `i` on has an entry in column `a` that compares unequal to zero. -/
theorem pivotSearch_returns (A : Arith F) {N : Nat} {a : Nat} (ha : a < N) :
    ∀ (k i : Nat) (y : MatOf F), IsShape N y → a < i → i + k = N →
      ∃ y1, pivotSearch A a k i y = .ok y1 ∧ IsShape N y1 ∧
        ((∀ r, i ≤ r → r < N → A.isZero (entry A.zero y r a) = true) → y1 = y) := by
  intro k
  induction k with
  | zero =>
    intro i y h _ _
    exact ⟨y, rfl, h, fun _ => rfl⟩
  | succ k ih =>
    intro i y h hai hik
    have hi : i < N := by omega
    by_cases hz : A.isZero (entry A.zero y i a) = true
    · obtain ⟨y1, hrun, hs, hsame⟩ := ih (i + 1) y h (by omega) (by omega)
      refine ⟨y1, by simpa [pivotSearch, rd_shaped A.zero h hi (le_of_lt ha), hz] using hrun,
        hs, ?_⟩
      intro hall
      exact hsame (fun r h1 h2 => hall r (by omega) h2)
    · have hz2 : A.isZero (entry A.zero y i a) = false := by simpa using hz
      obtain ⟨y1, hrun, hs⟩ := swapRows_returns A.zero h ha hi
      refine ⟨y1, by simpa [pivotSearch, rd_shaped A.zero h hi (le_of_lt ha), hz2,
        rowSize_shaped h hi] using hrun, hs, ?_⟩
      intro hall
      exact absurd (hall i (le_refl _) hi) hz

/-- Step (2) always returns a matrix of the same shape, and the matrix itself when no row
below `a` has an entry in column `a` that compares unequal to zero. -/
theorem pivotStep_returns (A : Arith F) {N : Nat} {y : MatOf F} (h : IsShape N y) {a : Nat}
    (ha : a < N) :
    ∃ y1, pivotStep A a y = .ok y1 ∧ IsShape N y1 ∧
      ((∀ r, a < r → r < N → A.isZero (entry A.zero y r a) = true) → y1 = y) := by
  by_cases hz : A.isZero (entry A.zero y a a) = true
  · obtain ⟨y1, hrun, hs, hsame⟩ :=
      pivotSearch_returns A ha (N - (a + 1)) (a + 1) y h (by omega) (by omega)
    refine ⟨y1, by simpa [pivotStep, rd_shaped A.zero h ha (le_of_lt ha), hz, h.1] using hrun,
      hs, ?_⟩
    intro hall
    exact hsame (fun r h1 h2 => hall r (by omega) h2)
  · exact ⟨y, by simp [pivotStep, rd_shaped A.zero h ha (le_of_lt ha), hz], h, fun _ => rfl⟩

/-- A run of the main loop that starts in row canonical form performs no iteration. -/
theorem mainLoop_canonical (A : Arith F) {m : MatOf F} (h : rowCanonicalForm A m = .ok true)
    (k a : Nat) : mainLoop A k a m = .ok (m, a) := by
  cases k with
  | zero => rfl
  | succ k => simp [mainLoop, h]

/-- A run of the final pass that starts in row canonical form performs no iteration. -/
theorem finalLoop_canonical (A : Arith F) {m : MatOf F}
    (h : rowCanonicalForm A m = .ok true) (k i : Nat) : finalLoop A k i m = .ok (m, i) := by
  cases k with
  | zero => rfl
  | succ k => simp [finalLoop, h]

/-- The reduction returns a matrix in row canonical form unchanged. -/
theorem gaussJordan_canonical (A : Arith F) {m : MatOf F}
    (h : rowCanonicalForm A m = .ok true) : gaussJordanElimination A m = .ok m := by
  simp [gaussJordanElimination, copyMatrix_returns, mainLoop_canonical A h,
    finalLoop_canonical A h]

/-- A stop of the main loop within its first `k` iterations is a stop of every longer
run. -/
theorem mainLoop_stop_mono (A : Arith F) (e : Stop) :
    ∀ (k a : Nat) (y : MatOf F), mainLoop A k a y = .error e →
      ∀ j, mainLoop A (k + j) a y = .error e := by
  intro k
  induction k with
  | zero =>
    intro a y h
    simp [mainLoop] at h
  | succ k ih =>
    intro a y h j
    have hk : k + 1 + j = (k + j) + 1 := by omega
    rw [hk]
    cases hb : rowCanonicalForm A y with
    | error e1 =>
      simp only [mainLoop, hb] at h ⊢
      exact h
    | ok b =>
      cases b with
      | true => simp [mainLoop, hb] at h
      | false =>
        cases hc : columnStep A a y with
        | error e1 =>
          simp only [mainLoop, hb, hc] at h ⊢
          exact h
        | ok y1 =>
          simp only [mainLoop, hb, hc] at h ⊢
          exact ih (a + 1) y1 h j

end Pivot

end Prog

/-! ## The loops in double arithmetic -/

/-- An iteration of the main loop always returns a matrix of the same shape. -/
theorem columnStepD_returns {N : Nat} {y : MatOf F64} (h : Prog.IsShape N y) {a : Nat}
    (ha : a < N) :
    ∃ y1, Prog.columnStep ieee a y = .ok y1 ∧ Prog.IsShape N y1 := by
  obtain ⟨y1, h1, hs1, _⟩ := Prog.pivotStep_returns ieee h ha
  obtain ⟨y2, h2, hs2, _⟩ := normalizeStepD_spec hs1 ha
  obtain ⟨y3, h3, hs3, _⟩ := eliminateStepD_spec hs2 ha
  exact ⟨y3, by simp [Prog.columnStep, h1, h2, h3], hs3⟩

/-- The main loop always returns: a matrix of the same shape, after at most `k`
iterations. -/
theorem mainLoopD_returns {N : Nat} :
    ∀ (k a : Nat) (y : MatOf F64), Prog.IsShape N y → a + k ≤ N →
      ∃ y1 a1, Prog.mainLoop ieee k a y = .ok (y1, a1) ∧ Prog.IsShape N y1 ∧
        a ≤ a1 ∧ a1 ≤ a + k := by
  intro k
  induction k with
  | zero =>
    intro a y h _
    exact ⟨y, a, rfl, h, le_refl _, le_refl _⟩
  | succ k ih =>
    intro a y h hak
    obtain ⟨b, hb, _⟩ := Prog.rowCanonicalForm_returns ieee y
    cases b with
    | true => exact ⟨y, a, by simp [Prog.mainLoop, hb], h, le_refl _, by omega⟩
    | false =>
      obtain ⟨y1, hc, hs1⟩ := columnStepD_returns h (show a < N by omega)
      obtain ⟨y2, a2, hrun, hs2, h1, h2⟩ := ih (a + 1) y1 hs1 (by omega)
      exact ⟨y2, a2, by simp [Prog.mainLoop, hb, hc, hrun], hs2, by omega, by omega⟩

/-- The final pass always returns.  It visits the rows `i0, ..., i1 - 1` in order, each
time on a matrix that is not yet canonical, multiplies each visited row by the rounded
reciprocal of its diagonal entry, leaves every other row alone, and stops before row `N`
only on a matrix in row canonical form. -/
theorem finalLoopD_returns {N : Nat} :
    ∀ (k i0 : Nat) (y0 : MatOf F64), Prog.IsShape N y0 → i0 + k = N →
      ∃ r i1, Prog.finalLoop ieee k i0 y0 = .ok (r, i1) ∧ Prog.IsShape N r ∧
        i0 ≤ i1 ∧ i1 ≤ N ∧
        (∀ j c, i0 ≤ j → j < i1 → entryD r j c = scaledD N y0 j j c) ∧
        (∀ j c, j < i0 ∨ i1 ≤ j → entryD r j c = entryD y0 j c) ∧
        (∀ i, i0 ≤ i → i < i1 →
          ∃ yi, Prog.finalLoop ieee (i - i0) i0 y0 = .ok (yi, i) ∧
            Prog.rowCanonicalForm ieee yi = .ok false) ∧
        (i1 < N → Prog.rowCanonicalForm ieee r = .ok true) := by
  intro k
  induction k with
  | zero =>
    intro i0 y0 h hik
    refine ⟨y0, i0, rfl, h, le_refl _, by omega, ?_, fun _ _ _ => rfl, ?_, by omega⟩
    · intro j c h1 h2; omega
    · intro i h1 h2; omega
  | succ k ih =>
    intro i0 y0 h hik
    obtain ⟨b, hb, _⟩ := Prog.rowCanonicalForm_returns ieee y0
    cases b with
    | true =>
      refine ⟨y0, i0, by simp [Prog.finalLoop, hb], h, le_refl _, by omega, ?_,
        fun _ _ _ => rfl, ?_, fun _ => hb⟩
      · intro j c h1 h2; omega
      · intro i h1 h2; omega
    | false =>
      have hi0 : i0 < N := by omega
      obtain ⟨y1, hrun1, hs1, he⟩ := finalStepD_spec h hi0
      obtain ⟨r, i1, hrun, hs, h1, h2, h3, h4, h5, h6⟩ := ih (i0 + 1) y1 hs1 (by omega)
      refine ⟨r, i1, by simp [Prog.finalLoop, hb, hrun1, hrun], hs, by omega, h2, ?_, ?_, ?_,
        h6⟩
      · intro j c hj1 hj2
        by_cases hj : j = i0
        · subst hj
          rw [h4 j c (Or.inl (by omega)), he j c]
        · rw [h3 j c (by omega) hj2]
          simp [scaledD, he j c, he j j, hj]
      · intro j c hj
        have hne : j ≠ i0 := by omega
        rw [h4 j c (by omega), he j c]; simp [scaledD, hne]
      · intro i hi1 hi2
        by_cases hi : i = i0
        · subst hi
          exact ⟨y0, by simp [Prog.finalLoop], hb⟩
        · obtain ⟨yi, hyi, hcan⟩ := h5 i (by omega) hi2
          refine ⟨yi, ?_, hcan⟩
          have : i - i0 = (i - (i0 + 1)) + 1 := by omega
          rw [this]
          simp [Prog.finalLoop, hb, hrun1, hyi]

/-- The reduction always returns on an `N x (N+1)` matrix of doubles: the copy is the
input, the main loop ends after at most `N` iterations, the final pass after at most `N`,
and the result has the shape of the input. -/
theorem gaussJordanD_returns {N : Nat} {m : MatOf F64} (hs : Prog.IsShape N m) :
    ∃ y a r i, Prog.copyMatrix ieee m = .ok m ∧ Prog.mainLoop ieee N 0 m = .ok (y, a) ∧
      a ≤ N ∧ Prog.IsShape N y ∧ Prog.finalLoop ieee N 0 y = .ok (r, i) ∧ i ≤ N ∧
      Prog.IsShape N r ∧ Prog.gaussJordanElimination ieee m = .ok r ∧
      Prog.gaussJordanNoFinalPass ieee m = .ok y := by
  obtain ⟨y, a, h1, hy, _, ha⟩ := mainLoopD_returns N 0 m hs (by omega)
  obtain ⟨r, i, h2, hr, _, hi, _⟩ := finalLoopD_returns N 0 y hy (by omega)
  refine ⟨y, a, r, i, Prog.copyMatrix_returns ieee m, h1, by omega, hy, h2, hi, hr, ?_, ?_⟩
  · simp [Prog.gaussJordanElimination, Prog.copyMatrix_returns, hs.1, h1, hy.1, h2]
  · simp [Prog.gaussJordanNoFinalPass, Prog.copyMatrix_returns, hs.1, h1]

/-! ## One arithmetic following another -/

theorem SimOut.bind {α β γ δ : Type} {M : Prop} {R : α → β → Prop} {S : γ → δ → Prop}
    {o : Out α} {o2 : Out β} {f : α → Out γ} {g : β → Out δ} :
    SimOut M R o o2 → (∀ a b, R a b → SimOut M S (f a) (g b)) →
    SimOut M S
      (match o with | .error e => .error e | .ok a => f a)
      (match o2 with | .error e => .error e | .ok b => g b) := by
  intro h hf
  cases o with
  | ok a =>
    obtain ⟨b, hb, hr⟩ := h
    subst hb
    exact hf a b hr
  | error e =>
    cases e with
    | inexact => trivial
    | zeroDivisor =>
      intro hm
      have he2 := h hm
      subst he2
      rfl
    | outOfRange =>
      have he2 := h
      subst he2
      rfl

section Sim
variable {F G : Type} {A : Arith F} {B : Arith G} {φ : F → G} {P : F → Prop} {M : Prop}

theorem relM_getElem? {y : MatOf F} {z : MatOf G} (h : RelM φ P y z) (i : Nat) :
    (∀ r, y[i]? = some r → z[i]? = some (r.map φ) ∧ ∀ v ∈ r, P v) ∧
    (y[i]? = none → z[i]? = none) := by
  obtain ⟨hP, rfl⟩ := h
  constructor
  · intro r hr
    refine ⟨by simp [List.getElem?_map, hr], ?_⟩
    exact hP r (List.getElem?_mem hr)
  · intro hn
    simp [List.getElem?_map, hn]

theorem sim_rd {y : MatOf F} {z : MatOf G} (h : RelM φ P y z) (i j : Nat) :
    SimOut M (RelV φ P) (Prog.rd y i j) (Prog.rd z i j) := by
  unfold Prog.rd
  cases hy : y[i]? with
  | none =>
    rw [(relM_getElem? h i).2 hy]
    exact rfl
  | some r =>
    obtain ⟨hz, hPr⟩ := (relM_getElem? h i).1 r hy
    rw [hz]
    cases hr : r[j]? with
    | none =>
      simp only [List.getElem?_map, hr, Option.map_none']
      exact rfl
    | some v =>
      simp only [List.getElem?_map, hr, Option.map_some']
      exact ⟨φ v, rfl, hPr v (List.getElem?_mem hr), rfl⟩

theorem sim_wr {y : MatOf F} {z : MatOf G} (h : RelM φ P y z) (i j : Nat) {v : F} {w : G}
    (hv : RelV φ P v w) :
    SimOut M (RelM φ P) (Prog.wr y i j v) (Prog.wr z i j w) := by
  unfold Prog.wr
  obtain ⟨hPv, rfl⟩ := hv
  cases hy : y[i]? with
  | none =>
    rw [(relM_getElem? h i).2 hy]
    exact rfl
  | some r =>
    obtain ⟨hz, hPr⟩ := (relM_getElem? h i).1 r hy
    rw [hz]
    obtain ⟨hP, rfl⟩ := h
    by_cases hj : j < r.length
    · simp only [hj, List.length_map, if_true]
      refine ⟨_, rfl, ?_, ?_⟩
      · intro r1 hr1 v1 hv1
        rcases List.mem_or_eq_of_mem_set hr1 with h1 | h1
        · exact hP r1 h1 v1 hv1
        · subst h1
          rcases List.mem_or_eq_of_mem_set hv1 with h2 | h2
          · exact hPr v1 h2
          · subst h2; exact hPv
      · simp [List.map_set]
    · simp only [hj, List.length_map, if_false]
      exact rfl

theorem SimOut.pure {α β : Type} {M : Prop} {R : α → β → Prop} {a : α} {b : β}
    (h : R a b) : SimOut M R (.ok a) (.ok b) := ⟨b, rfl, h⟩

theorem SimOut.bindBool {γ δ : Type} {M : Prop} {S : γ → δ → Prop}
    {o o2 : Out Bool} {x y : Out γ} {x2 y2 : Out δ} :
    SimOut M (fun (b c : Bool) => c = b) o o2 → SimOut M S x x2 →
    SimOut M S y y2 →
    SimOut M S
      (match o with | .error e => .error e | .ok true => x | .ok false => y)
      (match o2 with | .error e => .error e | .ok true => x2 | .ok false => y2) := by
  intro h hx hy
  cases o with
  | ok a =>
    obtain ⟨b, hb, hr⟩ := h
    rw [hb, hr]
    cases a
    · exact hy
    · exact hx
  | error e =>
    cases e with
    | inexact => trivial
    | zeroDivisor =>
      intro hm
      have he2 := h hm
      subst he2
      rfl
    | outOfRange =>
      have he2 := h
      subst he2
      rfl

theorem SimOut.bindNat {γ δ : Type} {M : Prop} {S : γ → δ → Prop}
    {o o2 : Out Nat} {f : Nat → Out γ} {g : Nat → Out δ} :
    SimOut M (fun (n k : Nat) => k = n) o o2 → (∀ n, SimOut M S (f n) (g n)) →
    SimOut M S
      (match o with | .error e => .error e | .ok n => f n)
      (match o2 with | .error e => .error e | .ok n => g n) := by
  intro h hf
  cases o with
  | ok a =>
    obtain ⟨b, hb, hr⟩ := h
    rw [hb, hr]
    exact hf a
  | error e =>
    cases e with
    | inexact => trivial
    | zeroDivisor =>
      intro hm
      have he2 := h hm
      subst he2
      rfl
    | outOfRange =>
      have he2 := h
      subst he2
      rfl

theorem relM_length {y : MatOf F} {z : MatOf G} (h : RelM φ P y z) : z.length = y.length := by
  obtain ⟨_, rfl⟩ := h
  simp

theorem sim_rowSize {y : MatOf F} {z : MatOf G} (h : RelM φ P y z) (i : Nat) :
    SimOut M (fun (n k : Nat) => k = n) (Prog.rowSize y i) (Prog.rowSize z i) := by
  unfold Prog.rowSize
  cases hy : y[i]? with
  | none =>
    rw [(relM_getElem? h i).2 hy]
    exact rfl
  | some r =>
    rw [((relM_getElem? h i).1 r hy).1]
    exact ⟨_, rfl, by simp⟩

theorem sim_forRange {σ τ : Type} {R : σ → τ → Prop} {b1 : Nat → σ → Out σ}
    {b2 : Nat → τ → Out τ}
    (hb : ∀ j s t, R s t → SimOut M R (b1 j s) (b2 j t)) :
    ∀ (k j : Nat) (s : σ) (t : τ), R s t →
      SimOut M R (Prog.forRange b1 k j s) (Prog.forRange b2 k j t) := by
  intro k
  induction k with
  | zero => intro j s t h; exact SimOut.pure h
  | succ k ih =>
    intro j s t h
    unfold Prog.forRange
    exact SimOut.bind (hb j s t h) (fun s1 t1 h1 => ih (j + 1) s1 t1 h1)

theorem sim_shapeLoop {x : MatOf F} {z : MatOf G} (h : RelM φ P x z) :
    ∀ (k i : Nat), SimOut M (fun (b c : Bool) => c = b)
      (Prog.shapeLoop x k i) (Prog.shapeLoop z k i) := by
  intro k
  induction k with
  | zero => intro i; exact SimOut.pure rfl
  | succ k ih =>
    intro i
    unfold Prog.shapeLoop
    refine SimOut.bindNat (sim_rowSize h i) ?_
    intro n
    rw [relM_length h]
    split
    · exact SimOut.pure rfl
    · split
      · exact SimOut.pure rfl
      · exact ih (i + 1)

theorem sim_entryRowLoop (hA : ArithSim A B φ P M) {x : MatOf F} {z : MatOf G}
    (h : RelM φ P x z) (i : Nat) :
    ∀ (k j : Nat), SimOut M (fun (b c : Bool) => c = b)
      (Prog.entryRowLoop A x i k j) (Prog.entryRowLoop B z i k j) := by
  intro k
  induction k with
  | zero => intro j; exact SimOut.pure rfl
  | succ k ih =>
    intro j
    unfold Prog.entryRowLoop
    refine SimOut.bind (sim_rd h i j) ?_
    rintro v v2 ⟨hv, rfl⟩
    rw [hA.isOne v hv, hA.isZero v hv]
    split
    · split
      · exact SimOut.pure rfl
      · exact ih (j + 1)
    · split
      · exact SimOut.pure rfl
      · exact ih (j + 1)

theorem sim_entryLoop (hA : ArithSim A B φ P M) {x : MatOf F} {z : MatOf G}
    (h : RelM φ P x z) :
    ∀ (k i : Nat), SimOut M (fun (b c : Bool) => c = b)
      (Prog.entryLoop A x k i) (Prog.entryLoop B z k i) := by
  intro k
  induction k with
  | zero => intro i; exact SimOut.pure rfl
  | succ k ih =>
    intro i
    unfold Prog.entryLoop
    refine SimOut.bindNat (sim_rowSize h i) ?_
    intro n
    have h1 := sim_entryRowLoop hA h i (sizePred n) 0
    cases ho : Prog.entryRowLoop A x i (sizePred n) 0 with
    | ok b =>
      rw [ho] at h1
      obtain ⟨b2, hb2, rfl⟩ := h1
      rw [hb2]
      cases b2
      · exact SimOut.pure rfl
      · exact ih (i + 1)
    | error e =>
      rw [ho] at h1
      cases e with
      | inexact => trivial
      | zeroDivisor =>
        intro hm
        have he2 := h1 hm
        rw [he2]
      | outOfRange =>
        have he2 := h1
        rw [he2]
        rfl

theorem sim_rowCanonicalForm (hA : ArithSim A B φ P M) {x : MatOf F} {z : MatOf G}
    (h : RelM φ P x z) :
    SimOut M (fun (b c : Bool) => c = b)
      (Prog.rowCanonicalForm A x) (Prog.rowCanonicalForm B z) := by
  unfold Prog.rowCanonicalForm
  rw [relM_length h]
  have h1 := sim_shapeLoop (M := M) h x.length 0
  cases ho : Prog.shapeLoop x x.length 0 with
  | ok b =>
    rw [ho] at h1
    obtain ⟨b2, hb2, rfl⟩ := h1
    rw [hb2]
    cases b2
    · exact SimOut.pure rfl
    · exact sim_entryLoop hA h x.length 0
  | error e =>
    rw [ho] at h1
    cases e with
    | inexact => trivial
    | zeroDivisor =>
      intro hm
      have he2 := h1 hm
      rw [he2]
    | outOfRange =>
      have he2 := h1
      rw [he2]
      rfl

theorem SimOut.bindMat {F G γ δ : Type} {M : Prop} {R : MatOf F → MatOf G → Prop}
    {S : γ → δ → Prop} {o : Out (MatOf F)} {o2 : Out (MatOf G)}
    {f : MatOf F → Out γ} {g : MatOf G → Out δ} :
    SimOut M R o o2 → (∀ y z, R y z → SimOut M S (f y) (g z)) →
    SimOut M S
      (match o with | .error e => .error e | .ok y1 => f y1)
      (match o2 with | .error e => .error e | .ok y1 => g y1) := by
  intro h hf
  cases o with
  | ok a =>
    obtain ⟨b, hb, hr⟩ := h
    rw [hb]
    exact hf a b hr
  | error e =>
    cases e with
    | inexact => trivial
    | zeroDivisor =>
      intro hm
      have he2 := h hm
      subst he2
      rfl
    | outOfRange =>
      have he2 := h
      subst he2
      rfl

theorem relL_vresize {r : List F} {s : List G} (h : RelL φ P r s) (n : Nat) {d : F} {e : G}
    (hd : RelV φ P d e) : RelL φ P (vresize r n d) (vresize s n e) := by
  obtain ⟨hP, rfl⟩ := h
  obtain ⟨hPd, rfl⟩ := hd
  refine ⟨?_, by simp [vresize, List.map_take]⟩
  intro v hv
  simp only [vresize, List.mem_append, List.mem_replicate] at hv
  rcases hv with hv | ⟨_, hv⟩
  · exact hP v (List.mem_of_mem_take hv)
  · rw [hv]; exact hPd

theorem relM_vresize_nil {y : MatOf F} {z : MatOf G} (h : RelM φ P y z) (n : Nat) :
    RelM φ P (vresize y n []) (vresize z n []) := by
  obtain ⟨hP, rfl⟩ := h
  refine ⟨?_, by simp [vresize, List.map_take]⟩
  intro r hr v hv
  simp only [vresize, List.mem_append, List.mem_replicate] at hr
  rcases hr with hr | ⟨_, hr⟩
  · exact hP r (List.mem_of_mem_take hr) v hv
  · rw [hr] at hv; simp at hv

theorem relM_nil : RelM φ P ([] : MatOf F) ([] : MatOf G) :=
  ⟨by intro r hr; simp at hr, rfl⟩

theorem relL_nil : RelL φ P ([] : List F) ([] : List G) :=
  ⟨by intro r hr; simp at hr, rfl⟩

theorem sim_wrv {s : List F} {t : List G} (h : RelL φ P s t) (i : Nat) {v : F} {w : G}
    (hv : RelV φ P v w) :
    SimOut M (RelL φ P) (Prog.wrv s i v) (Prog.wrv t i w) := by
  unfold Prog.wrv
  obtain ⟨hP, rfl⟩ := h
  obtain ⟨hPv, rfl⟩ := hv
  by_cases hi : i < s.length
  · simp only [hi, List.length_map, if_true]
    refine ⟨_, rfl, ?_, by simp [List.map_set]⟩
    intro v1 hv1
    rcases List.mem_or_eq_of_mem_set hv1 with h2 | h2
    · exact hP v1 h2
    · subst h2; exact hPv
  · simp only [hi, List.length_map, if_false]
    exact rfl

theorem sim_solveBody (hA : ArithSim A B φ P M) {x : MatOf F} {z : MatOf G}
    (h : RelM φ P x z) (i : Nat) {s : List F} {t : List G} (hs : RelL φ P s t) :
    SimOut M (RelL φ P) (Prog.solveBody A x i s) (Prog.solveBody B z i t) := by
  unfold Prog.solveBody
  refine SimOut.bindNat (sim_rowSize h i) ?_
  intro n
  refine SimOut.bind (sim_rd h i (sizePred n)) ?_
  intro v w hv
  exact sim_wrv (relL_vresize hs (i + 1) hA.zero) i hv

theorem sim_solve (hA : ArithSim A B φ P M) {x : MatOf F} {z : MatOf G}
    (h : RelM φ P x z) :
    SimOut M (RelL φ P) (Prog.solveSystem_PreReducedMatrix A x)
      (Prog.solveSystem_PreReducedMatrix B z) := by
  unfold Prog.solveSystem_PreReducedMatrix
  rw [relM_length h]
  exact sim_forRange (fun j s t hs => sim_solveBody hA h j hs) x.length 0 [] [] relL_nil

theorem sim_resizeRow (hA : ArithSim A B φ P M) {y : MatOf F} {z : MatOf G}
    (h : RelM φ P y z) (i n : Nat) :
    SimOut M (RelM φ P) (Prog.resizeRow A y i n) (Prog.resizeRow B z i n) := by
  unfold Prog.resizeRow
  cases hy : y[i]? with
  | none =>
    rw [(relM_getElem? h i).2 hy]
    exact rfl
  | some r =>
    obtain ⟨hz, hPr⟩ := (relM_getElem? h i).1 r hy
    rw [hz]
    obtain ⟨hP, rfl⟩ := h
    have hr := relL_vresize (φ := φ) (P := P) ⟨hPr, rfl⟩ n hA.zero
    refine ⟨_, rfl, ?_, ?_⟩
    · intro r1 hr1 v1 hv1
      rcases List.mem_or_eq_of_mem_set hr1 with h1 | h1
      · exact hP r1 h1 v1 hv1
      · subst h1; exact hr.1 v1 hv1
    · rw [hr.2]; simp [List.map_set]

theorem sim_copyRowBody (hA : ArithSim A B φ P M) {x : MatOf F} {z : MatOf G}
    (h : RelM φ P x z) (i j : Nat) {y : MatOf F} {w : MatOf G} (hy : RelM φ P y w) :
    SimOut M (RelM φ P) (Prog.copyRowBody A x i j y) (Prog.copyRowBody B z i j w) := by
  unfold Prog.copyRowBody
  refine SimOut.bindMat (sim_resizeRow hA hy i (j + 1)) ?_
  intro y1 w1 h1
  refine SimOut.bind (sim_rd h i j) ?_
  intro v v2 hv
  exact sim_wr h1 i j hv

theorem sim_copyBody (hA : ArithSim A B φ P M) {x : MatOf F} {z : MatOf G}
    (h : RelM φ P x z) (i : Nat) {y : MatOf F} {w : MatOf G} (hy : RelM φ P y w) :
    SimOut M (RelM φ P) (Prog.copyBody A x i y) (Prog.copyBody B z i w) := by
  unfold Prog.copyBody
  refine SimOut.bindNat (sim_rowSize h i) ?_
  intro n
  exact sim_forRange (fun j s t hs => sim_copyRowBody hA h i j hs) n 0 _ _
    (relM_vresize_nil hy (i + 1))

theorem sim_copyMatrix (hA : ArithSim A B φ P M) {x : MatOf F} {z : MatOf G}
    (h : RelM φ P x z) :
    SimOut M (RelM φ P) (Prog.copyMatrix A x) (Prog.copyMatrix B z) := by
  unfold Prog.copyMatrix
  rw [relM_length h]
  exact sim_forRange (fun j s t hs => sim_copyBody hA h j hs) x.length 0 [] [] relM_nil

theorem sim_swapBody (a i j : Nat) {y : MatOf F} {z : MatOf G} (h : RelM φ P y z) :
    SimOut M (RelM φ P) (Prog.swapBody a i j y) (Prog.swapBody a i j z) := by
  unfold Prog.swapBody
  refine SimOut.bind (sim_rd h a j) ?_
  intro t t2 ht
  refine SimOut.bind (sim_rd h i j) ?_
  intro v v2 hv
  refine SimOut.bindMat (sim_wr h a j hv) ?_
  intro y1 z1 h1
  exact sim_wr h1 i j ht

theorem sim_pivotSearch (hA : ArithSim A B φ P M) (a : Nat) :
    ∀ (k i : Nat) (y : MatOf F) (z : MatOf G), RelM φ P y z →
      SimOut M (RelM φ P) (Prog.pivotSearch A a k i y) (Prog.pivotSearch B a k i z) := by
  intro k
  induction k with
  | zero => intro i y z h; exact SimOut.pure h
  | succ k ih =>
    intro i y z h
    unfold Prog.pivotSearch
    refine SimOut.bind (sim_rd h i a) ?_
    rintro c c2 ⟨hc, rfl⟩
    rw [hA.isZero c hc]
    split
    · refine SimOut.bindNat (sim_rowSize h i) ?_
      intro n
      exact sim_forRange (fun j s t hs => sim_swapBody a i j hs) n 0 y z h
    · exact ih (i + 1) y z h

theorem sim_pivotStep (hA : ArithSim A B φ P M) (a : Nat) {y : MatOf F} {z : MatOf G}
    (h : RelM φ P y z) :
    SimOut M (RelM φ P) (Prog.pivotStep A a y) (Prog.pivotStep B a z) := by
  unfold Prog.pivotStep
  refine SimOut.bind (sim_rd h a a) ?_
  rintro p p2 ⟨hp, rfl⟩
  rw [hA.isZero p hp, relM_length h]
  split
  · exact sim_pivotSearch hA a _ _ y z h
  · exact SimOut.pure h

theorem sim_normalizeBody (hA : ArithSim A B φ P M) (a : Nat) {t : F} {u : G}
    (ht : RelV φ P t u) (i : Nat) {y : MatOf F} {z : MatOf G} (h : RelM φ P y z) :
    SimOut M (RelM φ P) (Prog.normalizeBody A a t i y) (Prog.normalizeBody B a u i z) := by
  unfold Prog.normalizeBody
  obtain ⟨hPt, rfl⟩ := ht
  rw [hA.one.2]
  refine SimOut.bind (hA.div _ _ hA.one.1 hPt) ?_
  rintro q q2 ⟨hq, rfl⟩
  refine SimOut.bind (sim_rd h a i) ?_
  rintro v v2 ⟨hv, rfl⟩
  refine SimOut.bind (hA.mul _ _ hv hq) ?_
  rintro w w2 hw
  exact sim_wr h a i hw

theorem sim_normalizeStep (hA : ArithSim A B φ P M) (a : Nat) {y : MatOf F} {z : MatOf G}
    (h : RelM φ P y z) :
    SimOut M (RelM φ P) (Prog.normalizeStep A a y) (Prog.normalizeStep B a z) := by
  unfold Prog.normalizeStep
  refine SimOut.bind (sim_rd h a a) ?_
  intro t t2 ht
  refine SimOut.bindNat (sim_rowSize h a) ?_
  intro n
  exact sim_forRange (fun j s u hs => sim_normalizeBody hA a ht j hs) n 0 y z h

theorem sim_eliminateRowBody (hA : ArithSim A B φ P M) (a i : Nat) {t : F} {u : G}
    (ht : RelV φ P t u) (j : Nat) {y : MatOf F} {z : MatOf G} (h : RelM φ P y z) :
    SimOut M (RelM φ P) (Prog.eliminateRowBody A a i t j y)
      (Prog.eliminateRowBody B a i u j z) := by
  unfold Prog.eliminateRowBody
  obtain ⟨hPt, rfl⟩ := ht
  refine SimOut.bind (sim_rd h i j) ?_
  rintro v v2 ⟨hv, rfl⟩
  refine SimOut.bind (sim_rd h a j) ?_
  rintro w w2 ⟨hw, rfl⟩
  refine SimOut.bind (hA.mul _ _ hv hPt) ?_
  rintro p p2 ⟨hp, rfl⟩
  refine SimOut.bind (hA.add _ _ hp hw) ?_
  rintro s s2 hs
  exact sim_wr h i j hs

theorem sim_eliminateBody (hA : ArithSim A B φ P M) (a i : Nat) {y : MatOf F} {z : MatOf G}
    (h : RelM φ P y z) :
    SimOut M (RelM φ P) (Prog.eliminateBody A a i y) (Prog.eliminateBody B a i z) := by
  unfold Prog.eliminateBody
  split
  · refine SimOut.bind (sim_rd h i a) ?_
    rintro c c2 ⟨hc, rfl⟩
    rw [hA.isZero c hc]
    split
    · rw [hA.negOne.2]
      refine SimOut.bind (hA.div _ _ hA.negOne.1 hc) ?_
      intro t t2 ht
      refine SimOut.bindNat (sim_rowSize h i) ?_
      intro n
      exact sim_forRange (fun j s u hs => sim_eliminateRowBody hA a i ht j hs) n 0 y z h
    · exact SimOut.pure h
  · exact SimOut.pure h

theorem sim_eliminateStep (hA : ArithSim A B φ P M) (a : Nat) {y : MatOf F} {z : MatOf G}
    (h : RelM φ P y z) :
    SimOut M (RelM φ P) (Prog.eliminateStep A a y) (Prog.eliminateStep B a z) := by
  unfold Prog.eliminateStep
  rw [relM_length h]
  exact sim_forRange (fun j s u hs => sim_eliminateBody hA a j hs) y.length 0 y z h

theorem sim_columnStep (hA : ArithSim A B φ P M) (a : Nat) {y : MatOf F} {z : MatOf G}
    (h : RelM φ P y z) :
    SimOut M (RelM φ P) (Prog.columnStep A a y) (Prog.columnStep B a z) := by
  unfold Prog.columnStep
  refine SimOut.bindMat (sim_pivotStep hA a h) ?_
  intro y1 z1 h1
  refine SimOut.bindMat (sim_normalizeStep hA a h1) ?_
  intro y2 z2 h2
  exact sim_eliminateStep hA a h2

theorem sim_mainLoop (hA : ArithSim A B φ P M) :
    ∀ (k a : Nat) (y : MatOf F) (z : MatOf G), RelM φ P y z →
      SimOut M (RelMN φ P) (Prog.mainLoop A k a y) (Prog.mainLoop B k a z) := by
  intro k
  induction k with
  | zero => intro a y z h; exact SimOut.pure ⟨h, rfl⟩
  | succ k ih =>
    intro a y z h
    unfold Prog.mainLoop
    refine SimOut.bindBool (sim_rowCanonicalForm hA h) (SimOut.pure ⟨h, rfl⟩) ?_
    refine SimOut.bindMat (sim_columnStep hA a h) ?_
    intro y1 z1 h1
    exact ih (a + 1) y1 z1 h1

theorem sim_finalBody (hA : ArithSim A B φ P M) (i : Nat) {t : F} {u : G}
    (ht : RelV φ P t u) (j : Nat) {y : MatOf F} {z : MatOf G} (h : RelM φ P y z) :
    SimOut M (RelM φ P) (Prog.finalBody A i t j y) (Prog.finalBody B i u j z) := by
  unfold Prog.finalBody
  obtain ⟨hPt, rfl⟩ := ht
  refine SimOut.bind (sim_rd h i j) ?_
  rintro v v2 ⟨hv, rfl⟩
  refine SimOut.bind (hA.mul _ _ hv hPt) ?_
  rintro w w2 hw
  exact sim_wr h i j hw

theorem sim_finalStep (hA : ArithSim A B φ P M) (i : Nat) {y : MatOf F} {z : MatOf G}
    (h : RelM φ P y z) :
    SimOut M (RelM φ P) (Prog.finalStep A i y) (Prog.finalStep B i z) := by
  unfold Prog.finalStep
  refine SimOut.bind (sim_rd h i i) ?_
  rintro d d2 ⟨hd, rfl⟩
  rw [hA.one.2]
  refine SimOut.bind (hA.div _ _ hA.one.1 hd) ?_
  intro t t2 ht
  refine SimOut.bindNat (sim_rowSize h i) ?_
  intro n
  exact sim_forRange (fun j s u hs => sim_finalBody hA i ht j hs) n 0 y z h

theorem sim_finalLoop (hA : ArithSim A B φ P M) :
    ∀ (k i : Nat) (y : MatOf F) (z : MatOf G), RelM φ P y z →
      SimOut M (RelMN φ P) (Prog.finalLoop A k i y) (Prog.finalLoop B k i z) := by
  intro k
  induction k with
  | zero => intro i y z h; exact SimOut.pure ⟨h, rfl⟩
  | succ k ih =>
    intro i y z h
    unfold Prog.finalLoop
    refine SimOut.bindBool (sim_rowCanonicalForm hA h) (SimOut.pure ⟨h, rfl⟩) ?_
    refine SimOut.bindMat (sim_finalStep hA i h) ?_
    intro y1 z1 h1
    exact ih (i + 1) y1 z1 h1

theorem SimOut.bindPair {F G γ δ : Type} {φ : F → G} {P : F → Prop} {M : Prop}
    {S : γ → δ → Prop} {o : Out (MatOf F × Nat)} {o2 : Out (MatOf G × Nat)}
    {f : MatOf F → Out γ} {g : MatOf G → Out δ} :
    SimOut M (RelMN φ P) o o2 → (∀ y z, RelM φ P y z → SimOut M S (f y) (g z)) →
    SimOut M S
      (match o with | .error e => .error e | .ok (y1, _) => f y1)
      (match o2 with | .error e => .error e | .ok (y1, _) => g y1) := by
  intro h hf
  cases o with
  | ok a =>
    obtain ⟨b, hb, hr⟩ := h
    rw [hb]
    exact hf a.1 b.1 hr.1
  | error e =>
    cases e with
    | inexact => trivial
    | zeroDivisor =>
      intro hm
      have he2 := h hm
      subst he2
      rfl
    | outOfRange =>
      have he2 := h
      subst he2
      rfl

theorem sim_gaussJordanElimination (hA : ArithSim A B φ P M) {x : MatOf F} {z : MatOf G}
    (h : RelM φ P x z) :
    SimOut M (RelM φ P) (Prog.gaussJordanElimination A x)
      (Prog.gaussJordanElimination B z) := by
  unfold Prog.gaussJordanElimination
  refine SimOut.bindMat (sim_copyMatrix hA h) ?_
  intro y w hy
  rw [relM_length hy]
  refine SimOut.bindPair (sim_mainLoop hA y.length 0 y w hy) ?_
  intro y1 w1 h1
  rw [relM_length h1]
  refine SimOut.bindPair (sim_finalLoop hA y1.length 0 y1 w1 h1) ?_
  intro y2 w2 h2
  exact SimOut.pure h2

end Sim

/-! ## The exact rational arithmetic and the reference functions -/

theorem corr_rd (y : Mat) (i j : Nat) :
    Prog.rd y i j = Except.mapError toStop (rd y i j) := by
  unfold Prog.rd rd
  cases y[i]? with
  | none => rfl
  | some r =>
    dsimp only
    cases r[j]? <;> rfl

theorem corr_wr (y : Mat) (i j : Nat) (v : ℚ) :
    Prog.wr y i j v = Except.mapError toStop (wr y i j v) := by
  unfold Prog.wr wr
  cases y[i]? with
  | none => rfl
  | some r => by_cases h : j < r.length <;> simp [h, Except.mapError, toStop]

theorem corr_rowSize (y : Mat) (i : Nat) :
    Prog.rowSize y i = Except.mapError toStop (rowSize y i) := by
  unfold Prog.rowSize rowSize
  cases y[i]? <;> rfl

theorem corr_forRange {σ : Type} {b1 : Nat → σ → Out σ} {b2 : Nat → σ → Run σ}
    (hb : ∀ j s, b1 j s = Except.mapError toStop (b2 j s)) :
    ∀ (k j : Nat) (s : σ),
      Prog.forRange b1 k j s = Except.mapError toStop (forRange b2 k j s) := by
  intro k
  induction k with
  | zero => intro j s; rfl
  | succ k ih =>
    intro j s
    unfold Prog.forRange forRange
    rw [hb j s]
    cases b2 j s with
    | error e => rfl
    | ok s1 => exact ih (j + 1) s1

theorem corr_shapeLoop (x : Mat) :
    ∀ (k i : Nat), Prog.shapeLoop x k i = Except.mapError toStop (shapeLoop x k i) := by
  intro k
  induction k with
  | zero => intro i; rfl
  | succ k ih =>
    intro i
    unfold Prog.shapeLoop shapeLoop
    rw [corr_rowSize]
    cases rowSize x i with
    | error e => rfl
    | ok n =>
      simp only [Except.mapError]
      split
      · rfl
      · split
        · rfl
        · exact ih (i + 1)

theorem corr_entryRowLoop (x : Mat) (i : Nat) :
    ∀ (k j : Nat),
      Prog.entryRowLoop exactQ x i k j = Except.mapError toStop (entryRowLoop x i k j) := by
  intro k
  induction k with
  | zero => intro j; rfl
  | succ k ih =>
    intro j
    unfold Prog.entryRowLoop entryRowLoop
    rw [corr_rd]
    cases rd x i j with
    | error e => rfl
    | ok v =>
      simp only [Except.mapError, exactQ, decide_eq_false_iff_not]
      split
      · split
        · rfl
        · exact ih (j + 1)
      · split
        · rfl
        · exact ih (j + 1)

theorem corr_entryLoop (x : Mat) :
    ∀ (k i : Nat), Prog.entryLoop exactQ x k i = Except.mapError toStop (entryLoop x k i) := by
  intro k
  induction k with
  | zero => intro i; rfl
  | succ k ih =>
    intro i
    unfold Prog.entryLoop entryLoop
    rw [corr_rowSize]
    cases rowSize x i with
    | error e => rfl
    | ok n =>
      simp only [Except.mapError]
      rw [corr_entryRowLoop]
      cases entryRowLoop x i (sizePred n) 0 with
      | error e => rfl
      | ok b =>
        cases b
        · rfl
        · exact ih (i + 1)

theorem corr_rowCanonicalForm (x : Mat) :
    Prog.rowCanonicalForm exactQ x = Except.mapError toStop (rowCanonicalForm x) := by
  unfold Prog.rowCanonicalForm rowCanonicalForm
  rw [corr_shapeLoop]
  cases shapeLoop x x.length 0 with
  | error e => rfl
  | ok b =>
    cases b
    · rfl
    · exact corr_entryLoop x x.length 0

theorem corr_resizeRow (y : Mat) (i n : Nat) :
    Prog.resizeRow exactQ y i n = Except.mapError toStop (resizeRow y i n) := by
  unfold Prog.resizeRow resizeRow
  cases y[i]? <;> rfl

theorem corr_copyRowBody (x : Mat) (i j : Nat) (y : Mat) :
    Prog.copyRowBody exactQ x i j y = Except.mapError toStop (copyRowBody x i j y) := by
  unfold Prog.copyRowBody copyRowBody
  rw [corr_resizeRow]
  cases resizeRow y i (j + 1) with
  | error e => rfl
  | ok y1 =>
    simp only [Except.mapError]
    rw [corr_rd]
    cases rd x i j with
    | error e => rfl
    | ok v => exact corr_wr y1 i j v

theorem corr_copyBody (x : Mat) (i : Nat) (y : Mat) :
    Prog.copyBody exactQ x i y = Except.mapError toStop (copyBody x i y) := by
  unfold Prog.copyBody copyBody
  rw [corr_rowSize]
  cases rowSize x i with
  | error e => rfl
  | ok n => exact corr_forRange (corr_copyRowBody x i) n 0 _

theorem corr_copyMatrix (x : Mat) :
    Prog.copyMatrix exactQ x = Except.mapError toStop (copyMatrix x) :=
  corr_forRange (corr_copyBody x) x.length 0 []

theorem corr_swapBody (a i j : Nat) (y : Mat) :
    Prog.swapBody a i j y = Except.mapError toStop (swapBody a i j y) := by
  unfold Prog.swapBody swapBody
  rw [corr_rd, corr_rd]
  cases rd y a j with
  | error e => rfl
  | ok t =>
    simp only [Except.mapError]
    cases rd y i j with
    | error e => rfl
    | ok v =>
      simp only
      rw [corr_wr]
      cases wr y a j v with
      | error e => rfl
      | ok y1 => exact corr_wr y1 i j t

theorem corr_pivotSearch (a : Nat) :
    ∀ (k i : Nat) (y : Mat),
      Prog.pivotSearch exactQ a k i y = Except.mapError toStop (pivotSearch a k i y) := by
  intro k
  induction k with
  | zero => intro i y; rfl
  | succ k ih =>
    intro i y
    unfold Prog.pivotSearch pivotSearch
    rw [corr_rd]
    cases rd y i a with
    | error e => rfl
    | ok c =>
      simp only [Except.mapError, exactQ, decide_eq_false_iff_not]
      split
      · rw [corr_rowSize]
        cases rowSize y i with
        | error e => rfl
        | ok n => exact corr_forRange (corr_swapBody a i) n 0 y
      · exact ih (i + 1) y

theorem corr_pivotStep (a : Nat) (y : Mat) :
    Prog.pivotStep exactQ a y = Except.mapError toStop (pivotStep a y) := by
  unfold Prog.pivotStep pivotStep
  rw [corr_rd]
  cases rd y a a with
  | error e => rfl
  | ok p =>
    simp only [Except.mapError, exactQ, decide_eq_true_eq]
    split
    · exact corr_pivotSearch a _ _ y
    · rfl

theorem corr_normalizeBody (a : Nat) (t : ℚ) (i : Nat) (y : Mat) :
    Prog.normalizeBody exactQ a t i y = Except.mapError toStop (normalizeBody a t i y) := by
  unfold Prog.normalizeBody normalizeBody
  by_cases ht : t = 0
  · simp [exactQ, gdiv, ht, Except.mapError, toStop]
  · simp only [exactQ, gdiv, ht, if_false]
    rw [corr_rd]
    cases rd y a i with
    | error e => rfl
    | ok v => exact corr_wr y a i _

theorem corr_normalizeStep (a : Nat) (y : Mat) :
    Prog.normalizeStep exactQ a y = Except.mapError toStop (normalizeStep a y) := by
  unfold Prog.normalizeStep normalizeStep
  rw [corr_rd]
  cases rd y a a with
  | error e => rfl
  | ok t =>
    simp only [Except.mapError]
    rw [corr_rowSize]
    cases rowSize y a with
    | error e => rfl
    | ok n => exact corr_forRange (corr_normalizeBody a t) n 0 y

theorem corr_eliminateRowBody (a i : Nat) (t : ℚ) (j : Nat) (y : Mat) :
    Prog.eliminateRowBody exactQ a i t j y
      = Except.mapError toStop (eliminateRowBody a i t j y) := by
  unfold Prog.eliminateRowBody eliminateRowBody
  rw [corr_rd, corr_rd]
  cases rd y i j with
  | error e => rfl
  | ok u =>
    simp only [Except.mapError]
    cases rd y a j with
    | error e => rfl
    | ok v => exact corr_wr y i j _

theorem corr_eliminateBody (a i : Nat) (y : Mat) :
    Prog.eliminateBody exactQ a i y = Except.mapError toStop (eliminateBody a i y) := by
  unfold Prog.eliminateBody eliminateBody
  split
  · rw [corr_rd]
    cases rd y i a with
    | error e => rfl
    | ok c =>
      simp only [Except.mapError, exactQ, decide_eq_false_iff_not]
      by_cases hc : c = 0
      · simp [hc, Except.mapError]
      · simp only [hc, not_false_eq_true, if_true, gdiv, if_false, ne_eq]
        rw [corr_rowSize]
        cases rowSize y i with
        | error e => rfl
        | ok n => exact corr_forRange (corr_eliminateRowBody a i _) n 0 y
  · rfl

theorem corr_eliminateStep (a : Nat) (y : Mat) :
    Prog.eliminateStep exactQ a y = Except.mapError toStop (eliminateStep a y) :=
  corr_forRange (corr_eliminateBody a) y.length 0 y

theorem corr_columnStep (a : Nat) (y : Mat) :
    Prog.columnStep exactQ a y = Except.mapError toStop (columnStep a y) := by
  unfold Prog.columnStep columnStep
  rw [corr_pivotStep]
  cases pivotStep a y with
  | error e => rfl
  | ok y1 =>
    simp only [Except.mapError]
    rw [corr_normalizeStep]
    cases normalizeStep a y1 with
    | error e => rfl
    | ok y2 => exact corr_eliminateStep a y2

theorem corr_mainLoop :
    ∀ (k a : Nat) (y : Mat),
      Prog.mainLoop exactQ k a y = Except.mapError toStop (mainLoop k a y) := by
  intro k
  induction k with
  | zero => intro a y; rfl
  | succ k ih =>
    intro a y
    unfold Prog.mainLoop mainLoop
    rw [corr_rowCanonicalForm]
    cases rowCanonicalForm y with
    | error e => rfl
    | ok b =>
      cases b
      · simp only [Except.mapError]
        rw [corr_columnStep]
        cases columnStep a y with
        | error e => rfl
        | ok y1 => exact ih (a + 1) y1
      · rfl

theorem corr_finalBody (i : Nat) (t : ℚ) (j : Nat) (y : Mat) :
    Prog.finalBody exactQ i t j y = Except.mapError toStop (finalBody i t j y) := by
  unfold Prog.finalBody finalBody
  rw [corr_rd]
  cases rd y i j with
  | error e => rfl
  | ok v => exact corr_wr y i j _

theorem corr_finalStep (i : Nat) (y : Mat) :
    Prog.finalStep exactQ i y = Except.mapError toStop (finalStep i y) := by
  unfold Prog.finalStep finalStep
  rw [corr_rd]
  cases rd y i i with
  | error e => rfl
  | ok d =>
    simp only [Except.mapError]
    by_cases hd : d = 0
    · simp [exactQ, gdiv, hd, Except.mapError, toStop]
    · simp only [exactQ, gdiv, hd, if_false]
      rw [corr_rowSize]
      cases rowSize y i with
      | error e => rfl
      | ok n => exact corr_forRange (corr_finalBody i _) n 0 y

theorem corr_finalLoop :
    ∀ (k i : Nat) (y : Mat),
      Prog.finalLoop exactQ k i y = Except.mapError toStop (finalLoop k i y) := by
  intro k
  induction k with
  | zero => intro i y; rfl
  | succ k ih =>
    intro i y
    unfold Prog.finalLoop finalLoop
    rw [corr_rowCanonicalForm]
    cases rowCanonicalForm y with
    | error e => rfl
    | ok b =>
      cases b
      · simp only [Except.mapError]
        rw [corr_finalStep]
        cases finalStep i y with
        | error e => rfl
        | ok y1 => exact ih (i + 1) y1
      · rfl

theorem corr_gaussJordanElimination (x : Mat) :
    Prog.gaussJordanElimination exactQ x
      = Except.mapError toStop (gaussJordanElimination x) := by
  unfold Prog.gaussJordanElimination gaussJordanElimination
  rw [corr_copyMatrix]
  cases copyMatrix x with
  | error e => rfl
  | ok y =>
    simp only [Except.mapError]
    rw [corr_mainLoop]
    cases mainLoop y.length 0 y with
    | error e => rfl
    | ok p =>
      obtain ⟨y1, a1⟩ := p
      simp only [Except.mapError]
      rw [corr_finalLoop]
      cases finalLoop y1.length 0 y1 with
      | error e => rfl
      | ok q => rfl

/-! ## Known values of the binary64 operations -/

/-- Known values of the binary64 operations: `1 / 3`, `0.1 + 0.2`, `49 * (1 / 49)`, the
divisions by zero, the invalid operations, overflow, and underflow with a tie. -/
theorem binary64_known_values :
    F64.div (.fin false 1) (.fin false 3)
      = .fin false (6004799503160661 / 18014398509481984) ∧
    F64.ofRat (1 / 10) = .fin false (3602879701896397 / 36028797018963968) ∧
    F64.add (F64.ofRat (1 / 10)) (F64.ofRat (2 / 10))
      = .fin false (1351079888211149 / 4503599627370496) ∧
    F64.ofRat (3 / 10) = .fin false (5404319552844595 / 18014398509481984) ∧
    F64.mul (.fin false 49) (F64.div (.fin false 1) (.fin false 49))
      = .fin false (9007199254740991 / 9007199254740992) ∧
    F64.div (.fin false 1) (.fin false 0) = .inf false ∧
    F64.div (.fin false 1) (.fin true 0) = .inf true ∧
    F64.div (.fin false 0) (.fin false 0) = .nan ∧
    F64.mul (.inf false) (.fin false 0) = .nan ∧
    F64.add (.inf false) (.inf true) = .nan ∧
    F64.add (.fin true 0) (.fin false 0) = .fin false 0 ∧
    F64.add (.fin true 0) (.fin true 0) = .fin true 0 ∧
    F64.mul (F64.ofRat (10 ^ 308)) (.fin false 10) = .inf false ∧
    F64.div (.fin false (F64.pow2 (-1074))) (.fin false 2) = .fin false 0 ∧
    F64.mul (.fin false (F64.pow2 (-1074))) (.fin false (3 / 2))
      = .fin false (F64.pow2 (-1073)) ∧
    F64.isZero .nan = false ∧ F64.isOne .nan = false ∧ F64.isZero (.fin true 0) = true := by
  refine ⟨by decide!, by decide!, by decide!, by decide!, by decide!, by decide!, by decide!,
    by decide!, by decide!, by decide!, by decide!, by decide!, by decide!, by decide!,
    by decide!, by decide!, by decide!, by decide!⟩

/-! ## The arithmetics on doubles and the exact one -/

theorem isZero_val {v : F64} (h : v.isFinite = true) : decide (v.val = 0) = v.isZero := by
  cases v with
  | fin neg mag => cases neg <;> simp [F64.val, F64.isZero]
  | inf s => simp [F64.isFinite] at h
  | nan => simp [F64.isFinite] at h

theorem isOne_val {v : F64} (h : v.isFinite = true) : decide (v.val = 1) = v.isOne := by
  cases v with
  | fin neg mag => simp [F64.val, F64.isOne]
  | inf s => simp [F64.isFinite] at h
  | nan => simp [F64.isFinite] at h

theorem val_eq_zero {v : F64} (h : v.isFinite = true) : v.val = 0 ↔ v.isZero = true := by
  rw [← isZero_val h]; simp

theorem simOut_exactOr {β : Type} {M : Prop} {R : F64 → β → Prop} (c : F64) (x : ℚ)
    (o2 : Out β) (h : c.isFinite = true → c.val = x → ∃ b, o2 = .ok b ∧ R c b) :
    SimOut M R (exactOr c x) o2 := by
  unfold exactOr
  by_cases hc : c.isFinite = true ∧ c.val = x
  · rw [if_pos hc]; exact h hc.1 hc.2
  · rw [if_neg hc]; trivial

/-- A run of `ieee` returns what the checked run returns. -/
theorem checked_ieee : ArithSim checked ieee id (fun _ => True) False where
  zero := ⟨trivial, rfl⟩
  one := ⟨trivial, rfl⟩
  negOne := ⟨trivial, rfl⟩
  mul := by
    intro a b _ _
    show SimOut False _ (if a.isFinite = true ∧ b.isFinite = true then
      exactOr (F64.mul a b) (a.val * b.val) else .error .inexact) (.ok (F64.mul a b))
    split_ifs
    · exact simOut_exactOr _ _ _ (fun _ _ => ⟨_, rfl, trivial, rfl⟩)
    · trivial
  add := by
    intro a b _ _
    show SimOut False _ (if a.isFinite = true ∧ b.isFinite = true then
      exactOr (F64.add a b) (a.val + b.val) else .error .inexact) (.ok (F64.add a b))
    split_ifs
    · exact simOut_exactOr _ _ _ (fun _ _ => ⟨_, rfl, trivial, rfl⟩)
    · trivial
  div := by
    intro a b _ _
    show SimOut False _ (if a.isFinite = true ∧ b.isFinite = true then
      (if b.isZero = true then .error .zeroDivisor
        else exactOr (F64.div a b) (a.val / b.val)) else .error .inexact)
      (.ok (F64.div a b))
    split_ifs
    · exact fun h => h.elim
    · exact simOut_exactOr _ _ _ (fun _ _ => ⟨_, rfl, trivial, rfl⟩)
    · trivial
  isZero := fun _ _ => rfl
  isOne := fun _ _ => rfl

/-- A run of `guarded` returns what the checked run returns, and divides by zero where the
checked run does. -/
theorem checked_guarded : ArithSim checked guarded id (fun _ => True) True where
  zero := ⟨trivial, rfl⟩
  one := ⟨trivial, rfl⟩
  negOne := ⟨trivial, rfl⟩
  mul := by
    intro a b _ _
    show SimOut True _ (if a.isFinite = true ∧ b.isFinite = true then
      exactOr (F64.mul a b) (a.val * b.val) else .error .inexact) (.ok (F64.mul a b))
    split_ifs
    · exact simOut_exactOr _ _ _ (fun _ _ => ⟨_, rfl, trivial, rfl⟩)
    · trivial
  add := by
    intro a b _ _
    show SimOut True _ (if a.isFinite = true ∧ b.isFinite = true then
      exactOr (F64.add a b) (a.val + b.val) else .error .inexact) (.ok (F64.add a b))
    split_ifs
    · exact simOut_exactOr _ _ _ (fun _ _ => ⟨_, rfl, trivial, rfl⟩)
    · trivial
  div := by
    intro a b _ _
    show SimOut True _ (if a.isFinite = true ∧ b.isFinite = true then
      (if b.isZero = true then .error .zeroDivisor
        else exactOr (F64.div a b) (a.val / b.val)) else .error .inexact)
      (if (id b).isZero = true then .error .zeroDivisor else .ok (F64.div (id a) (id b)))
    by_cases h1 : a.isFinite = true ∧ b.isFinite = true
    · rw [if_pos h1]
      by_cases h2 : b.isZero = true
      · rw [if_pos h2, if_pos (show (id b).isZero = true from h2)]
        exact fun _ => rfl
      · rw [if_neg h2, if_neg (show ¬ (id b).isZero = true from h2)]
        exact simOut_exactOr _ _ _ (fun _ _ => ⟨_, rfl, trivial, rfl⟩)
    · rw [if_neg h1]; trivial
  isZero := fun _ _ => rfl
  isOne := fun _ _ => rfl

/-- A run in exact rational arithmetic on the values returns the values of what the checked
run returns, and divides by zero where the checked run does. -/
theorem checked_exactQ :
    ArithSim checked exactQ F64.val (fun v => v.isFinite = true) True where
  zero := ⟨rfl, by simp [exactQ, checked, F64.val]⟩
  one := ⟨rfl, by simp [exactQ, checked, F64.val]⟩
  negOne := ⟨rfl, by simp [exactQ, checked, F64.val]⟩
  mul := by
    intro a b ha hb
    show SimOut True _ (if a.isFinite = true ∧ b.isFinite = true then
      exactOr (F64.mul a b) (a.val * b.val) else .error .inexact) (.ok (a.val * b.val))
    rw [if_pos ⟨ha, hb⟩]
    exact simOut_exactOr _ _ _ (fun hc hv => ⟨_, rfl, hc, hv.symm⟩)
  add := by
    intro a b ha hb
    show SimOut True _ (if a.isFinite = true ∧ b.isFinite = true then
      exactOr (F64.add a b) (a.val + b.val) else .error .inexact) (.ok (a.val + b.val))
    rw [if_pos ⟨ha, hb⟩]
    exact simOut_exactOr _ _ _ (fun hc hv => ⟨_, rfl, hc, hv.symm⟩)
  div := by
    intro a b ha hb
    show SimOut True _ (if a.isFinite = true ∧ b.isFinite = true then
      (if b.isZero = true then .error .zeroDivisor
        else exactOr (F64.div a b) (a.val / b.val)) else .error .inexact)
      (if b.val = 0 then .error .zeroDivisor else .ok (a.val / b.val))
    rw [if_pos ⟨ha, hb⟩]
    by_cases hz : b.isZero = true
    · rw [if_pos hz, if_pos ((val_eq_zero hb).mpr hz)]
      exact fun _ => rfl
    · rw [if_neg hz, if_neg (fun h => hz ((val_eq_zero hb).mp h))]
      exact simOut_exactOr _ _ _ (fun hc hv => ⟨_, rfl, hc, hv.symm⟩)
  isZero := fun a ha => isZero_val ha
  isOne := fun a ha => isOne_val ha

/-! ## What a checked run says about the other runs -/

theorem simOut_ok {α β : Type} {M : Prop} {R : α → β → Prop} {o : Out α} {o2 : Out β}
    {a : α} (h : SimOut M R o o2) (ho : o = .ok a) : ∃ b, o2 = .ok b ∧ R a b := by
  subst ho; exact h

theorem simOut_outOfRange {α β : Type} {M : Prop} {R : α → β → Prop} {o : Out α}
    {o2 : Out β} (h : SimOut M R o o2) (ho : o = .error .outOfRange) :
    o2 = .error .outOfRange := by
  subst ho; exact h

theorem simOut_zeroDivisor {α β : Type} {R : α → β → Prop} {o : Out α}
    {o2 : Out β} (h : SimOut True R o o2) (ho : o = .error .zeroDivisor) :
    o2 = .error .zeroDivisor := by
  subst ho; exact h trivial

theorem relM_same {y z : MatOf F64} (h : RelM id (fun _ => True) y z) : z = y := by
  obtain ⟨_, rfl⟩ := h
  simp

theorem relM_same_refl (y : MatOf F64) : RelM id (fun _ => True) y y :=
  ⟨fun _ _ _ _ => trivial, by simp⟩

theorem relM_valM {y : MatOf F64} (h : AllFinite y) :
    RelM F64.val (fun v => v.isFinite = true) y (valM y) := ⟨h, rfl⟩

theorem relM_valM_inv {y : MatOf F64} {z : Mat}
    (h : RelM F64.val (fun v => v.isFinite = true) y z) : AllFinite y ∧ z = valM y :=
  ⟨h.1, h.2⟩

theorem mapError_ok {α : Type} {x : Run α} {w : α}
    (h : Except.mapError toStop x = .ok w) : x = .ok w := by
  cases x with
  | error e => simp [Except.mapError] at h
  | ok v => simpa [Except.mapError] using h

theorem mapError_stop {α : Type} {x : Run α} {e : Stop}
    (h : Except.mapError toStop x = .error e) : ∃ f, x = .error f := by
  cases x with
  | error f => exact ⟨f, rfl⟩
  | ok v => simp [Except.mapError] at h

/-! ## Values of a matrix of finite doubles -/

theorem isShape_valM {N : Nat} {m : MatOf F64} : IsShape N (valM m) ↔ Prog.IsShape N m := by
  unfold IsShape Prog.IsShape valM
  simp

theorem entry_valM (m : MatOf F64) (i j : Nat) :
    entry (valM m) i j = F64.val (entryD m i j) := by
  unfold entry entryD Prog.entry valM
  simp only [List.getD_eq_getElem?_getD, List.getElem?_map]
  cases m[i]? with
  | none => simp [F64.val]
  | some r =>
    simp only [Option.map_some', Option.getD_some, List.getElem?_map]
    cases r[j]? with
    | none => simp [F64.val]
    | some v => simp

theorem entryD_finite {m : MatOf F64} (hf : AllFinite m) (i j : Nat) :
    (entryD m i j).isFinite = true := by
  unfold entryD Prog.entry
  simp only [List.getD_eq_getElem?_getD]
  cases hr : m[i]? with
  | none => simp [F64.isFinite]
  | some r =>
    simp only [Option.getD_some]
    cases hv : r[j]? with
    | none => simp [F64.isFinite]
    | some v =>
      simp only [Option.getD_some]
      exact hf r (List.getElem?_mem hr) v (List.getElem?_mem hv)

theorem lastOf_valM (r : List F64) :
    lastOf (r.map F64.val) = F64.val (Prog.lastOf (.fin false 0) r) := by
  unfold lastOf Prog.lastOf
  rw [List.getLast?_map]
  cases r.getLast? with
  | none => simp [F64.val]
  | some v => simp

theorem map_lastOf_valM (r : MatOf F64) :
    (valM r).map lastOf = (r.map (Prog.lastOf (.fin false 0))).map F64.val := by
  unfold valM
  simp only [List.map_map]
  apply List.map_congr_left
  intro a _
  exact lastOf_valM a

theorem rowsD_nonempty {N : Nat} {y : MatOf F64} (hs : Prog.IsShape N y) :
    ∀ r ∈ y, r ≠ [] := by
  intro r hr h
  have := hs.2 r hr
  rw [h] at this
  simp at this

/-! ## What a checked run says about the run of the program -/

theorem same_of_checked_mat {M : Prop} {o o2 : Out (MatOf F64)} {r : MatOf F64}
    (h : SimOut M (RelM id (fun _ => True)) o o2) (ho : o = .ok r) : o2 = .ok r := by
  obtain ⟨b, hb, hrel⟩ := simOut_ok h ho
  rw [hb, relM_same hrel]

theorem same_of_checked_state {M : Prop} {o o2 : Out (MatOf F64 × Nat)} {y : MatOf F64}
    {a : Nat} (h : SimOut M (RelMN id (fun _ => True)) o o2) (ho : o = .ok (y, a)) :
    o2 = .ok (y, a) := by
  obtain ⟨⟨z, b⟩, hb, hrel, hn⟩ := simOut_ok h ho
  have hz : z = y := relM_same hrel
  have hn2 : b = a := hn
  rw [hb, hz, hn2]

theorem same_of_checked_bool {M : Prop} {o o2 : Out Bool} {b : Bool}
    (h : SimOut M (fun (b c : Bool) => c = b) o o2) (ho : o = .ok b) : o2 = .ok b := by
  obtain ⟨c, hc, hrel⟩ := simOut_ok h ho
  rw [hc, hrel]

/-- What the checked reduction returns, the program returns, without a division by
zero. -/
theorem gaussJordan_of_checked {m r : MatOf F64}
    (h : Prog.gaussJordanElimination checked m = .ok r) :
    Prog.gaussJordanElimination ieee m = .ok r ∧
      Prog.gaussJordanElimination guarded m = .ok r :=
  ⟨same_of_checked_mat (sim_gaussJordanElimination checked_ieee (relM_same_refl m)) h,
    same_of_checked_mat (sim_gaussJordanElimination checked_guarded (relM_same_refl m)) h⟩

/-- What the checked main loop returns, the main loop of the program returns. -/
theorem mainLoop_of_checked {k a : Nat} {y y1 : MatOf F64} {a1 : Nat}
    (h : Prog.mainLoop checked k a y = .ok (y1, a1)) :
    Prog.mainLoop ieee k a y = .ok (y1, a1) :=
  same_of_checked_state (sim_mainLoop checked_ieee k a y y (relM_same_refl y)) h

/-- What the checked final pass returns, the final pass of the program returns. -/
theorem finalLoop_of_checked {k i : Nat} {y y1 : MatOf F64} {i1 : Nat}
    (h : Prog.finalLoop checked k i y = .ok (y1, i1)) :
    Prog.finalLoop ieee k i y = .ok (y1, i1) :=
  same_of_checked_state (sim_finalLoop checked_ieee k i y y (relM_same_refl y)) h

/-- The predicate compares entries only: it returns the same in the checked arithmetic and
in the arithmetic of the program. -/
theorem rowCanonicalForm_checked (y : MatOf F64) :
    Prog.rowCanonicalForm checked y = Prog.rowCanonicalForm ieee y := by
  obtain ⟨b, hb, _⟩ := Prog.rowCanonicalForm_returns checked y
  rw [hb, same_of_checked_bool (sim_rowCanonicalForm checked_ieee (relM_same_refl y)) hb]

/-- On finite doubles the predicate returns what it returns on their values. -/
theorem rowCanonicalForm_valM {y : MatOf F64} (hf : AllFinite y) :
    Except.mapError toStop (rowCanonicalForm (valM y)) = Prog.rowCanonicalForm ieee y := by
  obtain ⟨b, hb, _⟩ := Prog.rowCanonicalForm_returns checked y
  have h := same_of_checked_bool
    (sim_rowCanonicalForm checked_exactQ (relM_valM hf)) hb
  rw [← corr_rowCanonicalForm, h, ← rowCanonicalForm_checked, hb]

theorem rowCanonicalForm_valM_iff {y : MatOf F64} (hf : AllFinite y) (b : Bool) :
    rowCanonicalForm (valM y) = .ok b ↔ Prog.rowCanonicalForm ieee y = .ok b := by
  rw [← rowCanonicalForm_valM hf]
  constructor
  · intro h; rw [h]; rfl
  · intro h; exact mapError_ok h

/-! ## Runs without rounding -/

theorem gaussJordan_stop_main {F : Type} (A : Arith F) {N : Nat} {m : MatOf F}
    (hs : m.length = N) {e : Stop} (h : Prog.mainLoop A N 0 m = .error e) :
    Prog.gaussJordanElimination A m = .error e := by
  simp [Prog.gaussJordanElimination, Prog.copyMatrix_returns, hs, h]

theorem gaussJordan_stop_final {F : Type} (A : Arith F) {N : Nat} {m y : MatOf F} {a : Nat}
    (hs : m.length = N) (hy : y.length = N) {e : Stop}
    (h : Prog.mainLoop A N 0 m = .ok (y, a)) (h2 : Prog.finalLoop A N 0 y = .error e) :
    Prog.gaussJordanElimination A m = .error e := by
  simp [Prog.gaussJordanElimination, Prog.copyMatrix_returns, hs, h, hy, h2]

theorem gaussJordan_ok {F : Type} (A : Arith F) {N : Nat} {m y r : MatOf F} {a i : Nat}
    (hs : m.length = N) (hy : y.length = N)
    (h : Prog.mainLoop A N 0 m = .ok (y, a)) (h2 : Prog.finalLoop A N 0 y = .ok (r, i)) :
    Prog.gaussJordanElimination A m = .ok r := by
  simp [Prog.gaussJordanElimination, Prog.copyMatrix_returns, hs, h, hy, h2]

/-- On a non-singular matrix of finite doubles whose reduction rounds nowhere, the checked
run returns, and its main loop and final pass return the doubles whose values the loops
of the exact reference run return. -/
theorem exact_run {N : Nat} {m : MatOf F64} (hs : Prog.IsShape N m) (hf : AllFinite m)
    (hns : NonSingular N (valM m)) (hx : RunsExactly m) :
    ∃ y a r i,
      Prog.mainLoop checked N 0 m = .ok (y, a) ∧
      Prog.finalLoop checked N 0 y = .ok (r, i) ∧
      Prog.gaussJordanElimination checked m = .ok r ∧
      AllFinite y ∧ AllFinite r ∧ a ≤ N ∧
      mainLoop N 0 (valM m) = .ok (valM y, a) ∧
      finalLoop N 0 (valM y) = .ok (valM r, i) ∧
      FinalInv N (valM m) 0 (valM y) ∧ IsShape N (valM r) ∧ IsIdentityPart N (valM r) ∧
      SameNull N (valM r) (valM m) := by
  have hsv : IsShape N (valM m) := isShape_valM.mpr hs
  obtain ⟨yo, ao, h1o, _, hao, hinv, hend⟩ :=
    mainLoop_spec hns N 0 (valM m) (by omega) (mainInv_init hsv)
  have hfin := finalInv_of_mainLoop hinv hend
  obtain ⟨ro, io, h2o, hr1, hr2, hr3⟩ := finalLoop_spec N 0 yo (by omega) hfin
  have hsim1 := sim_mainLoop checked_exactQ N 0 m (valM m) (relM_valM hf)
  rw [corr_mainLoop, h1o] at hsim1
  cases hc : Prog.mainLoop checked N 0 m with
  | error e =>
    cases e with
    | outOfRange => exact absurd (simOut_outOfRange hsim1 hc) (by simp [Except.mapError])
    | zeroDivisor => exact absurd (simOut_zeroDivisor hsim1 hc) (by simp [Except.mapError])
    | inexact => exact absurd (gaussJordan_stop_main checked hs.1 hc) hx
  | ok p =>
    obtain ⟨y, a⟩ := p
    obtain ⟨⟨z, b⟩, hb, hrel, hn⟩ := simOut_ok hsim1 hc
    have hrel1 : RelM F64.val (fun v => v.isFinite = true) y z := hrel
    have hn1 : b = a := hn
    have hb2 : (yo, ao) = (z, b) := by
      simpa [Except.mapError] using hb
    injection hb2 with hb3 hb4
    obtain ⟨hfy, hz⟩ := relM_valM_inv hrel1
    have hyo : yo = valM y := by rw [hb3, hz]
    have hao2 : ao = a := by rw [hb4, hn1]
    subst hyo
    subst hao2
    have hsy : Prog.IsShape N y := isShape_valM.mp hinv.shape
    have hsim2 := sim_finalLoop checked_exactQ N 0 y (valM y) (relM_valM hfy)
    rw [corr_finalLoop, h2o] at hsim2
    cases hc2 : Prog.finalLoop checked N 0 y with
    | error e =>
      cases e with
      | outOfRange => exact absurd (simOut_outOfRange hsim2 hc2) (by simp [Except.mapError])
      | zeroDivisor => exact absurd (simOut_zeroDivisor hsim2 hc2) (by simp [Except.mapError])
      | inexact => exact absurd (gaussJordan_stop_final checked hs.1 hsy.1 hc hc2) hx
    | ok p2 =>
      obtain ⟨r, i⟩ := p2
      obtain ⟨⟨z2, b2⟩, hb5, hrel2, hn2⟩ := simOut_ok hsim2 hc2
      have hrel3 : RelM F64.val (fun v => v.isFinite = true) r z2 := hrel2
      have hn3 : b2 = i := hn2
      have hb6 : (ro, io) = (z2, b2) := by
        simpa [Except.mapError] using hb5
      injection hb6 with hb7 hb8
      obtain ⟨hfr, hz2⟩ := relM_valM_inv hrel3
      have hro : ro = valM r := by rw [hb7, hz2]
      have hio : io = i := by rw [hb8, hn3]
      subst hro
      subst hio
      exact ⟨y, ao, r, io, rfl, hc2, gaussJordan_ok checked hs.1 hsy.1 hc hc2, hfy, hfr, hao,
        h1o, h2o, hfin, hr1, hr2, hr3⟩

/-- On a singular matrix of finite doubles whose reduction rounds nowhere before its first
division by zero, the checked main loop reaches a column whose entries from the diagonal
down are all zero, and the checked reduction stops at a division by zero. -/
theorem singular_exact_run {N : Nat} {m : MatOf F64} (hs : Prog.IsShape N m)
    (hf : AllFinite m) (hsing : ¬ NonSingular N (valM m)) (hx : RunsExactly m) :
    ∃ a y, a < N ∧ Prog.mainLoop checked a 0 m = .ok (y, a) ∧ AllFinite y ∧
      Prog.IsShape N y ∧ rowCanonicalForm (valM y) = .ok false ∧
      (∀ r, a ≤ r → r < N → entry (valM y) r a = 0) ∧
      Prog.gaussJordanElimination checked m = .error .zeroDivisor := by
  have hsv : IsShape N (valM m) := isShape_valM.mpr hs
  obtain ⟨a, yo, ha, h1o, hso, hcan, hzero, herr⟩ := gaussJordan_singular hsv hsing
  have hsim1 := sim_mainLoop checked_exactQ a 0 m (valM m) (relM_valM hf)
  rw [corr_mainLoop, h1o] at hsim1
  have hsimg := sim_gaussJordanElimination checked_exactQ (relM_valM hf)
  rw [corr_gaussJordanElimination, herr] at hsimg
  have hstop : Prog.gaussJordanElimination checked m = .error .zeroDivisor := by
    cases hg : Prog.gaussJordanElimination checked m with
    | ok r =>
      obtain ⟨b, hb, _⟩ := simOut_ok hsimg hg
      simp [Except.mapError] at hb
    | error e =>
      cases e with
      | outOfRange =>
        have := simOut_outOfRange hsimg hg
        simp [Except.mapError, toStop] at this
      | zeroDivisor => rfl
      | inexact => exact absurd hg hx
  cases hc : Prog.mainLoop checked a 0 m with
  | error e =>
    cases e with
    | outOfRange => exact absurd (simOut_outOfRange hsim1 hc) (by simp [Except.mapError])
    | zeroDivisor => exact absurd (simOut_zeroDivisor hsim1 hc) (by simp [Except.mapError])
    | inexact =>
      have hmono := Prog.mainLoop_stop_mono checked .inexact a 0 m hc (N - a)
      have hN : a + (N - a) = N := by omega
      rw [hN] at hmono
      exact absurd (gaussJordan_stop_main checked hs.1 hmono) hx
  | ok p =>
    obtain ⟨y, a1⟩ := p
    obtain ⟨⟨z, b⟩, hb, hrel, hn⟩ := simOut_ok hsim1 hc
    have hrel1 : RelM F64.val (fun v => v.isFinite = true) y z := hrel
    have hn1 : b = a1 := hn
    have hb2 : (yo, a) = (z, b) := by
      simpa [Except.mapError] using hb
    injection hb2 with hb3 hb4
    obtain ⟨hfy, hz⟩ := relM_valM_inv hrel1
    have hyo : yo = valM y := by rw [hb3, hz]
    have hao2 : a = a1 := by rw [hb4, hn1]
    subst hyo
    subst hao2
    exact ⟨a, y, ha, hc, hfy, isShape_valM.mp hso, hcan, hzero, hstop⟩

/-! ## Further facts on runs in double arithmetic -/

/-- What the checked reduction returns on finite doubles has finite entries, and the exact
reference run returns its values. -/
theorem exact_of_checked {m r : MatOf F64} (hf : AllFinite m)
    (h : Prog.gaussJordanElimination checked m = .ok r) :
    AllFinite r ∧ gaussJordanElimination (valM m) = .ok (valM r) := by
  have hsim := sim_gaussJordanElimination checked_exactQ (relM_valM hf)
  rw [corr_gaussJordanElimination] at hsim
  obtain ⟨z, hz, hrel⟩ := simOut_ok hsim h
  obtain ⟨hfr, hzr⟩ := relM_valM_inv hrel
  rw [hzr] at hz
  exact ⟨hfr, mapError_ok hz⟩

theorem lastOf_finite {r : MatOf F64} (hf : AllFinite r) :
    ∀ v ∈ r.map (Prog.lastOf (.fin false 0)), v.isFinite = true := by
  intro v hv
  obtain ⟨row, hrow, rfl⟩ := List.mem_map.mp hv
  unfold Prog.lastOf
  cases hl : row.getLast? with
  | none => simp [F64.isFinite]
  | some w =>
    simp only [Option.getD_some]
    exact hf row hrow w (List.mem_of_mem_getLast? hl)

theorem div_one_zero {z : F64} (hfin : z.isFinite = true) (hz : z.isZero = true) :
    ∃ s, F64.div (.fin false 1) z = .inf s := by
  cases z with
  | fin t n =>
    have hn : n = 0 := by simpa [F64.isZero] using hz
    subst hn
    exact ⟨xor false t, by simp [F64.div]⟩
  | inf s => simp [F64.isFinite] at hfin
  | nan => simp [F64.isFinite] at hfin

/-- Step (3) on a pivot that compares equal to zero divides by zero. -/
theorem normalizeStep_guarded_zero {N : Nat} {y : MatOf F64} (h : Prog.IsShape N y)
    {a : Nat} (ha : a < N) (hz : (entryD y a a).isZero = true) :
    Prog.normalizeStep guarded a y = .error .zeroDivisor := by
  have hrd : Prog.rd y a a = .ok (entryD y a a) := rdD_eq h ha (le_of_lt ha)
  simp [Prog.normalizeStep, hrd, Prog.rowSize_shaped h ha, Prog.forRange,
    Prog.normalizeBody, guarded, hz]

theorem add_negOne_isOne {v : F64} (h : v.isOne = true) :
    (F64.add (.fin true 1) v).isZero = true := by
  cases v with
  | fin neg mag =>
    have hv : (if neg = true then -mag else mag) = 1 := by simpa [F64.isOne] using h
    have hx : F64.val (.fin true 1) + F64.val (.fin neg mag) = 0 := by
      simp only [F64.val, if_true]
      rw [hv]; norm_num
    unfold F64.add
    simp only [hx, if_true]
    split_ifs <;> simp [F64.isZero]
  | inf s => simp [F64.isOne] at h
  | nan => simp [F64.isOne] at h

/-- The final pass from any row always returns a matrix of the same shape. -/
theorem finalLoopD_shape {N : Nat} :
    ∀ (k i : Nat) (y : MatOf F64), Prog.IsShape N y → i + k ≤ N →
      ∃ y1 i1, Prog.finalLoop ieee k i y = .ok (y1, i1) ∧ Prog.IsShape N y1 ∧
        i ≤ i1 ∧ i1 ≤ i + k := by
  intro k
  induction k with
  | zero =>
    intro i y h _
    exact ⟨y, i, rfl, h, le_refl _, le_refl _⟩
  | succ k ih =>
    intro i y h hik
    obtain ⟨b, hb, _⟩ := Prog.rowCanonicalForm_returns ieee y
    cases b with
    | true => exact ⟨y, i, by simp [Prog.finalLoop, hb], h, le_refl _, by omega⟩
    | false =>
      obtain ⟨y1, hc, hs1, _⟩ := finalStepD_spec h (show i < N by omega)
      obtain ⟨y2, i2, hrun, hs2, h1, h2⟩ := ih (i + 1) y1 hs1 (by omega)
      exact ⟨y2, i2, by simp [Prog.finalLoop, hb, hc, hrun], hs2, by omega, by omega⟩

/-- The final pass without rounding, started on finite doubles that are zero off the
diagonal and non-zero on it left of the last column: the checked pass returns, and the
pass of the exact reference run returns its values. -/
theorem exact_final_run {N : Nat} {y : MatOf F64} (hs : Prog.IsShape N y) (hf : AllFinite y)
    (hoff : ∀ i < N, ∀ j < N, i ≠ j → (entryD y i j).isZero = true)
    (hdiag : ∀ i < N, (entryD y i i).isZero = false)
    (hx : Prog.finalLoop checked N 0 y ≠ .error .inexact) :
    FinalInv N (valM y) 0 (valM y) ∧
    ∃ r i, Prog.finalLoop checked N 0 y = .ok (r, i) ∧ AllFinite r ∧
      finalLoop N 0 (valM y) = .ok (valM r, i) := by
  have hinv : FinalInv N (valM y) 0 (valM y) := by
    refine ⟨isShape_valM.mpr hs, ?_, ?_, by intro j hj; omega, SameNull.refl N _⟩
    · intro i hi j hj hij
      rw [entry_valM]
      exact (val_eq_zero (entryD_finite hf i j)).mpr (hoff i hi j hj hij)
    · intro i hi hzero
      rw [entry_valM] at hzero
      have := (val_eq_zero (entryD_finite hf i i)).mp hzero
      rw [hdiag i hi] at this
      exact Bool.noConfusion this
  refine ⟨hinv, ?_⟩
  obtain ⟨ro, io, h2o, _⟩ := finalLoop_spec N 0 (valM y) (by omega) hinv
  have hsim2 := sim_finalLoop checked_exactQ N 0 y (valM y) (relM_valM hf)
  rw [corr_finalLoop, h2o] at hsim2
  cases hc2 : Prog.finalLoop checked N 0 y with
  | error e =>
    cases e with
    | outOfRange => exact absurd (simOut_outOfRange hsim2 hc2) (by simp [Except.mapError])
    | zeroDivisor => exact absurd (simOut_zeroDivisor hsim2 hc2) (by simp [Except.mapError])
    | inexact => exact absurd hc2 hx
  | ok p2 =>
    obtain ⟨r, i⟩ := p2
    obtain ⟨⟨z2, b2⟩, hb5, hrel2, hn2⟩ := simOut_ok hsim2 hc2
    have hrel3 : RelM F64.val (fun v => v.isFinite = true) r z2 := hrel2
    have hn3 : b2 = i := hn2
    have hb6 : (ro, io) = (z2, b2) := by
      simpa [Except.mapError] using hb5
    injection hb6 with hb7 hb8
    obtain ⟨hfr, hz2⟩ := relM_valM_inv hrel3
    have hro : ro = valM r := by rw [hb7, hz2]
    have hio : io = i := by rw [hb8, hn3]
    subst hro
    subst hio
    exact ⟨r, io, rfl, hfr, h2o⟩

/-! ## The claims on the whole reduction, in double arithmetic -/

/-- C12 (shape preservation).  For every `N x (N+1)` input `m` of doubles: the copy is `m`
itself; on every `N x (N+1)` working matrix the pivot search, the normalization, the
elimination and the final-pass step return a matrix of the same shape; every run of the
main loop and of the final pass returns an `N x (N+1)` matrix; and the reduction returns
a matrix with exactly `N` rows of exactly `N + 1` entries each.  In double arithmetic no
division stops a run, so this holds on every input, singular ones included. -/
theorem shape_preserved_doubles (N : Nat) (m : MatOf F64) (hs : Prog.IsShape N m) :
    Prog.copyMatrix ieee m = .ok m ∧
    (∀ (y : MatOf F64) (a : Nat), Prog.IsShape N y → a < N →
      (∃ y1, Prog.pivotStep ieee a y = .ok y1 ∧ Prog.IsShape N y1) ∧
      (∃ y1, Prog.normalizeStep ieee a y = .ok y1 ∧ Prog.IsShape N y1) ∧
      (∃ y1, Prog.eliminateStep ieee a y = .ok y1 ∧ Prog.IsShape N y1) ∧
      (∃ y1, Prog.finalStep ieee a y = .ok y1 ∧ Prog.IsShape N y1)) ∧
    (∀ (k a : Nat) (y : MatOf F64), Prog.IsShape N y → a + k ≤ N →
      ∃ y1 a1, Prog.mainLoop ieee k a y = .ok (y1, a1) ∧ Prog.IsShape N y1) ∧
    (∀ (k i : Nat) (y : MatOf F64), Prog.IsShape N y → i + k ≤ N →
      ∃ y1 i1, Prog.finalLoop ieee k i y = .ok (y1, i1) ∧ Prog.IsShape N y1) ∧
    ∃ r, Prog.gaussJordanElimination ieee m = .ok r ∧ r.length = N ∧
      ∀ row ∈ r, row.length = N + 1 := by
  refine ⟨Prog.copyMatrix_returns ieee m, ?_, ?_, ?_, ?_⟩
  · intro y a hy ha
    obtain ⟨y1, h1, hs1, _⟩ := Prog.pivotStep_returns ieee hy ha
    obtain ⟨y2, h2, hs2, _⟩ := normalizeStepD_spec hy ha
    obtain ⟨y3, h3, hs3, _⟩ := eliminateStepD_spec hy ha
    obtain ⟨y4, h4, hs4, _⟩ := finalStepD_spec hy ha
    exact ⟨⟨y1, h1, hs1⟩, ⟨y2, h2, hs2⟩, ⟨y3, h3, hs3⟩, ⟨y4, h4, hs4⟩⟩
  · intro k a y hy hak
    obtain ⟨y1, a1, h1, hs1, _⟩ := mainLoopD_returns k a y hy hak
    exact ⟨y1, a1, h1, hs1⟩
  · intro k i y hy hik
    obtain ⟨y1, i1, h1, hs1, _⟩ := finalLoopD_shape k i y hy hik
    exact ⟨y1, i1, h1, hs1⟩
  · obtain ⟨_, _, r, _, _, _, _, _, _, _, hr, hrun, _⟩ := gaussJordanD_returns hs
    exact ⟨r, hrun, hr.1, hr.2⟩

theorem shape_preserved_doubles_witness :
    Prog.IsShape 2 scenarioSingularD ∧
      ∃ r, Prog.gaussJordanElimination ieee scenarioSingularD = .ok r ∧ r.length = 2 ∧
        ∀ row ∈ r, row.length = 2 + 1 :=
  ⟨by decide!, (shape_preserved_doubles 2 scenarioSingularD (by decide!)).2.2.2.2⟩

/-! ## The claims on the single steps and the loops, in double arithmetic -/

/-- C14, counterexample.  The rows `[1,0,0],[49,1,0]` have `y[0][0] == 1`.  In double
arithmetic step (4) at column `0` computes `49 * (-1 / 49) + 1` for the entry at `(1,0)`:
the product is `-(1 - 2^-53)`, so the entry becomes `2^-53` and column `0` does not hold
`0` in row `1`. -/
theorem elimination_step_counterexample :
    Prog.IsShape 2 driftExample ∧ (entryD driftExample 0 0).isOne = true ∧
    F64.mul (.fin false 49) (F64.div (.fin true 1) (.fin false 49))
      = .fin true (9007199254740991 / 9007199254740992) ∧
    ∃ y1, Prog.eliminateStep ieee 0 driftExample = .ok y1 ∧
      entryD y1 1 0 = .fin false (1 / 9007199254740992) ∧
      (entryD y1 1 0).isZero = false :=
  ⟨by decide!, by decide!, by decide!,
    [[.fin false 1, .fin false 0, .fin false 0],
      [.fin false (1 / 9007199254740992),
        .fin true (5882252574524729 / 288230376151711744), .fin false 0]],
    by decide!, by decide!, by decide!⟩

/-- C14, amended (elimination step in double arithmetic).  At column `a < N` of an
`N x (N+1)` working matrix `y` of doubles with `y[a][a] == 1`, step (4) returns a matrix
`y1` of the same shape in which every row `i ≠ a` with `c = y[i][a] != 0` is, column by
column, the rounded sum of the rounded product `y[i][j] * (-1 / c)` and `y[a][j]` (all
values those before the step, the quotient rounded), every row `i ≠ a` with
`y[i][a] == 0` and row `a` are unchanged, and column `a` holds `1` at row `a` and `0` in
every other row `i` whose rounded product `c * (-1 / c)` is `-1`. -/
theorem elimination_step_doubles (N : Nat) (y : MatOf F64) (a : Nat)
    (hs : Prog.IsShape N y) (ha : a < N) (hp : (entryD y a a).isOne = true) :
    ∃ y1, Prog.eliminateStep ieee a y = .ok y1 ∧ Prog.IsShape N y1 ∧
      (∀ i, i < N → i ≠ a → (entryD y i a).isZero = false →
        ∀ j, j ≤ N → entryD y1 i j
          = F64.add (F64.mul (entryD y i j) (F64.div (.fin true 1) (entryD y i a)))
              (entryD y a j)) ∧
      (∀ i, i ≠ a → (entryD y i a).isZero = true → ∀ j, entryD y1 i j = entryD y i j) ∧
      (∀ j, entryD y1 a j = entryD y a j) ∧
      (entryD y1 a a).isOne = true ∧
      (∀ i, i < N → i ≠ a →
        ((entryD y i a).isZero = true ∨
          F64.mul (entryD y i a) (F64.div (.fin true 1) (entryD y i a)) = .fin true 1) →
        (entryD y1 i a).isZero = true) := by
  obtain ⟨y1, hrun, hs1, he⟩ := eliminateStepD_spec hs ha
  refine ⟨y1, hrun, hs1, ?_, ?_, ?_, ?_, ?_⟩
  · intro i _ hia hc j hj
    rw [he i j, eliminatedD, if_pos ⟨hia, hj, hc⟩]
  · intro i _ hc j
    rw [he i j, eliminatedD]; simp [hc]
  · intro j
    rw [he a j, eliminatedD]; simp
  · rw [he a a, eliminatedD]; simpa using hp
  · intro i _ hia hcase
    rw [he i a, eliminatedD]
    by_cases hc : (entryD y i a).isZero = true
    · simp [hc]
    · have hc2 : (entryD y i a).isZero = false := by simpa using hc
      rcases hcase with h1 | h1
      · exact absurd h1 hc
      · rw [if_pos ⟨hia, le_of_lt ha, hc2⟩, h1]
        exact add_negOne_isOne hp

theorem elimination_step_doubles_witness :
    Prog.IsShape 2 exactExample ∧ 0 < 2 ∧ (entryD exactExample 0 0).isOne = true ∧
      ∃ y1, Prog.eliminateStep ieee 0 exactExample = .ok y1 ∧ Prog.IsShape 2 y1 ∧
        (∀ j, j ≤ 2 → entryD y1 1 j
          = F64.add (F64.mul (entryD exactExample 1 j)
              (F64.div (.fin true 1) (entryD exactExample 1 0))) (entryD exactExample 0 j)) ∧
        (entryD y1 0 0).isOne = true ∧ (entryD y1 1 0).isZero = true := by
  obtain ⟨y1, h1, h2, h3, _, _, h6, h7⟩ :=
    elimination_step_doubles 2 exactExample 0 (by decide!) (by decide) (by decide!)
  exact ⟨by decide!, by decide, by decide!, y1, h1, h2,
    h3 1 (by decide) (by decide) (by decide!), h6,
    h7 1 (by decide) (by decide) (Or.inr (by decide!))⟩

/-- C16, counterexample.  The rows `[1,1,3],[1,2,5]` are a `2 x 3` matrix of finite doubles
with non-singular coefficient part on which no operation of the reduction rounds.  The
main loop ends on `[[-1,0,-1],[-0,1,2]]`, with `-1` at `(0,0)`: the elimination of column
`1` has multiplied row `0` by `-1`.  That matrix is not in row canonical form, and the
reduction without its final pass returns it, not the matrix `[[1,-0,1],[-0,1,2]]` that
`gaussJordanElimination` returns.  Scenario 1 ends its main loop in double arithmetic with
`-1.0000000000000004` at `(1,1)`, not in row canonical form either. -/
theorem final_pass_only_drift_counterexample :
    Prog.IsShape 2 exactExample ∧ AllFinite exactExample ∧
    NonSingular 2 (valM exactExample) ∧ RunsExactly exactExample ∧
    (∃ y, Prog.mainLoop ieee exactExample.length 0 exactExample = .ok (y, 2) ∧
      y = [[.fin true 1, .fin false 0, .fin true 1], [.fin true 0, .fin false 1, .fin false 2]] ∧
      (entryD y 0 0).isOne = false ∧
      Prog.rowCanonicalForm ieee y = .ok false ∧
      Prog.gaussJordanNoFinalPass ieee exactExample = .ok y) ∧
    Prog.gaussJordanElimination ieee exactExample
      = .ok [[.fin false 1, .fin true 0, .fin false 1],
          [.fin true 0, .fin false 1, .fin false 2]] ∧
    Prog.gaussJordanNoFinalPass ieee exactExample
      ≠ Prog.gaussJordanElimination ieee exactExample ∧
    (∃ y, Prog.mainLoop ieee scenario1D.length 0 scenario1D = .ok (y, 3) ∧
      entryD y 1 1 = .fin true (2251799813685249 / 2251799813685248) ∧
      Prog.rowCanonicalForm ieee y = .ok false ∧
      Prog.gaussJordanNoFinalPass ieee scenario1D = .ok y ∧
      Prog.gaussJordanNoFinalPass ieee scenario1D
        ≠ Prog.gaussJordanElimination ieee scenario1D) :=
  ⟨by decide!, by decide!, by decide!, by decide!,
    ⟨[[.fin true 1, .fin false 0, .fin true 1], [.fin true 0, .fin false 1, .fin false 2]],
      by decide!, rfl, by decide!, by decide!, by decide!⟩,
    by decide!, by decide!,
    ⟨[[.fin false (4503599627370497 / 4503599627370496), .fin false 0, .fin false 0,
        .fin false (2251799813685249 / 1125899906842624)],
      [.fin false 0, .fin true (2251799813685249 / 2251799813685248), .fin false 0,
        .fin true (3377699720527873 / 1125899906842624)],
      [.fin false 0, .fin false 0, .fin false 1,
        .fin true (4503599627370495 / 4503599627370496)]],
      by decide!, by decide!, by decide!, by decide!, by decide!⟩⟩

/-- C16, amended (what the final pass does).  In double arithmetic normalization leaves
the rounded product `p * (1 / p)` at `(a,a)`; for every `N x (N+1)` matrix `m` the
reduction without its final pass returns the matrix `y` on which the main loop ends, and
`gaussJordanElimination` returns `y` itself whenever `y` is in row canonical form.  If
the entries of `m` are finite, the coefficient part is non-singular and no operation of
the reduction rounds, then `y` is diagonal left of the last column with diagonal entries
that are non-zero and need not be `1`, `gaussJordanElimination` returns a matrix in row
canonical form whose rows have the values of the rows of `y` divided by `y[i][i]`, and the
two results are the same matrix exactly when `y` is already in row canonical form. -/
theorem final_pass_normalizes_diagonal_doubles (N : Nat) (m : MatOf F64)
    (hs : Prog.IsShape N m) :
    (∀ (y : MatOf F64) (a : Nat), Prog.IsShape N y → a < N →
      ∃ y1, Prog.normalizeStep ieee a y = .ok y1 ∧
        entryD y1 a a = F64.mul (entryD y a a) (F64.div (.fin false 1) (entryD y a a))) ∧
    (∃ y r, Prog.gaussJordanNoFinalPass ieee m = .ok y ∧
      Prog.gaussJordanElimination ieee m = .ok r ∧
      (Prog.rowCanonicalForm ieee y = .ok true → y = r)) ∧
    (AllFinite m → NonSingular N (valM m) → RunsExactly m →
      ∃ y r, Prog.gaussJordanNoFinalPass ieee m = .ok y ∧
        Prog.gaussJordanElimination ieee m = .ok r ∧ AllFinite y ∧ AllFinite r ∧
        (∀ i < N, ∀ j < N, i ≠ j → (entryD y i j).isZero = true) ∧
        (∀ i < N, (entryD y i i).isZero = false) ∧
        Prog.rowCanonicalForm ieee r = .ok true ∧
        (∀ i < N, ∀ c, F64.val (entryD r i c)
          = F64.val (entryD y i c) / F64.val (entryD y i i)) ∧
        (y = r ↔ Prog.rowCanonicalForm ieee y = .ok true)) := by
  refine ⟨?_, ?_, ?_⟩
  · intro y a hy ha
    obtain ⟨y1, hrun, _, he⟩ := normalizeStepD_spec hy ha
    refine ⟨y1, hrun, ?_⟩
    rw [he a a, scaledD, if_pos ⟨rfl, le_of_lt ha⟩]
  · obtain ⟨y, _, r, _, _, _, _, hy, h2, _, _, hrun, hno⟩ := gaussJordanD_returns hs
    refine ⟨y, r, hno, hrun, ?_⟩
    intro hcan
    rw [Prog.finalLoop_canonical ieee hcan] at h2
    injection h2 with hp
    injection hp
  · intro hf hns hx
    obtain ⟨y, a, r, i, hmain, hfinal, hrun, hfy, hfr, _, _, h2o, hfin, hr1, hr2, _⟩ :=
      exact_run hs hf hns hx
    have hmainD := mainLoop_of_checked hmain
    have hfinalD := finalLoop_of_checked hfinal
    have hcanr : Prog.rowCanonicalForm ieee r = .ok true := by
      rw [← rowCanonicalForm_valM_iff hfr, rowCanonicalForm_true_iff, hr1.1]
      exact ⟨hr1, hr2⟩
    obtain ⟨ro, io, h2o', _, _, _, _, _, _, hdiv⟩ := finalLoop_divides hfin
    rw [h2o] at h2o'
    injection h2o' with hp
    injection hp with hro _
    refine ⟨y, r, by simp [Prog.gaussJordanNoFinalPass, Prog.copyMatrix_returns, hs.1, hmainD],
      (gaussJordan_of_checked hrun).1, hfy, hfr, ?_, ?_, hcanr, ?_, ?_⟩
    · intro i hi j hj hij
      have := hfin.offdiag i hi j hj hij
      rw [entry_valM] at this
      exact (val_eq_zero (entryD_finite hfy i j)).mp this
    · intro i hi
      have := hfin.diag i hi
      rw [entry_valM] at this
      cases hz : (entryD y i i).isZero with
      | false => rfl
      | true => exact absurd ((val_eq_zero (entryD_finite hfy i i)).mpr hz) this
    · intro i hi c
      have := hdiv i hi c
      rw [← hro, entry_valM, entry_valM, entry_valM] at this
      exact this
    · constructor
      · intro hyr
        rw [hyr]; exact hcanr
      · intro hcan
        rw [Prog.finalLoop_canonical ieee hcan] at hfinalD
        injection hfinalD with hp
        injection hp

theorem final_pass_normalizes_diagonal_doubles_witness :
    Prog.IsShape 2 exactExample ∧ AllFinite exactExample ∧
      NonSingular 2 (valM exactExample) ∧ RunsExactly exactExample ∧
      ∃ y r, Prog.gaussJordanNoFinalPass ieee exactExample = .ok y ∧
        Prog.gaussJordanElimination ieee exactExample = .ok r ∧ AllFinite y ∧ AllFinite r ∧
        (∀ i < 2, ∀ j < 2, i ≠ j → (entryD y i j).isZero = true) ∧
        (∀ i < 2, (entryD y i i).isZero = false) ∧
        Prog.rowCanonicalForm ieee r = .ok true ∧
        (∀ i < 2, ∀ c, F64.val (entryD r i c)
          = F64.val (entryD y i c) / F64.val (entryD y i i)) ∧
        (y = r ↔ Prog.rowCanonicalForm ieee y = .ok true) :=
  ⟨by decide!, by decide!, by decide!, by decide!,
    (final_pass_normalizes_diagonal_doubles 2 exactExample (by decide!)).2.2 (by decide!)
      (by decide!) (by decide!)⟩

/-- C17, counterexample.  The `1 x 2` matrix `[[49, 5]]` has no off-diagonal entry left of
the last column and a non-zero diagonal entry.  In double arithmetic the final pass visits
row `0` and multiplies it by the rounded `1 / 49`: the diagonal entry becomes
`49 * (1 / 49) = 0.9999999999999999`, the result is not in row canonical form, and its
last-column entry `5 * (1 / 49) = 0.1020408163265306` is neither the double quotient
`5 / 49 = 0.10204081632653061` nor a double with the value `5 / 49`. -/
theorem final_pass_semantics_counterexample :
    Prog.IsShape 1 reciprocalExample ∧ AllFinite reciprocalExample ∧
    (∀ i < 1, ∀ j < 1, i ≠ j → (entryD reciprocalExample i j).isZero = true) ∧
    (∀ i < 1, (entryD reciprocalExample i i).isZero = false) ∧
    ∃ r, Prog.finalLoop ieee reciprocalExample.length 0 reciprocalExample = .ok (r, 1) ∧
      entryD r 0 0 = .fin false (9007199254740991 / 9007199254740992) ∧
      Prog.rowCanonicalForm ieee r = .ok false ∧
      entryD r 0 1 = .fin false (7352815718155911 / 72057594037927936) ∧
      entryD r 0 1 ≠ F64.div (entryD reciprocalExample 0 1) (entryD reciprocalExample 0 0) ∧
      F64.val (entryD r 0 1)
        ≠ F64.val (entryD reciprocalExample 0 1) / F64.val (entryD reciprocalExample 0 0) :=
  ⟨by decide!, by decide!, by decide!, by decide!,
    [[.fin false (9007199254740991 / 9007199254740992),
      .fin false (7352815718155911 / 72057594037927936)]],
    by decide!, by decide!, by decide!, by decide!, by decide!, by decide!⟩

/-- C17, amended (final pass semantics in double arithmetic).  Started on an `N x (N+1)`
matrix `y` of doubles the final pass returns; it visits the rows `0, ..., i1 - 1` in
order, each one on a matrix that is not yet canonical, and stops at `i1`; every visited
row is the old row multiplied, entry by entry, by the rounded reciprocal of its diagonal
entry `y[i][i]`, the rows from `i1` on are unchanged; a pass that stops before row `N`
stops on a matrix in row canonical form.  If moreover the entries of `y` are finite, the
off-diagonal entries left of the last column are zero, the diagonal entries are non-zero
and no operation of the pass rounds, the result is in row canonical form and the value of
its last-column entry in row `i` is `y[i][N] / y[i][i]`. -/
theorem final_pass_semantics_doubles (N : Nat) (y : MatOf F64) (hs : Prog.IsShape N y) :
    ∃ r i1, Prog.finalLoop ieee y.length 0 y = .ok (r, i1) ∧ i1 ≤ N ∧ Prog.IsShape N r ∧
      (∀ i, i < i1 →
        ∃ yi, Prog.finalLoop ieee i 0 y = .ok (yi, i) ∧
          Prog.rowCanonicalForm ieee yi = .ok false) ∧
      (∀ i, i < i1 → ∀ c, c ≤ N → entryD r i c
        = F64.mul (entryD y i c) (F64.div (.fin false 1) (entryD y i i))) ∧
      (∀ i, i1 ≤ i → ∀ c, entryD r i c = entryD y i c) ∧
      (i1 < N → Prog.rowCanonicalForm ieee r = .ok true) ∧
      (AllFinite y → (∀ i < N, ∀ j < N, i ≠ j → (entryD y i j).isZero = true) →
        (∀ i < N, (entryD y i i).isZero = false) →
        Prog.finalLoop checked N 0 y ≠ .error .inexact →
        Prog.rowCanonicalForm ieee r = .ok true ∧ AllFinite r ∧
        ∀ i < N, F64.val (entryD r i N) = F64.val (entryD y i N) / F64.val (entryD y i i)) := by
  obtain ⟨r, i1, hrun, hr, _, hi1, hvis, hrest, hord, hstop⟩ :=
    finalLoopD_returns N 0 y hs (by omega)
  refine ⟨r, i1, by rw [hs.1]; exact hrun, hi1, hr, ?_, ?_, ?_, hstop, ?_⟩
  · intro i hi
    simpa using hord i (Nat.zero_le _) hi
  · intro i hi c hc
    rw [hvis i c (Nat.zero_le _) hi, scaledD, if_pos ⟨rfl, hc⟩]
  · intro i hi c
    exact hrest i c (Or.inr hi)
  · intro hf hoff hdiag hx
    obtain ⟨hinv, r1, i2, hc, hfr, hold⟩ := exact_final_run hs hf hoff hdiag hx
    have hD := finalLoop_of_checked hc
    rw [hrun] at hD
    injection hD with hp
    injection hp with hrr _
    subst hrr
    obtain ⟨ro, io, h2o, _, hr1, hr2, _, _, _, hdiv⟩ := finalLoop_divides hinv
    rw [hold] at h2o
    injection h2o with hp2
    injection hp2 with hro _
    rw [← hro] at hr1 hr2 hdiv
    refine ⟨?_, hfr, ?_⟩
    · rw [← rowCanonicalForm_valM_iff hfr, rowCanonicalForm_true_iff, hr1.1]
      exact ⟨hr1, hr2⟩
    · intro i hi
      have := hdiv i hi N
      rw [entry_valM, entry_valM, entry_valM] at this
      exact this

theorem final_pass_semantics_doubles_witness :
    Prog.IsShape 2 (parsed diagonalExample) ∧
      ∃ r i1, Prog.finalLoop ieee (parsed diagonalExample).length 0 (parsed diagonalExample)
          = .ok (r, i1) ∧ i1 ≤ 2 ∧ Prog.IsShape 2 r ∧
        (∀ i, i < i1 → ∀ c, c ≤ 2 → entryD r i c
          = F64.mul (entryD (parsed diagonalExample) i c)
              (F64.div (.fin false 1) (entryD (parsed diagonalExample) i i))) ∧
        (∀ i, i1 ≤ i → ∀ c, entryD r i c = entryD (parsed diagonalExample) i c) ∧
        Prog.rowCanonicalForm ieee r = .ok true ∧
        ∀ i < 2, F64.val (entryD r i 2)
          = F64.val (entryD (parsed diagonalExample) i 2)
            / F64.val (entryD (parsed diagonalExample) i i) := by
  obtain ⟨r, i1, h1, h2, h3, _, h5, h6, _, h8⟩ :=
    final_pass_semantics_doubles 2 (parsed diagonalExample) (by decide!)
  obtain ⟨h9, _, h10⟩ := h8 (by decide!) (by decide!) (by decide!) (by decide!)
  exact ⟨by decide!, r, i1, h1, h2, h3, h5, h6, h9, h10⟩

end GaussJordan
